import Mathlib

/-!
# ChatTracker: a shallow embedding of `ChatTracker.cpp`

The C++ program keeps `User` and `Chat` objects on the heap and links them by raw
pointers.  The embedding makes the heap explicit:

* a pointer is a natural number, the index of the object in `userHeap` / `chatHeap`;
* `new` appends the object to its heap and returns the index of the new cell, so an
  address is never handed out twice (`WF.hist_live` and `WF.chat_bucket` show that no pointer
  to a deleted chat is kept anywhere, so a C++ allocator that reuses addresses behaves the
  same);
* `delete` overwrites the cell of a chat with `none` (a user is only deleted by the
  destructor, so `userHeap` has no empty cells);
* `nullptr` is `none : Option Nat`.

`std::hash<string>` is implementation defined, so every definition that hashes a name takes
the hash function as its first argument `hash : String → Nat`.

The C++ counters have type `int`; signed overflow is undefined behaviour in C++, so the
embedding describes the executions in which no counter overflows and uses `Int`.

Dereferencing a pointer that is not live is undefined behaviour in C++ (every dereference
is marked `!!!! Does not check for nullptr` in the source).  The embedded functions are total:
on a pointer that is not live they leave the object graph alone.  `reachable_wf` shows that no
state reachable through the public operations contains such a pointer.
-/

namespace ChatTracker

/-! ## Data model -/

/-- The `struct User`: `m_chats` is `list< pair<Chat*, int> >`, the current chat in front. -/
structure User where
  m_name : String
  m_chats : List (Nat × Int)
deriving DecidableEq, Repr

/-- The `struct Chat`: `m_users` is `forward_list<User*>`, `m_contributions` an `int`. -/
structure Chat where
  m_name : String
  m_users : List Nat
  m_contributions : Int
deriving DecidableEq, Repr

/-- The `class ChatTrackerImpl`: the bucket count, the two hash tables
(`vector<list<Chat*>>`, `vector<list<User*>>`), and the two heaps the pointers point into. -/
structure ChatTrackerImpl where
  m_maxBuckets : Nat
  m_chats : List (List Nat)
  m_users : List (List Nat)
  chatHeap : List (Option Chat)
  userHeap : List User
deriving DecidableEq, Repr

/-- The constructor `ChatTrackerImpl(int maxBuckets)`: both tables get `maxBuckets` empty buckets. -/
def ChatTrackerImpl.new (maxBuckets : Nat) : ChatTrackerImpl :=
  { m_maxBuckets := maxBuckets
    m_chats := List.replicate maxBuckets []
    m_users := List.replicate maxBuckets []
    chatHeap := []
    userHeap := [] }

/-! ## Heap access -/

/-- Dereference a `User*`. -/
def userAt (s : ChatTrackerImpl) (p : Nat) : Option User :=
  s.userHeap[p]?

/-- Dereference a `Chat*`; a deleted cell gives `none`. -/
def chatAt (s : ChatTrackerImpl) (p : Nat) : Option Chat :=
  match s.chatHeap[p]? with
  | some (some c) => some c
  | _ => none

/-- Store through a `User*`. -/
def setUser (s : ChatTrackerImpl) (p : Nat) (u : User) : ChatTrackerImpl :=
  { s with userHeap := s.userHeap.set p u }

/-- Store through a `Chat*`. -/
def setChat (s : ChatTrackerImpl) (p : Nat) (c : Chat) : ChatTrackerImpl :=
  { s with chatHeap := s.chatHeap.set p (some c) }

/-! ## `User` and `Chat` member functions -/

/-- The test `p->first == chat` of the search loops of `joinChat` and `leaveChat`. -/
def isChat (chat : Nat) (e : Nat × Int) : Bool := e.1 == chat

/-- The member function `Chat::addUser`: `m_users.insert_after(m_users.before_begin(), user)`. -/
def Chat.addUser (c : Chat) (user : Nat) : Chat :=
  { c with m_users := user :: c.m_users }

/-- The member function `Chat::recContribution`: `m_contributions++`. -/
def Chat.recContribution (c : Chat) : Chat :=
  { c with m_contributions := c.m_contributions + 1 }

/-- The member function `User::leaveChat`, on the user object: the first entry for `chat` is erased and its
count returned, `-1` when there is none. -/
def User.leaveChat (u : User) (chat : Nat) : User × Int :=
  match u.m_chats.find? (isChat chat) with
  | some e => ({ u with m_chats := u.m_chats.eraseP (isChat chat) }, e.2)
  | none => (u, -1)

/-- The member function `User::leaveCurrChat`, on the user object. -/
def User.leaveCurrChat (u : User) : User × Int :=
  match u.m_chats with
  | [] => (u, -1)
  | e :: rest => ({ u with m_chats := rest }, e.2)

/-- The call `user->leaveChat(chat)` through a user pointer. -/
def leaveChat (s : ChatTrackerImpl) (user chat : Nat) : ChatTrackerImpl × Int :=
  match userAt s user with
  | none => (s, -1)
  | some u => (setUser s user (u.leaveChat chat).1, (u.leaveChat chat).2)

/-- The call `user->leaveCurrChat()` through a user pointer. -/
def leaveCurrChat (s : ChatTrackerImpl) (user : Nat) : ChatTrackerImpl × Int :=
  match userAt s user with
  | none => (s, -1)
  | some u => (setUser s user u.leaveCurrChat.1, u.leaveCurrChat.2)

/-- The call `user->joinChat(chat)`: an entry for `chat` is moved to the front; otherwise `(chat, 0)`
is pushed in front and `chat->addUser(user)` is called. -/
def joinChat (s : ChatTrackerImpl) (user chat : Nat) : ChatTrackerImpl :=
  match userAt s user with
  | none => s
  | some u =>
    match u.m_chats.find? (isChat chat) with
    | some e => setUser s user { u with m_chats := e :: u.m_chats.eraseP (isChat chat) }
    | none =>
      let s1 := setUser s user { u with m_chats := (chat, 0) :: u.m_chats }
      match chatAt s1 chat with
      | none => s1
      | some c => setChat s1 chat (c.addUser user)

/-- The call `user->contributeToCurrChat()`: `0` without a current chat; otherwise the current chat
records a contribution and the count of the front entry is pre-incremented and returned. -/
def contributeToCurrChat (s : ChatTrackerImpl) (user : Nat) : ChatTrackerImpl × Int :=
  match userAt s user with
  | none => (s, 0)
  | some u =>
    match u.m_chats with
    | [] => (s, 0)
    | e :: rest =>
      let s1 := match chatAt s e.1 with
        | some c => setChat s e.1 c.recContribution
        | none => s
      (setUser s1 user { u with m_chats := (e.1, e.2 + 1) :: rest }, e.2 + 1)

/-- The members `Chat::terminateChat` iterates over. -/
def membersAt (s : ChatTrackerImpl) (chat : Nat) : List Nat :=
  match chatAt s chat with
  | some c => c.m_users
  | none => []

/-- The body of the loop of `Chat::terminateChat`: `(*p)->leaveChat(this)`, result dropped. -/
def terminateStep (chat : Nat) (s : ChatTrackerImpl) (user : Nat) : ChatTrackerImpl :=
  (leaveChat s user chat).1

/-- The call `chat->terminateChat()`: every pointer in `m_users` leaves, then `m_contributions` is
returned. -/
def terminateChat (s : ChatTrackerImpl) (chat : Nat) : ChatTrackerImpl × Int :=
  let s1 := (membersAt s chat).foldl (terminateStep chat) s
  (s1, match chatAt s1 chat with
       | some c => c.m_contributions
       | none => 0)

/-! ## Hash table functions -/

/-- The member function `ChatTrackerImpl::mapFunc`: `str_hash(hashMe) % m_maxBuckets`. -/
def mapFunc (hash : String → Nat) (s : ChatTrackerImpl) (hashMe : String) : Nat :=
  hash hashMe % s.m_maxBuckets

/-- The bucket `table[b]`. -/
def bucket (table : List (List Nat)) (b : Nat) : List Nat :=
  (table[b]?).getD []

/-- The test `(*p)->m_name == chatName` of `findChat`. -/
def chatNamed (s : ChatTrackerImpl) (chatName : String) (p : Nat) : Bool :=
  match chatAt s p with
  | some c => c.m_name == chatName
  | none => false

/-- The test `(*p)->m_name == userName` of `findUser`. -/
def userNamed (s : ChatTrackerImpl) (userName : String) (p : Nat) : Bool :=
  match userAt s p with
  | some u => u.m_name == userName
  | none => false

/-- The member function `ChatTrackerImpl::findChat`: linear search of the bucket of the name. -/
def findChat (hash : String → Nat) (s : ChatTrackerImpl) (chatName : String) : Option Nat :=
  (bucket s.m_chats (mapFunc hash s chatName)).find? (chatNamed s chatName)

/-- The member function `ChatTrackerImpl::findUser`: linear search of the bucket of the name. -/
def findUser (hash : String → Nat) (s : ChatTrackerImpl) (userName : String) : Option Nat :=
  (bucket s.m_users (mapFunc hash s userName)).find? (userNamed s userName)

/-! ## Implementation functions -/

/-- The allocation `new Chat(chat)` followed by `m_chats[mapFunc(chat)].push_back(chatToAdd)`. -/
def newChat (hash : String → Nat) (s : ChatTrackerImpl) (chat : String) : ChatTrackerImpl :=
  { s with
    chatHeap := s.chatHeap ++ [some { m_name := chat, m_users := [], m_contributions := 0 }]
    m_chats := s.m_chats.set (mapFunc hash s chat)
      (bucket s.m_chats (mapFunc hash s chat) ++ [s.chatHeap.length]) }

/-- The allocation `new User(user)` followed by `m_users[mapFunc(user)].push_back(userToAdd)`. -/
def newUser (hash : String → Nat) (s : ChatTrackerImpl) (user : String) : ChatTrackerImpl :=
  { s with
    userHeap := s.userHeap ++ [{ m_name := user, m_chats := [] }]
    m_users := s.m_users.set (mapFunc hash s user)
      (bucket s.m_users (mapFunc hash s user) ++ [s.userHeap.length]) }

/-- First half of `join`: find the chat or make it; the state and `chatToAdd`. -/
def ensureChat (hash : String → Nat) (s : ChatTrackerImpl) (chat : String) :
    ChatTrackerImpl × Nat :=
  match findChat hash s chat with
  | some p => (s, p)
  | none => (newChat hash s chat, s.chatHeap.length)

/-- Second half of `join`: find the user or make it; the state and `userToAdd`. -/
def ensureUser (hash : String → Nat) (s : ChatTrackerImpl) (user : String) :
    ChatTrackerImpl × Nat :=
  match findUser hash s user with
  | some p => (s, p)
  | none => (newUser hash s user, s.userHeap.length)

/-- The member function `ChatTrackerImpl::join`. -/
def join (hash : String → Nat) (s : ChatTrackerImpl) (user chat : String) : ChatTrackerImpl :=
  let c := ensureChat hash s chat
  let u := ensureUser hash c.1 user
  joinChat u.1 u.2 c.2

/-- The statement `m_chats[mapFunc(chat)].remove(toTerminate)` followed by `delete toTerminate`. -/
def deleteChat (hash : String → Nat) (s : ChatTrackerImpl) (chat : String) (p : Nat) :
    ChatTrackerImpl :=
  { s with
    m_chats := s.m_chats.set (mapFunc hash s chat)
      ((bucket s.m_chats (mapFunc hash s chat)).filter (fun q => q != p))
    chatHeap := s.chatHeap.set p none }

/-- The member function `ChatTrackerImpl::terminate`. -/
def terminate (hash : String → Nat) (s : ChatTrackerImpl) (chat : String) :
    ChatTrackerImpl × Int :=
  match findChat hash s chat with
  | none => (s, 0)
  | some p => (deleteChat hash (terminateChat s p).1 chat p, (terminateChat s p).2)

/-- The member function `ChatTrackerImpl::contribute`. -/
def contribute (hash : String → Nat) (s : ChatTrackerImpl) (user : String) :
    ChatTrackerImpl × Int :=
  match findUser hash s user with
  | none => (s, 0)
  | some p => contributeToCurrChat s p

/-- The member function `ChatTrackerImpl::leave(user, chat)`. -/
def leave (hash : String → Nat) (s : ChatTrackerImpl) (user chat : String) :
    ChatTrackerImpl × Int :=
  match findUser hash s user, findChat hash s chat with
  | some u, some c => leaveChat s u c
  | _, _ => (s, -1)

/-- The member function `ChatTrackerImpl::leave(user)`. -/
def leaveCurrent (hash : String → Nat) (s : ChatTrackerImpl) (user : String) :
    ChatTrackerImpl × Int :=
  match findUser hash s user with
  | none => (s, -1)
  | some p => leaveCurrChat s p

/-! ## Sequences of public operations -/

/-- A call of one of the five public member functions. -/
inductive Op where
  | join (user chat : String)
  | terminate (chat : String)
  | contribute (user : String)
  | leave (user chat : String)
  | leaveCurrent (user : String)
deriving DecidableEq, Repr

/-- One call: the new state and the value returned (`none` for the `void` function). -/
def step (hash : String → Nat) (s : ChatTrackerImpl) : Op → ChatTrackerImpl × Option Int
  | .join u c => (join hash s u c, none)
  | .terminate c => ((terminate hash s c).1, some (terminate hash s c).2)
  | .contribute u => ((contribute hash s u).1, some (contribute hash s u).2)
  | .leave u c => ((leave hash s u c).1, some (leave hash s u c).2)
  | .leaveCurrent u => ((leaveCurrent hash s u).1, some (leaveCurrent hash s u).2)

/-- The state after a sequence of calls. -/
def run (hash : String → Nat) (s : ChatTrackerImpl) : List Op → ChatTrackerImpl
  | [] => s
  | op :: ops => run hash (step hash s op).1 ops

/-- The values returned by a sequence of calls, in order. -/
def results (hash : String → Nat) (s : ChatTrackerImpl) : List Op → List (Option Int)
  | [] => []
  | op :: ops => (step hash s op).2 :: results hash (step hash s op).1 ops

/-- A state the public operations can produce from a freshly constructed tracker with at
least one bucket. -/
def Reachable (hash : String → Nat) (s : ChatTrackerImpl) : Prop :=
  ∃ n ops, 0 < n ∧ s = run hash (ChatTrackerImpl.new n) ops

/-! ## The representation invariant, observations by name, and sample runs -/

/-- The representation invariant of the object graph. -/
structure WF (hash : String → Nat) (s : ChatTrackerImpl) : Prop where
  pos : 0 < s.m_maxBuckets
  chats_len : s.m_chats.length = s.m_maxBuckets
  users_len : s.m_users.length = s.m_maxBuckets
  chat_bucket : ∀ b p, p ∈ bucket s.m_chats b →
    ∃ c, chatAt s p = some c ∧ mapFunc hash s c.m_name = b
  chat_found : ∀ p c, chatAt s p = some c → findChat hash s c.m_name = some p
  user_bucket : ∀ b p, p ∈ bucket s.m_users b → p < s.userHeap.length
  user_found : ∀ p u, userAt s p = some u → findUser hash s u.m_name = some p
  hist_live : ∀ p u e, userAt s p = some u → e ∈ u.m_chats →
    ∃ c, chatAt s e.1 = some c ∧ p ∈ c.m_users
  hist_nodup : ∀ p u, userAt s p = some u → (u.m_chats.map Prod.fst).Nodup
  members_valid : ∀ p c q, chatAt s p = some c → q ∈ c.m_users → q < s.userHeap.length

/-- The user object after `leaveChat(chat)`: the entry for `chat`, if any, is gone. -/
def User.without (chat : Nat) (u : User) : User :=
  { u with m_chats := u.m_chats.eraseP (isChat chat) }

/-- The name of the chat a pointer points to (`""` for a pointer that is not live). -/
def chatNameAt (s : ChatTrackerImpl) (p : Nat) : String :=
  match chatAt s p with
  | some c => c.m_name
  | none => ""

/-- The name of the user a pointer points to (`""` for a pointer that is not live). -/
def userNameAt (s : ChatTrackerImpl) (p : Nat) : String :=
  match userAt s p with
  | some u => u.m_name
  | none => ""

/-- A list `m_chats` with every chat pointer replaced by the name of its chat. -/
def namedHistory (s : ChatTrackerImpl) (l : List (Nat × Int)) : List (String × Int) :=
  l.map (fun e => (chatNameAt s e.1, e.2))

/-- The history of the user called `user`, current chat first, as chat names with the
contribution counts; `none` when the user directory has no such user. -/
def history (hash : String → Nat) (s : ChatTrackerImpl) (user : String) :
    Option (List (String × Int)) :=
  (findUser hash s user).bind (fun p => (userAt s p).map (fun u => namedHistory s u.m_chats))

/-- The name of the current chat of the user called `user`, if there is one. -/
def currentChat (hash : String → Nat) (s : ChatTrackerImpl) (user : String) : Option String :=
  (history hash s user).bind (fun l => l.head?.map Prod.fst)

/-- The counter `m_contributions` of the chat called `chat`; `none` when the chat directory
has no such chat. -/
def total (hash : String → Nat) (s : ChatTrackerImpl) (chat : String) : Option Int :=
  (findChat hash s chat).bind (fun p => (chatAt s p).map (fun c => c.m_contributions))

/-- The list `m_users` of the chat called `chat`, as user names, front first. -/
def members (hash : String → Nat) (s : ChatTrackerImpl) (chat : String) :
    Option (List String) :=
  (findChat hash s chat).bind (fun p => (chatAt s p).map (fun c => c.m_users.map (userNameAt s)))

/-- A history after a contribution: the count of the front entry is one higher. -/
def bumpHead : List (String × Int) → List (String × Int)
  | [] => []
  | x :: t => (x.1, x.2 + 1) :: t

/-- A history after `join` of the chat called `r`: the entry for `r` moves to the front
with its count, or a new entry `(r, 0)` is put in front. -/
def joinHistory (r : String) (l : List (String × Int)) : List (String × Int) :=
  match l.find? (fun x => x.1 == r) with
  | some x => x :: l.filter (fun y => y.1 != r)
  | none => (r, 0) :: l

/-- The end-to-end scenario of the specification. -/
def scenario : List Op :=
  [.join "alice" "room1", .contribute "alice", .join "alice" "room2", .contribute "alice",
   .leaveCurrent "alice", .contribute "alice", .terminate "room1"]

/-- A run used to instantiate the theorems: ann and bob join chat `r` and contribute to it,
then ann joins chat `q`. -/
def demoOps : List Op :=
  [.join "ann" "r", .contribute "ann", .join "bob" "r", .contribute "bob", .contribute "ann",
   .join "ann" "q"]

/-- The state after `demoOps` on a tracker with two buckets, hashing a name to its length. -/
def demoState : ChatTrackerImpl :=
  run String.length (ChatTrackerImpl.new 2) demoOps

/-! ## Counters, the reference tracker and the simulation relation -/

/-- A run after which nobody is in chat `r` any more although it received a contribution:
ann joins `r`, contributes once and leaves. -/
def leftOps : List Op :=
  [.join "ann" "r", .contribute "ann", .leave "ann" "r"]

/-- The state after `leftOps` on a tracker with two buckets, hashing a name to its length. -/
def leftState : ChatTrackerImpl :=
  run String.length (ChatTrackerImpl.new 2) leftOps

/-- The contribution count a named history holds for the chat called `r` (0 when the
history does not name `r`). -/
def countIn (r : String) (l : List (String × Int)) : Int :=
  ((l.filter (fun x => x.1 == r)).map Prod.snd).sum

/-- The names of all `User` objects. -/
def userNames (s : ChatTrackerImpl) : List String :=
  s.userHeap.map (fun u => u.m_name)

/-- The sum, over all users, of the count the user holds for the chat called `r`. -/
def contributionSum (hash : String → Nat) (s : ChatTrackerImpl) (r : String) : Int :=
  ((userNames s).map (fun n => countIn r ((history hash s n).getD []))).sum

/-- The counter invariant: no count and no total is negative, and the total of a chat is at
least the sum of the counts the users hold for it. -/
structure Counters (hash : String → Nat) (s : ChatTrackerImpl) : Prop where
  count_nonneg : ∀ n l x, history hash s n = some l → x ∈ l → 0 ≤ x.2
  total_nonneg : ∀ r t, total hash s r = some t → 0 ≤ t
  sum_le : ∀ r t, total hash s r = some t → contributionSum hash s r ≤ t

/-- The reference tracker of the specification: the user directory maps a name to the
history of that user (room names with counts, current room first), the room directory maps
a name to the members and the total of that room.  A map has one entry per name. -/
structure RefTracker where
  users : String → Option (List (String × Int))
  rooms : String → Option (List String × Int)

/-- The reference tracker without users and rooms. -/
def RefTracker.empty : RefTracker :=
  { users := fun _ => none, rooms := fun _ => none }

/-- Insert or replace the entry of a user. -/
def RefTracker.putUser (t : RefTracker) (n : String) (h : List (String × Int)) : RefTracker :=
  { t with users := fun k => if k = n then some h else t.users k }

/-- Insert or replace the entry of a room. -/
def RefTracker.putRoom (t : RefTracker) (r : String) (v : List String × Int) : RefTracker :=
  { t with rooms := fun k => if k = r then some v else t.rooms k }

/-- Remove the entry of a room. -/
def RefTracker.removeRoom (t : RefTracker) (r : String) : RefTracker :=
  { t with rooms := fun k => if k = r then none else t.rooms k }

/-- Look up the room called `r` or create it, without members and with total 0. -/
def refEnsureRoom (t : RefTracker) (r : String) : RefTracker :=
  match t.rooms r with
  | some _ => t
  | none => t.putRoom r ([], 0)

/-- Look up the user called `u` or create it, with an empty history. -/
def refEnsureUser (t : RefTracker) (u : String) : RefTracker :=
  match t.users u with
  | some _ => t
  | none => t.putUser u []

/-- The operation `joinRoom` of the specification on the user called `u`: an entry for the
room is relocated to the head with its count, otherwise a new entry with count 0 is inserted
at the head and the room records the user as a member. -/
def refJoinRoom (t : RefTracker) (u r : String) : RefTracker :=
  match t.users u with
  | none => t
  | some h =>
    match h.find? (fun x => x.1 == r) with
    | some x => t.putUser u (x :: h.eraseP (fun y => y.1 == r))
    | none =>
      match t.rooms r with
      | some v => (t.putUser u ((r, 0) :: h)).putRoom r (u :: v.1, v.2)
      | none => t.putUser u ((r, 0) :: h)

/-- The operation `join` of the specification: both entities are looked up or created, the
room first; then the user joins the room. -/
def refJoin (t : RefTracker) (u r : String) : RefTracker :=
  refJoinRoom (refEnsureUser (refEnsureRoom t r) u) u r

/-- The operation `leaveRoom` of the specification on the user called `u`: the sentinel -1
when the room is absent from the history, otherwise the entry is removed and its count
returned. -/
def refLeaveRoom (t : RefTracker) (u r : String) : RefTracker × Int :=
  match t.users u with
  | none => (t, -1)
  | some h =>
    match h.find? (fun x => x.1 == r) with
    | some x => (t.putUser u (h.eraseP (fun y => y.1 == r)), x.2)
    | none => (t, -1)

/-- The operation `leave(user, room)` of the specification. -/
def refLeave (t : RefTracker) (u r : String) : RefTracker × Int :=
  match t.users u, t.rooms r with
  | some _, some _ => refLeaveRoom t u r
  | _, _ => (t, -1)

/-- The operation `leave(user)` of the specification. -/
def refLeaveCurrent (t : RefTracker) (u : String) : RefTracker × Int :=
  match t.users u with
  | some (x :: rest) => (t.putUser u rest, x.2)
  | _ => (t, -1)

/-- The operation `contribute` of the specification. -/
def refContribute (t : RefTracker) (u : String) : RefTracker × Int :=
  match t.users u with
  | some (x :: rest) =>
    let t1 := match t.rooms x.1 with
      | some v => t.putRoom x.1 (v.1, v.2 + 1)
      | none => t
    (t1.putUser u ((x.1, x.2 + 1) :: rest), x.2 + 1)
  | _ => (t, 0)

/-- The operation `terminate` of the specification: 0 when the room does not exist;
otherwise every member leaves the room, the room is removed and its total returned. -/
def refTerminate (t : RefTracker) (r : String) : RefTracker × Int :=
  match t.rooms r with
  | none => (t, 0)
  | some v =>
    ((v.1.foldl (fun acc m => (refLeaveRoom acc m r).1) t).removeRoom r, v.2)

/-- One call on the reference tracker. -/
def refStep (t : RefTracker) : Op → RefTracker × Option Int
  | .join u c => (refJoin t u c, none)
  | .terminate c => ((refTerminate t c).1, some (refTerminate t c).2)
  | .contribute u => ((refContribute t u).1, some (refContribute t u).2)
  | .leave u c => ((refLeave t u c).1, some (refLeave t u c).2)
  | .leaveCurrent u => ((refLeaveCurrent t u).1, some (refLeaveCurrent t u).2)

/-- The values the reference tracker returns for a sequence of calls. -/
def refResults (t : RefTracker) : List Op → List (Option Int)
  | [] => []
  | op :: ops => (refStep t op).2 :: refResults (refStep t op).1 ops

/-- The simulation relation: the bucketed tracker and the reference tracker hold the same
histories, totals and member lists under every name. -/
structure Sim (hash : String → Nat) (s : ChatTrackerImpl) (t : RefTracker) : Prop where
  users : ∀ n, history hash s n = t.users n
  totals : ∀ r, total hash s r = (t.rooms r).map Prod.snd
  members : ∀ r, members hash s r = (t.rooms r).map Prod.fst

/-- A history after `join` in the reference tracker. -/
def refJoinHistory (r : String) (h : List (String × Int)) : List (String × Int) :=
  match h.find? (fun x => x.1 == r) with
  | some x => x :: h.eraseP (fun y => y.1 == r)
  | none => (r, 0) :: h

/-! ## Heap lemmas -/

section HeapLemmas

variable (hash : String → Nat) (s : ChatTrackerImpl)

theorem chatAt_eq_some_iff {p : Nat} {c : Chat} :
    chatAt s p = some c ↔ s.chatHeap[p]? = some (some c) := by
  unfold chatAt
  split
  · next d h => rw [h]; simp
  · next h =>
    constructor
    · intro h1; cases h1
    · intro h1; exact absurd h1 (h c)

theorem chatAt_lt {p : Nat} {c : Chat} (h : chatAt s p = some c) : p < s.chatHeap.length := by
  rw [chatAt_eq_some_iff] at h
  exact (List.getElem?_eq_some.mp h).1

theorem userAt_lt {p : Nat} {u : User} (h : userAt s p = some u) : p < s.userHeap.length :=
  (List.getElem?_eq_some.mp h).1

theorem chatAt_length : chatAt s s.chatHeap.length = none := by
  cases h : chatAt s s.chatHeap.length with
  | none => rfl
  | some c => exact absurd (chatAt_lt s h) (Nat.lt_irrefl _)

theorem userAt_length : userAt s s.userHeap.length = none := by
  simp [userAt]

@[simp] theorem chatAt_setUser (p q : Nat) (u : User) :
    chatAt (setUser s p u) q = chatAt s q := rfl

@[simp] theorem userAt_setChat (p q : Nat) (c : Chat) :
    userAt (setChat s p c) q = userAt s q := rfl

@[simp] theorem userAt_newChat (r : String) (q : Nat) :
    userAt (newChat hash s r) q = userAt s q := rfl

@[simp] theorem chatAt_newUser (u : String) (q : Nat) :
    chatAt (newUser hash s u) q = chatAt s q := rfl

@[simp] theorem userAt_deleteChat (r : String) (p q : Nat) :
    userAt (deleteChat hash s r p) q = userAt s q := rfl

theorem userAt_setUser {p : Nat} {u0 : User} (h : userAt s p = some u0) (u : User) (q : Nat) :
    userAt (setUser s p u) q = if q = p then some u else userAt s q := by
  have hlt := userAt_lt s h
  simp only [userAt, setUser]
  by_cases hq : q = p
  · subst hq; simp [hlt]
  · simp [hq, List.getElem?_set_ne (Ne.symm hq)]

theorem chatAt_setChat {p : Nat} {c0 : Chat} (h : chatAt s p = some c0) (c : Chat) (q : Nat) :
    chatAt (setChat s p c) q = if q = p then some c else chatAt s q := by
  have hlt := chatAt_lt s h
  by_cases hq : q = p
  · subst hq
    simp [chatAt_eq_some_iff, setChat, hlt]
  · simp only [chatAt, setChat, hq, if_false, List.getElem?_set_ne (Ne.symm hq)]

theorem chatAt_newChat (r : String) (q : Nat) :
    chatAt (newChat hash s r) q =
      if q = s.chatHeap.length then some { m_name := r, m_users := [], m_contributions := 0 }
      else chatAt s q := by
  by_cases hq : q = s.chatHeap.length
  · subst hq
    simp [chatAt_eq_some_iff, newChat]
  · simp only [hq, if_false]
    rcases Nat.lt_or_gt_of_ne hq with h | h
    · simp only [chatAt, newChat, List.getElem?_append_left h]
    · have h1 : s.chatHeap[q]? = none := List.getElem?_eq_none (Nat.le_of_lt h)
      have h2 : (s.chatHeap ++ [some ({ m_name := r, m_users := [], m_contributions := 0 } : Chat)])[q]?
          = none := by
        apply List.getElem?_eq_none
        simp; omega
      simp only [chatAt, newChat, h1, h2]

theorem userAt_newUser (u : String) (q : Nat) :
    userAt (newUser hash s u) q =
      if q = s.userHeap.length then some { m_name := u, m_chats := [] } else userAt s q := by
  by_cases hq : q = s.userHeap.length
  · subst hq
    simp [userAt, newUser]
  · simp only [hq, if_false]
    rcases Nat.lt_or_gt_of_ne hq with h | h
    · simp only [userAt, newUser, List.getElem?_append_left h]
    · have h1 : s.userHeap[q]? = none := List.getElem?_eq_none (Nat.le_of_lt h)
      have h2 : (s.userHeap ++ [({ m_name := u, m_chats := [] } : User)])[q]? = none := by
        apply List.getElem?_eq_none
        simp; omega
      simp only [userAt, newUser, h1, h2]

theorem chatAt_deleteChat (r : String) (p q : Nat) :
    chatAt (deleteChat hash s r p) q = if q = p then none else chatAt s q := by
  by_cases hq : q = p
  · subst hq
    simp only [if_true]
    cases h : chatAt (deleteChat hash s r q) q with
    | none => rfl
    | some c =>
      rw [chatAt_eq_some_iff] at h
      simp only [deleteChat] at h
      rw [List.getElem?_set] at h
      simp at h
  · simp only [chatAt, deleteChat, hq, if_false, List.getElem?_set_ne (Ne.symm hq)]

theorem bucket_set (t : List (List Nat)) (i j : Nat) (v : List Nat) (hi : i < t.length) :
    bucket (t.set i v) j = if j = i then v else bucket t j := by
  unfold bucket
  by_cases hj : j = i
  · subst hj; simp [hi]
  · simp [hj, List.getElem?_set_ne (Ne.symm hj)]

theorem bucket_replicate (n b : Nat) : bucket (List.replicate n []) b = [] := by
  unfold bucket
  cases h : (List.replicate n ([] : List Nat))[b]? with
  | none => rfl
  | some v =>
    obtain ⟨hlt, hv⟩ := List.getElem?_eq_some.mp h
    simp at hv
    simp [← hv]

theorem find?_congr_mem {α : Type} (f g : α → Bool) (l : List α)
    (h : ∀ x ∈ l, f x = g x) : l.find? f = l.find? g := by
  induction l with
  | nil => rfl
  | cons a t ih =>
    have ha := h a (List.mem_cons_self a t)
    have ht := ih (fun x hx => h x (List.mem_cons_of_mem a hx))
    simp only [List.find?_cons, ha, ht]

end HeapLemmas

/-! ## Frame lemmas for the two searches -/

section FindLemmas

variable (hash : String → Nat) (s : ChatTrackerImpl)

theorem chatNamed_iff {r : String} {p : Nat} :
    chatNamed s r p = true ↔ ∃ c, chatAt s p = some c ∧ c.m_name = r := by
  unfold chatNamed
  cases chatAt s p with
  | none => simp
  | some c => simp

theorem userNamed_iff {n : String} {p : Nat} :
    userNamed s n p = true ↔ ∃ u, userAt s p = some u ∧ u.m_name = n := by
  unfold userNamed
  cases userAt s p with
  | none => simp
  | some u => simp

theorem findChat_some {r : String} {p : Nat} (h : findChat hash s r = some p) :
    ∃ c, chatAt s p = some c ∧ c.m_name = r :=
  (chatNamed_iff s).mp (List.find?_some h)

theorem findUser_some {n : String} {p : Nat} (h : findUser hash s n = some p) :
    ∃ u, userAt s p = some u ∧ u.m_name = n :=
  (userNamed_iff s).mp (List.find?_some h)

theorem findChat_mem {r : String} {p : Nat} (h : findChat hash s r = some p) :
    p ∈ bucket s.m_chats (mapFunc hash s r) :=
  List.mem_of_find?_eq_some h

theorem findUser_mem {n : String} {p : Nat} (h : findUser hash s n = some p) :
    p ∈ bucket s.m_users (mapFunc hash s n) :=
  List.mem_of_find?_eq_some h

@[simp] theorem findChat_setUser (p : Nat) (u : User) (r : String) :
    findChat hash (setUser s p u) r = findChat hash s r := rfl

@[simp] theorem findUser_setChat (p : Nat) (c : Chat) (n : String) :
    findUser hash (setChat s p c) n = findUser hash s n := rfl

@[simp] theorem findUser_newChat (r n : String) :
    findUser hash (newChat hash s r) n = findUser hash s n := rfl

@[simp] theorem findChat_newUser (u r : String) :
    findChat hash (newUser hash s u) r = findChat hash s r := rfl

@[simp] theorem findUser_deleteChat (r : String) (p : Nat) (n : String) :
    findUser hash (deleteChat hash s r p) n = findUser hash s n := rfl

theorem chatNamed_setChat {p : Nat} {c0 : Chat} (h : chatAt s p = some c0) (c : Chat)
    (hn : c.m_name = c0.m_name) (r : String) (q : Nat) :
    chatNamed (setChat s p c) r q = chatNamed s r q := by
  unfold chatNamed
  rw [chatAt_setChat s h]
  by_cases hq : q = p
  · subst hq; simp [h, hn]
  · simp [hq]

theorem userNamed_setUser {p : Nat} {u0 : User} (h : userAt s p = some u0) (u : User)
    (hn : u.m_name = u0.m_name) (n : String) (q : Nat) :
    userNamed (setUser s p u) n q = userNamed s n q := by
  unfold userNamed
  rw [userAt_setUser s h]
  by_cases hq : q = p
  · subst hq; simp [h, hn]
  · simp [hq]

theorem findChat_setChat {p : Nat} {c0 : Chat} (h : chatAt s p = some c0) (c : Chat)
    (hn : c.m_name = c0.m_name) (r : String) :
    findChat hash (setChat s p c) r = findChat hash s r := by
  unfold findChat
  exact find?_congr_mem _ _ _ (fun q _ => chatNamed_setChat s h c hn r q)

theorem findUser_setUser {p : Nat} {u0 : User} (h : userAt s p = some u0) (u : User)
    (hn : u.m_name = u0.m_name) (n : String) :
    findUser hash (setUser s p u) n = findUser hash s n := by
  unfold findUser
  exact find?_congr_mem _ _ _ (fun q _ => userNamed_setUser s h u hn n q)

end FindLemmas

/-! ## The representation invariant -/

section WFLemmas

variable {hash : String → Nat} {s : ChatTrackerImpl}

theorem WF.mapFunc_lt_chats (w : WF hash s) (r : String) :
    mapFunc hash s r < s.m_chats.length := by
  rw [w.chats_len]; exact Nat.mod_lt _ w.pos

theorem WF.mapFunc_lt_users (w : WF hash s) (r : String) :
    mapFunc hash s r < s.m_users.length := by
  rw [w.users_len]; exact Nat.mod_lt _ w.pos

theorem WF.findChat_iff (w : WF hash s) {r : String} {p : Nat} :
    findChat hash s r = some p ↔ ∃ c, chatAt s p = some c ∧ c.m_name = r := by
  constructor
  · exact findChat_some hash s
  · rintro ⟨c, hc, rfl⟩; exact w.chat_found p c hc

theorem WF.findUser_iff (w : WF hash s) {n : String} {p : Nat} :
    findUser hash s n = some p ↔ ∃ u, userAt s p = some u ∧ u.m_name = n := by
  constructor
  · exact findUser_some hash s
  · rintro ⟨u, hu, rfl⟩; exact w.user_found p u hu

theorem WF.chat_inj (w : WF hash s) {p q : Nat} {c d : Chat} (hp : chatAt s p = some c)
    (hq : chatAt s q = some d) (hn : c.m_name = d.m_name) : p = q := by
  have h1 := w.chat_found p c hp
  have h2 := w.chat_found q d hq
  rw [hn, h2] at h1
  exact (Option.some.inj h1).symm

theorem WF.user_inj (w : WF hash s) {p q : Nat} {u v : User} (hp : userAt s p = some u)
    (hq : userAt s q = some v) (hn : u.m_name = v.m_name) : p = q := by
  have h1 := w.user_found p u hp
  have h2 := w.user_found q v hq
  rw [hn, h2] at h1
  exact (Option.some.inj h1).symm

theorem wf_new (hash : String → Nat) (n : Nat) (hn : 0 < n) : WF hash (ChatTrackerImpl.new n) where
  pos := hn
  chats_len := by simp [ChatTrackerImpl.new]
  users_len := by simp [ChatTrackerImpl.new]
  chat_bucket := by
    intro b p hp
    simp [ChatTrackerImpl.new, bucket_replicate] at hp
  chat_found := by
    intro p c hc
    simp [chatAt, ChatTrackerImpl.new] at hc
  user_bucket := by
    intro b p hp
    simp [ChatTrackerImpl.new, bucket_replicate] at hp
  user_found := by
    intro p u hu
    simp [userAt, ChatTrackerImpl.new] at hu
  hist_live := by
    intro p u e hu
    simp [userAt, ChatTrackerImpl.new] at hu
  hist_nodup := by
    intro p u hu
    simp [userAt, ChatTrackerImpl.new] at hu
  members_valid := by
    intro p c q hc
    simp [chatAt, ChatTrackerImpl.new] at hc

/-- Storing a user with the same name whose history is duplicate free and only names chats
that list the user keeps the invariant. -/
theorem wf_setUser (w : WF hash s) {p : Nat} {u0 : User} (h : userAt s p = some u0) (u : User)
    (hn : u.m_name = u0.m_name)
    (hl : ∀ e, e ∈ u.m_chats → ∃ c, chatAt s e.1 = some c ∧ p ∈ c.m_users)
    (hd : (u.m_chats.map Prod.fst).Nodup) : WF hash (setUser s p u) where
  pos := w.pos
  chats_len := w.chats_len
  users_len := w.users_len
  chat_bucket := w.chat_bucket
  chat_found := w.chat_found
  user_bucket := by
    intro b q hq
    have := w.user_bucket b q hq
    simpa [setUser] using this
  user_found := by
    intro q v hv
    rw [findUser_setUser hash s h u hn]
    rw [userAt_setUser s h] at hv
    by_cases hq : q = p
    · subst hq
      simp at hv
      subst hv
      rw [hn]; exact w.user_found q u0 h
    · simp [hq] at hv
      exact w.user_found q v hv
  hist_live := by
    intro q v e hv he
    rw [userAt_setUser s h] at hv
    by_cases hq : q = p
    · subst hq
      simp at hv
      subst hv
      exact hl e he
    · simp [hq] at hv
      exact w.hist_live q v e hv he
  hist_nodup := by
    intro q v hv
    rw [userAt_setUser s h] at hv
    by_cases hq : q = p
    · subst hq
      simp at hv
      subst hv
      exact hd
    · simp [hq] at hv
      exact w.hist_nodup q v hv
  members_valid := by
    intro q c x hc hx
    have := w.members_valid q c x hc hx
    simpa [setUser] using this

/-- Storing a chat with the same name and at least the same members keeps the invariant. -/
theorem wf_setChat (w : WF hash s) {p : Nat} {c0 : Chat} (h : chatAt s p = some c0) (c : Chat)
    (hn : c.m_name = c0.m_name)
    (hm : ∀ q, q ∈ c0.m_users → q ∈ c.m_users)
    (hv : ∀ q, q ∈ c.m_users → q < s.userHeap.length) : WF hash (setChat s p c) where
  pos := w.pos
  chats_len := w.chats_len
  users_len := w.users_len
  chat_bucket := by
    intro b q hq
    obtain ⟨d, hd, hb⟩ := w.chat_bucket b q hq
    rw [chatAt_setChat s h]
    by_cases hqp : q = p
    · subst hqp
      rw [h] at hd
      cases hd
      exact ⟨c, by simp, by rw [hn]; exact hb⟩
    · exact ⟨d, by simp [hqp, hd], hb⟩
  chat_found := by
    intro q d hd
    rw [findChat_setChat hash s h c hn]
    rw [chatAt_setChat s h] at hd
    by_cases hq : q = p
    · subst hq
      simp at hd
      subst hd
      rw [hn]; exact w.chat_found q c0 h
    · simp [hq] at hd
      exact w.chat_found q d hd
  user_bucket := w.user_bucket
  user_found := w.user_found
  hist_live := by
    intro q v e hv1 he
    obtain ⟨d, hd, hq⟩ := w.hist_live q v e hv1 he
    rw [chatAt_setChat s h]
    by_cases he1 : e.1 = p
    · rw [he1, h] at hd
      cases hd
      exact ⟨c, by simp [he1], hm q hq⟩
    · exact ⟨d, by simp [he1, hd], hq⟩
  hist_nodup := w.hist_nodup
  members_valid := by
    intro q d x hd hx
    rw [chatAt_setChat s h] at hd
    by_cases hq : q = p
    · subst hq
      simp at hd
      subst hd
      exact hv x hx
    · simp [hq] at hd
      exact w.members_valid q d x hd hx

end WFLemmas

/-! ## Allocation and deallocation keep the invariant -/

section AllocLemmas

variable {hash : String → Nat} {s : ChatTrackerImpl}

theorem chatNamed_newChat_old (hash : String → Nat) (s : ChatTrackerImpl) (r r1 : String)
    {q : Nat} {c : Chat} (hq : chatAt s q = some c) :
    chatNamed (newChat hash s r) r1 q = chatNamed s r1 q := by
  have hne : q ≠ s.chatHeap.length := Nat.ne_of_lt (chatAt_lt s hq)
  unfold chatNamed
  rw [chatAt_newChat]
  simp [hne]

theorem userNamed_newUser_old (hash : String → Nat) (s : ChatTrackerImpl) (n n1 : String)
    {q : Nat} (hq : q < s.userHeap.length) :
    userNamed (newUser hash s n) n1 q = userNamed s n1 q := by
  have hne : q ≠ s.userHeap.length := Nat.ne_of_lt hq
  unfold userNamed
  rw [userAt_newUser]
  simp [hne]

theorem findChat_newChat (w : WF hash s) {r : String} (hnone : findChat hash s r = none)
    (r1 : String) :
    findChat hash (newChat hash s r) r1 =
      if r1 = r then some s.chatHeap.length else findChat hash s r1 := by
  have hold : ∀ b, (bucket s.m_chats b).find? (chatNamed (newChat hash s r) r1)
      = (bucket s.m_chats b).find? (chatNamed s r1) := by
    intro b
    apply find?_congr_mem
    intro q hq
    obtain ⟨c, hc, _⟩ := w.chat_bucket b q hq
    exact chatNamed_newChat_old hash s r r1 hc
  have hnew : chatNamed (newChat hash s r) r1 s.chatHeap.length = (r == r1) := by
    unfold chatNamed
    rw [chatAt_newChat]
    simp
  have hb : (newChat hash s r).m_chats = s.m_chats.set (mapFunc hash s r)
      (bucket s.m_chats (mapFunc hash s r) ++ [s.chatHeap.length]) := rfl
  have hm : mapFunc hash (newChat hash s r) r1 = mapFunc hash s r1 := rfl
  unfold findChat at hnone ⊢
  rw [hb, hm, bucket_set _ _ _ _ (w.mapFunc_lt_chats r)]
  by_cases hr : r1 = r
  · subst hr
    simp only [if_true, List.find?_append, hold, hnone, Option.none_or]
    simp [List.find?_cons, hnew]
  · simp only [hr, if_false]
    by_cases hbk : mapFunc hash s r1 = mapFunc hash s r
    · have hr2 : ¬ (r = r1) := fun h => hr h.symm
      simp only [hbk, if_true, List.find?_append, hold]
      simp [List.find?_cons, hnew, hr2]
    · simp only [hbk, if_false, hold]

theorem findUser_newUser (w : WF hash s) {n : String} (hnone : findUser hash s n = none)
    (n1 : String) :
    findUser hash (newUser hash s n) n1 =
      if n1 = n then some s.userHeap.length else findUser hash s n1 := by
  have hold : ∀ b, (bucket s.m_users b).find? (userNamed (newUser hash s n) n1)
      = (bucket s.m_users b).find? (userNamed s n1) := by
    intro b
    apply find?_congr_mem
    intro q hq
    exact userNamed_newUser_old hash s n n1 (w.user_bucket b q hq)
  have hnew : userNamed (newUser hash s n) n1 s.userHeap.length = (n == n1) := by
    unfold userNamed
    rw [userAt_newUser]
    simp
  have hb : (newUser hash s n).m_users = s.m_users.set (mapFunc hash s n)
      (bucket s.m_users (mapFunc hash s n) ++ [s.userHeap.length]) := rfl
  have hm : mapFunc hash (newUser hash s n) n1 = mapFunc hash s n1 := rfl
  unfold findUser at hnone ⊢
  rw [hb, hm, bucket_set _ _ _ _ (w.mapFunc_lt_users n)]
  by_cases hr : n1 = n
  · subst hr
    simp only [if_true, List.find?_append, hold, hnone, Option.none_or]
    simp [List.find?_cons, hnew]
  · simp only [hr, if_false]
    by_cases hbk : mapFunc hash s n1 = mapFunc hash s n
    · have hr2 : ¬ (n = n1) := fun h => hr h.symm
      simp only [hbk, if_true, List.find?_append, hold]
      simp [List.find?_cons, hnew, hr2]
    · simp only [hbk, if_false, hold]

theorem wf_newChat (w : WF hash s) {r : String} (hnone : findChat hash s r = none) :
    WF hash (newChat hash s r) where
  pos := w.pos
  chats_len := by simp [newChat, w.chats_len]
  users_len := w.users_len
  chat_bucket := by
    intro b q hq
    have hb : (newChat hash s r).m_chats = s.m_chats.set (mapFunc hash s r)
        (bucket s.m_chats (mapFunc hash s r) ++ [s.chatHeap.length]) := rfl
    rw [hb, bucket_set _ _ _ _ (w.mapFunc_lt_chats r)] at hq
    have hold : q ∈ bucket s.m_chats b →
        ∃ c, chatAt (newChat hash s r) q = some c ∧ mapFunc hash (newChat hash s r) c.m_name = b := by
      intro h
      obtain ⟨c, hc, hcb⟩ := w.chat_bucket b q h
      have hne : q ≠ s.chatHeap.length := Nat.ne_of_lt (chatAt_lt s hc)
      exact ⟨c, by rw [chatAt_newChat]; simp [hne, hc], hcb⟩
    by_cases hbk : b = mapFunc hash s r
    · simp only [hbk, if_true, List.mem_append, List.mem_singleton] at hq
      rcases hq with h | h
      · exact hold (hbk ▸ h)
      · subst h
        exact ⟨{ m_name := r, m_users := [], m_contributions := 0 },
          by rw [chatAt_newChat]; simp, hbk.symm⟩
    · simp only [hbk, if_false] at hq
      exact hold hq
  chat_found := by
    intro q c hc
    rw [findChat_newChat w hnone]
    rw [chatAt_newChat] at hc
    by_cases hq : q = s.chatHeap.length
    · simp [hq] at hc
      subst hc
      simp [hq]
    · simp [hq] at hc
      have hf := w.chat_found q c hc
      have hne : c.m_name ≠ r := by
        intro h
        rw [h, hnone] at hf
        cases hf
      simp [hne, hf]
  user_bucket := w.user_bucket
  user_found := w.user_found
  hist_live := by
    intro q v e hv he
    obtain ⟨c, hc, hq⟩ := w.hist_live q v e hv he
    have hne : e.1 ≠ s.chatHeap.length := Nat.ne_of_lt (chatAt_lt s hc)
    exact ⟨c, by rw [chatAt_newChat]; simp [hne, hc], hq⟩
  hist_nodup := w.hist_nodup
  members_valid := by
    intro q c x hc hx
    rw [chatAt_newChat] at hc
    by_cases hq : q = s.chatHeap.length
    · simp [hq] at hc
      subst hc
      simp at hx
    · simp [hq] at hc
      exact w.members_valid q c x hc hx

theorem wf_newUser (w : WF hash s) {n : String} (hnone : findUser hash s n = none) :
    WF hash (newUser hash s n) where
  pos := w.pos
  chats_len := w.chats_len
  users_len := by simp [newUser, w.users_len]
  chat_bucket := w.chat_bucket
  chat_found := w.chat_found
  user_bucket := by
    intro b q hq
    have hb : (newUser hash s n).m_users = s.m_users.set (mapFunc hash s n)
        (bucket s.m_users (mapFunc hash s n) ++ [s.userHeap.length]) := rfl
    have hl : (newUser hash s n).userHeap.length = s.userHeap.length + 1 := by
      simp [newUser]
    rw [hb, bucket_set _ _ _ _ (w.mapFunc_lt_users n)] at hq
    rw [hl]
    by_cases hbk : b = mapFunc hash s n
    · simp only [hbk, if_true, List.mem_append, List.mem_singleton] at hq
      rcases hq with h | h
      · exact Nat.lt_succ_of_lt (w.user_bucket _ q h)
      · omega
    · simp only [hbk, if_false] at hq
      exact Nat.lt_succ_of_lt (w.user_bucket _ q hq)
  user_found := by
    intro q v hv
    rw [findUser_newUser w hnone]
    rw [userAt_newUser] at hv
    by_cases hq : q = s.userHeap.length
    · simp [hq] at hv
      subst hv
      simp [hq]
    · simp [hq] at hv
      have hf := w.user_found q v hv
      have hne : v.m_name ≠ n := by
        intro h
        rw [h, hnone] at hf
        cases hf
      simp [hne, hf]
  hist_live := by
    intro q v e hv he
    rw [userAt_newUser] at hv
    by_cases hq : q = s.userHeap.length
    · simp [hq] at hv
      subst hv
      simp at he
    · simp [hq] at hv
      exact w.hist_live q v e hv he
  hist_nodup := by
    intro q v hv
    rw [userAt_newUser] at hv
    by_cases hq : q = s.userHeap.length
    · simp [hq] at hv
      subst hv
      simp
    · simp [hq] at hv
      exact w.hist_nodup q v hv
  members_valid := by
    intro q c x hc hx
    have := w.members_valid q c x hc hx
    simp [newUser]
    omega

theorem chatNamed_deleteChat (hash : String → Nat) (s : ChatTrackerImpl) (r r1 : String)
    (p q : Nat) :
    chatNamed (deleteChat hash s r p) r1 q = (q != p && chatNamed s r1 q) := by
  unfold chatNamed
  rw [chatAt_deleteChat]
  by_cases hq : q = p
  · simp [hq]
  · simp [hq]

theorem findChat_deleteChat (w : WF hash s) {r : String} {p : Nat}
    (hp : findChat hash s r = some p) (r1 : String) :
    findChat hash (deleteChat hash s r p) r1 = if r1 = r then none else findChat hash s r1 := by
  obtain ⟨c, hc, hcn⟩ := findChat_some hash s hp
  have hb : (deleteChat hash s r p).m_chats = s.m_chats.set (mapFunc hash s r)
      ((bucket s.m_chats (mapFunc hash s r)).filter (fun q => q != p)) := rfl
  have hm : mapFunc hash (deleteChat hash s r p) r1 = mapFunc hash s r1 := rfl
  have hfun : chatNamed (deleteChat hash s r p) r1 = fun q => (q != p && chatNamed s r1 q) :=
    funext (chatNamed_deleteChat hash s r r1 p)
  unfold findChat
  rw [hb, hm, bucket_set _ _ _ _ (w.mapFunc_lt_chats r), hfun]
  by_cases hr : r1 = r
  · subst hr
    simp only [if_true]
    rw [List.find?_eq_none]
    intro q hq
    simp only [List.mem_filter] at hq
    simp only [Bool.and_eq_true, not_and, Bool.not_eq_true]
    intro _
    cases hnq : chatNamed s r1 q with
    | false => rfl
    | true =>
      obtain ⟨d, hd, hdn⟩ := (chatNamed_iff s).mp hnq
      have := w.chat_inj hd hc (hdn.trans hcn.symm)
      simp [this] at hq
  · have hpn : chatNamed s r1 p = false := by
      cases hnp : chatNamed s r1 p with
      | false => rfl
      | true =>
        obtain ⟨d, hd, hdn⟩ := (chatNamed_iff s).mp hnp
        rw [hc] at hd
        cases hd
        exact absurd (hdn.symm.trans hcn) hr
    have hsame : (fun q => (q != p && chatNamed s r1 q)) = chatNamed s r1 := by
      funext q
      by_cases hq : q = p
      · subst hq; simp [hpn]
      · simp [hq]
    simp only [hr, if_false]
    by_cases hbk : mapFunc hash s r1 = mapFunc hash s r
    · simp only [hbk, if_true, List.find?_filter]
      apply find?_congr_mem
      intro q _
      by_cases hq : q = p
      · subst hq; simp [hpn]
      · simp [hq]
    · simp only [hbk, if_false, hsame]

/-- Unlinking and deleting a chat that no history mentions keeps the invariant. -/
theorem wf_deleteChat (w : WF hash s) {r : String} {p : Nat}
    (hp : findChat hash s r = some p)
    (hno : ∀ q v e, userAt s q = some v → e ∈ v.m_chats → e.1 ≠ p) :
    WF hash (deleteChat hash s r p) where
  pos := w.pos
  chats_len := by simp [deleteChat, w.chats_len]
  users_len := w.users_len
  chat_bucket := by
    intro b q hq
    obtain ⟨c, hc, hcn⟩ := findChat_some hash s hp
    have hb : (deleteChat hash s r p).m_chats = s.m_chats.set (mapFunc hash s r)
        ((bucket s.m_chats (mapFunc hash s r)).filter (fun q => q != p)) := rfl
    rw [hb, bucket_set _ _ _ _ (w.mapFunc_lt_chats r)] at hq
    by_cases hbk : b = mapFunc hash s r
    · simp only [hbk, if_true, List.mem_filter] at hq
      obtain ⟨d, hd, hdb⟩ := w.chat_bucket _ q hq.1
      have hne : q ≠ p := by simpa using hq.2
      exact ⟨d, by rw [chatAt_deleteChat]; simp [hne, hd], by rw [hbk]; exact hdb⟩
    · simp only [hbk, if_false] at hq
      obtain ⟨d, hd, hdb⟩ := w.chat_bucket _ q hq
      have hne : q ≠ p := by
        intro h
        subst h
        rw [hc] at hd
        cases hd
        rw [hcn] at hdb
        exact hbk hdb.symm
      exact ⟨d, by rw [chatAt_deleteChat]; simp [hne, hd], hdb⟩
  chat_found := by
    intro q d hd
    obtain ⟨c, hc, hcn⟩ := findChat_some hash s hp
    rw [findChat_deleteChat w hp]
    rw [chatAt_deleteChat] at hd
    by_cases hq : q = p
    · simp [hq] at hd
    · simp [hq] at hd
      have hne : d.m_name ≠ r := by
        intro h
        exact hq (w.chat_inj hd hc (h.trans hcn.symm))
      simp [hne, w.chat_found q d hd]
  user_bucket := w.user_bucket
  user_found := w.user_found
  hist_live := by
    intro q v e hv he
    obtain ⟨c, hc, hq⟩ := w.hist_live q v e hv he
    have hne : e.1 ≠ p := hno q v e hv he
    exact ⟨c, by rw [chatAt_deleteChat]; simp [hne, hc], hq⟩
  hist_nodup := w.hist_nodup
  members_valid := by
    intro q c x hc hx
    rw [chatAt_deleteChat] at hc
    by_cases hq : q = p
    · simp [hq] at hc
    · simp [hq] at hc
      exact w.members_valid q c x hc hx

end AllocLemmas

/-! ## The member functions keep the invariant -/

section MemberLemmas

variable {hash : String → Nat} {s : ChatTrackerImpl}

theorem User.leaveChat_fst (u : User) (chat : Nat) :
    (u.leaveChat chat).1 = { u with m_chats := u.m_chats.eraseP (isChat chat) } := by
  unfold User.leaveChat
  cases h : u.m_chats.find? (isChat chat) with
  | some e => rfl
  | none =>
    have : u.m_chats.eraseP (isChat chat) = u.m_chats :=
      List.eraseP_of_forall_not (fun a ha => by simpa using List.find?_eq_none.mp h a ha)
    simp [this]

theorem User.leaveChat_snd (u : User) (chat : Nat) :
    (u.leaveChat chat).2 =
      match u.m_chats.find? (isChat chat) with
      | some e => e.2
      | none => -1 := by
  unfold User.leaveChat
  cases h : u.m_chats.find? (isChat chat) <;> rfl

theorem nodup_eraseP {l : List (Nat × Int)} (f : Nat × Int → Bool)
    (h : (l.map Prod.fst).Nodup) : ((l.eraseP f).map Prod.fst).Nodup :=
  List.Nodup.sublist ((List.eraseP_sublist l).map Prod.fst) h

/-- With one entry per chat, erasing the first entry for a chat removes every entry for it. -/
theorem eraseP_eq_filter {l : List (Nat × Int)} (chat : Nat)
    (h : (l.map Prod.fst).Nodup) :
    l.eraseP (isChat chat) = l.filter (fun e => !isChat chat e) := by
  induction l with
  | nil => rfl
  | cons a t ih =>
    simp only [List.map_cons, List.nodup_cons] at h
    by_cases ha : isChat chat a = true
    · rw [List.eraseP_cons_of_pos ha]
      have hf : t.filter (fun e => !isChat chat e) = t := by
        apply List.filter_eq_self.mpr
        intro e he
        have h1 : e.1 ≠ a.1 := fun heq => h.1 (heq ▸ List.mem_map_of_mem Prod.fst he)
        have h2 : a.1 = chat := by simpa [isChat] using ha
        simp [isChat, h2 ▸ h1]
      simp [List.filter_cons, ha, hf]
    · rw [List.eraseP_cons_of_neg ha, ih h.2]
      simp [List.filter_cons, ha]

/-- Moving the first entry for a chat to the front permutes the history. -/
theorem moveFront_perm {l : List (Nat × Int)} {chat : Nat} {e : Nat × Int}
    (h : l.find? (isChat chat) = some e) :
    (e :: l.eraseP (isChat chat)).Perm l := by
  induction l with
  | nil => simp at h
  | cons a t ih =>
    by_cases ha : isChat chat a = true
    · rw [List.find?_cons_of_pos _ ha] at h
      cases h
      rw [List.eraseP_cons_of_pos ha]
    · rw [List.find?_cons_of_neg _ ha] at h
      rw [List.eraseP_cons_of_neg ha]
      exact (List.Perm.swap a e _).trans ((ih h).cons a)

theorem wf_leaveChat (w : WF hash s) (user chat : Nat) : WF hash (leaveChat s user chat).1 := by
  unfold leaveChat
  cases hu : userAt s user with
  | none => exact w
  | some u =>
    simp only [User.leaveChat_fst]
    refine wf_setUser w hu _ rfl ?_ (nodup_eraseP _ (w.hist_nodup user u hu))
    intro e he
    exact w.hist_live user u e hu (List.mem_of_mem_eraseP he)

theorem User.leaveCurrChat_fst (u : User) :
    u.leaveCurrChat.1 = { u with m_chats := u.m_chats.tail } := by
  unfold User.leaveCurrChat
  cases u with
  | mk n l => cases l <;> rfl

theorem User.leaveCurrChat_snd (u : User) :
    u.leaveCurrChat.2 =
      match u.m_chats.head? with
      | some e => e.2
      | none => -1 := by
  unfold User.leaveCurrChat
  cases u with
  | mk n l => cases l <;> rfl

theorem wf_leaveCurrChat (w : WF hash s) (user : Nat) : WF hash (leaveCurrChat s user).1 := by
  unfold leaveCurrChat
  cases hu : userAt s user with
  | none => exact w
  | some u =>
    simp only [User.leaveCurrChat_fst]
    refine wf_setUser w hu _ rfl ?_
      (List.Nodup.sublist ((List.tail_sublist u.m_chats).map Prod.fst) (w.hist_nodup user u hu))
    intro e he
    exact w.hist_live user u e hu (List.mem_of_mem_tail he)

theorem setChat_setUser (s : ChatTrackerImpl) (p q : Nat) (u : User) (c : Chat) :
    setChat (setUser s p u) q c = setUser (setChat s q c) p u := rfl

theorem wf_joinChat (w : WF hash s) {user chat : Nat} {u : User} {c : Chat}
    (hu : userAt s user = some u) (hc : chatAt s chat = some c) :
    WF hash (joinChat s user chat) := by
  unfold joinChat
  simp only [hu, chatAt_setUser, hc]
  cases hf : u.m_chats.find? (isChat chat) with
  | some e =>
    simp only
    have hperm := moveFront_perm hf
    refine wf_setUser w hu _ rfl ?_ ?_
    · intro x hx
      exact w.hist_live user u x hu (hperm.subset hx)
    · exact (hperm.map Prod.fst).nodup_iff.mpr (w.hist_nodup user u hu)
  | none =>
    simp only
    rw [setChat_setUser]
    have w1 : WF hash (setChat s chat (c.addUser user)) := by
      refine wf_setChat w hc _ rfl ?_ ?_
      · intro q hq
        exact List.mem_cons_of_mem _ hq
      · intro q hq
        simp only [Chat.addUser, List.mem_cons] at hq
        rcases hq with h | h
        · rw [h]; exact userAt_lt s hu
        · exact w.members_valid chat c q hc h
    have hu1 : userAt (setChat s chat (c.addUser user)) user = some u := hu
    refine wf_setUser w1 hu1 _ rfl ?_ ?_
    · intro x hx
      simp only [List.mem_cons] at hx
      rcases hx with h | h
      · subst h
        exact ⟨c.addUser user, by rw [chatAt_setChat s hc]; simp, by simp [Chat.addUser]⟩
      · exact w1.hist_live user u x hu1 h
    · simp only [List.map_cons, List.nodup_cons]
      refine ⟨?_, w.hist_nodup user u hu⟩
      intro hmem
      obtain ⟨x, hx, hx1⟩ := List.mem_map.mp hmem
      have := List.find?_eq_none.mp hf x hx
      simp [isChat, hx1] at this

theorem wf_contributeToCurrChat (w : WF hash s) (user : Nat) :
    WF hash (contributeToCurrChat s user).1 := by
  unfold contributeToCurrChat
  cases hu : userAt s user with
  | none => exact w
  | some u =>
    simp only
    cases hm : u.m_chats with
    | nil => exact w
    | cons e rest =>
      simp only
      obtain ⟨c, hc, hmem⟩ := w.hist_live user u e hu (by rw [hm]; exact List.mem_cons_self _ _)
      simp only [hc]
      have w1 : WF hash (setChat s e.1 c.recContribution) :=
        wf_setChat w hc _ rfl (fun q hq => hq) (fun q hq => w.members_valid e.1 c q hc hq)
      have hu1 : userAt (setChat s e.1 c.recContribution) user = some u := hu
      have hd := w.hist_nodup user u hu
      rw [hm] at hd
      refine wf_setUser w1 hu1 _ rfl ?_ hd
      intro x hx
      simp only [List.mem_cons] at hx
      rcases hx with h | h
      · subst h
        exact w1.hist_live user u e hu1 (by rw [hm]; exact List.mem_cons_self _ _)
      · exact w1.hist_live user u x hu1 (by rw [hm]; exact List.mem_cons_of_mem _ h)

end MemberLemmas

/-! ## Termination of a chat -/

section TerminateLemmas

variable {hash : String → Nat} {s : ChatTrackerImpl}

theorem state_eq_of_fields {a b : ChatTrackerImpl} (h1 : a.m_maxBuckets = b.m_maxBuckets)
    (h2 : a.m_chats = b.m_chats) (h3 : a.m_users = b.m_users) (h4 : a.chatHeap = b.chatHeap)
    (h5 : a.userHeap = b.userHeap) : a = b := by
  cases a; cases b; simp_all

theorem User.without_idem {u : User} (chat : Nat) (h : (u.m_chats.map Prod.fst).Nodup) :
    (u.without chat).without chat = u.without chat := by
  have h1 := nodup_eraseP (isChat chat) h
  simp only [User.without]
  rw [eraseP_eq_filter chat h1, eraseP_eq_filter chat h, List.filter_filter]
  simp

theorem User.without_not_mem {u : User} (chat : Nat) (h : (u.m_chats.map Prod.fst).Nodup)
    {e : Nat × Int} (he : e ∈ (u.without chat).m_chats) : e.1 ≠ chat := by
  simp only [User.without] at he
  rw [eraseP_eq_filter chat h] at he
  have := (List.mem_filter.mp he).2
  simpa [isChat] using this

theorem User.without_of_not_mem {u : User} (chat : Nat)
    (h : ∀ e, e ∈ u.m_chats → e.1 ≠ chat) : u.without chat = u := by
  have : u.m_chats.eraseP (isChat chat) = u.m_chats :=
    List.eraseP_of_forall_not (fun a ha => by simpa [isChat] using h a ha)
  simp [User.without, this]

theorem terminateStep_userAt (s : ChatTrackerImpl) (chat user q : Nat) :
    userAt (terminateStep chat s user) q =
      if q = user then (userAt s q).map (User.without chat) else userAt s q := by
  unfold terminateStep leaveChat
  cases hu : userAt s user with
  | none =>
    by_cases hq : q = user
    · subst hq; simp [hu]
    · simp [hq]
  | some u =>
    simp only [User.leaveChat_fst]
    rw [userAt_setUser s hu]
    by_cases hq : q = user
    · subst hq; simp [hu, User.without]
    · simp [hq]

theorem terminateStep_fields (s : ChatTrackerImpl) (chat user : Nat) :
    (terminateStep chat s user).m_maxBuckets = s.m_maxBuckets ∧
    (terminateStep chat s user).m_chats = s.m_chats ∧
    (terminateStep chat s user).m_users = s.m_users ∧
    (terminateStep chat s user).chatHeap = s.chatHeap := by
  unfold terminateStep leaveChat
  cases userAt s user <;> simp [setUser]

/-- The loop of `Chat::terminateChat` over any list of user pointers. -/
theorem terminateLoop_spec (chat : Nat) (l : List Nat) :
    ∀ s : ChatTrackerImpl, WF hash s →
      WF hash (l.foldl (terminateStep chat) s) ∧
      (l.foldl (terminateStep chat) s).m_maxBuckets = s.m_maxBuckets ∧
      (l.foldl (terminateStep chat) s).m_chats = s.m_chats ∧
      (l.foldl (terminateStep chat) s).m_users = s.m_users ∧
      (l.foldl (terminateStep chat) s).chatHeap = s.chatHeap ∧
      ∀ q, userAt (l.foldl (terminateStep chat) s) q =
        if q ∈ l then (userAt s q).map (User.without chat) else userAt s q := by
  induction l with
  | nil =>
    intro s w
    simp [w]
  | cons a t ih =>
    intro s w
    have w1 : WF hash (terminateStep chat s a) := wf_leaveChat w a chat
    obtain ⟨f1, f2, f3, f4⟩ := terminateStep_fields s chat a
    obtain ⟨g0, g1, g2, g3, g4, g5⟩ := ih (terminateStep chat s a) w1
    simp only [List.foldl_cons]
    refine ⟨g0, g1.trans f1, g2.trans f2, g3.trans f3, g4.trans f4, ?_⟩
    intro q
    rw [g5 q, terminateStep_userAt]
    by_cases hqa : q = a
    · subst hqa
      by_cases hqt : q ∈ t
      · simp only [hqt, List.mem_cons, true_or, if_true]
        cases hu : userAt s q with
        | none => rfl
        | some u => simp [User.without_idem chat (w.hist_nodup q u hu)]
      · simp only [hqt, List.mem_cons, true_or, if_true, if_false]
    · by_cases hqt : q ∈ t
      · simp [hqa, hqt]
      · simp [hqa, hqt]

/-- In a well-formed state `terminateChat` strips the chat from every history. -/
theorem terminateChat_fst (w : WF hash s) (p : Nat) :
    (terminateChat s p).1 = { s with userHeap := s.userHeap.map (User.without p) } := by
  obtain ⟨_, g1, g2, g3, g4, g5⟩ := @terminateLoop_spec hash p (membersAt s p) s w
  unfold terminateChat
  simp only
  refine state_eq_of_fields g1 g2 g3 g4 ?_
  apply List.ext_getElem?
  intro q
  have := g5 q
  simp only [userAt] at this
  rw [this, List.getElem?_map]
  by_cases hq : q ∈ membersAt s p
  · simp [hq]
  · simp only [hq, if_false]
    cases hu : s.userHeap[q]? with
    | none => rfl
    | some u =>
      simp only [Option.map_some']
      congr 1
      symm
      apply User.without_of_not_mem
      intro e he hep
      obtain ⟨c, hc, hm⟩ := w.hist_live q u e hu he
      rw [hep] at hc
      simp [membersAt, hc] at hq
      exact hq hm

theorem terminateChat_snd (w : WF hash s) {p : Nat} {c : Chat} (hc : chatAt s p = some c) :
    (terminateChat s p).2 = c.m_contributions := by
  obtain ⟨_, _, _, _, g4, _⟩ := @terminateLoop_spec hash p (membersAt s p) s w
  unfold terminateChat
  simp only
  have : chatAt ((membersAt s p).foldl (terminateStep p) s) p = chatAt s p := by
    unfold chatAt
    rw [g4]
  rw [this, hc]

theorem wf_terminateChat (w : WF hash s) (p : Nat) : WF hash (terminateChat s p).1 :=
  (@terminateLoop_spec hash p (membersAt s p) s w).1

theorem userAt_terminateChat (w : WF hash s) (p q : Nat) :
    userAt (terminateChat s p).1 q = (userAt s q).map (User.without p) := by
  rw [terminateChat_fst w]
  simp [userAt, List.getElem?_map]

theorem chatAt_terminateChat (w : WF hash s) (p q : Nat) :
    chatAt (terminateChat s p).1 q = chatAt s q := by
  rw [terminateChat_fst w]
  rfl

theorem findChat_terminateChat (w : WF hash s) (p : Nat) (r : String) :
    findChat hash (terminateChat s p).1 r = findChat hash s r := by
  rw [terminateChat_fst w]
  rfl

theorem findUser_terminateChat (w : WF hash s) (p : Nat) (n : String) :
    findUser hash (terminateChat s p).1 n = findUser hash s n := by
  have hw := wf_terminateChat w p
  cases h : findUser hash s n with
  | some q =>
    obtain ⟨u, hu, hn⟩ := findUser_some hash s h
    apply hw.findUser_iff.mpr
    exact ⟨u.without p, by rw [userAt_terminateChat w, hu]; rfl, hn⟩
  | none =>
    cases h1 : findUser hash (terminateChat s p).1 n with
    | none => rfl
    | some q =>
      obtain ⟨u, hu, hn⟩ := findUser_some hash _ h1
      rw [userAt_terminateChat w] at hu
      cases hu0 : userAt s q with
      | none => simp [hu0] at hu
      | some u0 =>
        simp [hu0] at hu
        have := w.user_found q u0 hu0
        rw [← hu] at hn
        simp only [User.without] at hn
        rw [hn, h] at this
        cases this

theorem wf_terminate (w : WF hash s) (r : String) : WF hash (terminate hash s r).1 := by
  unfold terminate
  cases hf : findChat hash s r with
  | none => exact w
  | some p =>
    simp only
    have hw := wf_terminateChat w p
    refine wf_deleteChat hw (by rw [findChat_terminateChat w]; exact hf) ?_
    intro q v e hv he
    rw [userAt_terminateChat w] at hv
    cases hu0 : userAt s q with
    | none => simp [hu0] at hv
    | some u0 =>
      simp [hu0] at hv
      subst hv
      exact User.without_not_mem p (w.hist_nodup q u0 hu0) he

end TerminateLemmas

/-! ## The public operations keep the invariant -/

section OpLemmas

variable {hash : String → Nat} {s : ChatTrackerImpl}

theorem wf_ensureChat (w : WF hash s) (r : String) : WF hash (ensureChat hash s r).1 := by
  unfold ensureChat
  cases h : findChat hash s r with
  | some p => exact w
  | none => exact wf_newChat w h

theorem wf_ensureUser (w : WF hash s) (n : String) : WF hash (ensureUser hash s n).1 := by
  unfold ensureUser
  cases h : findUser hash s n with
  | some p => exact w
  | none => exact wf_newUser w h

theorem findChat_ensureChat (w : WF hash s) (r r1 : String) :
    findChat hash (ensureChat hash s r).1 r1 =
      if r1 = r then some (ensureChat hash s r).2 else findChat hash s r1 := by
  unfold ensureChat
  cases h : findChat hash s r with
  | some p =>
    by_cases hr : r1 = r
    · simp [hr, h]
    · simp [hr]
  | none => exact findChat_newChat w h r1

theorem findUser_ensureUser (w : WF hash s) (n n1 : String) :
    findUser hash (ensureUser hash s n).1 n1 =
      if n1 = n then some (ensureUser hash s n).2 else findUser hash s n1 := by
  unfold ensureUser
  cases h : findUser hash s n with
  | some p =>
    by_cases hr : n1 = n
    · simp [hr, h]
    · simp [hr]
  | none => exact findUser_newUser w h n1

theorem findUser_ensureChat (r n : String) :
    findUser hash (ensureChat hash s r).1 n = findUser hash s n := by
  unfold ensureChat
  cases findChat hash s r <;> rfl

theorem findChat_ensureUser (n r : String) :
    findChat hash (ensureUser hash s n).1 r = findChat hash s r := by
  unfold ensureUser
  cases findUser hash s n <;> rfl

theorem userAt_ensureChat (r : String) (q : Nat) :
    userAt (ensureChat hash s r).1 q = userAt s q := by
  unfold ensureChat
  cases findChat hash s r <;> rfl

theorem chatAt_ensureUser (n : String) (q : Nat) :
    chatAt (ensureUser hash s n).1 q = chatAt s q := by
  unfold ensureUser
  cases findUser hash s n <;> rfl

/-- After the first half of `join` the chat pointer points to a chat of the given name. -/
theorem chatAt_ensureChat_self (w : WF hash s) (r : String) :
    ∃ c, chatAt (ensureChat hash s r).1 (ensureChat hash s r).2 = some c ∧ c.m_name = r := by
  apply findChat_some hash
  rw [findChat_ensureChat w]
  simp

/-- After the second half of `join` the user pointer points to a user of the given name. -/
theorem userAt_ensureUser_self (w : WF hash s) (n : String) :
    ∃ u, userAt (ensureUser hash s n).1 (ensureUser hash s n).2 = some u ∧ u.m_name = n := by
  apply findUser_some hash
  rw [findUser_ensureUser w]
  simp

theorem wf_join (w : WF hash s) (n r : String) : WF hash (join hash s n r) := by
  unfold join
  simp only
  have w1 := wf_ensureChat w r
  have w2 := wf_ensureUser w1 n
  obtain ⟨c, hc, _⟩ := chatAt_ensureChat_self w r
  obtain ⟨u, hu, _⟩ := userAt_ensureUser_self w1 n
  rw [← @chatAt_ensureUser hash _ n] at hc
  exact wf_joinChat w2 hu hc

theorem wf_contribute (w : WF hash s) (n : String) : WF hash (contribute hash s n).1 := by
  unfold contribute
  cases findUser hash s n with
  | none => exact w
  | some p => exact wf_contributeToCurrChat w p

theorem wf_leave (w : WF hash s) (n r : String) : WF hash (leave hash s n r).1 := by
  unfold leave
  cases findUser hash s n with
  | none => exact w
  | some p =>
    cases findChat hash s r with
    | none => exact w
    | some q => exact wf_leaveChat w p q

theorem wf_leaveCurrent (w : WF hash s) (n : String) : WF hash (leaveCurrent hash s n).1 := by
  unfold leaveCurrent
  cases findUser hash s n with
  | none => exact w
  | some p => exact wf_leaveCurrChat w p

theorem wf_step (w : WF hash s) (op : Op) : WF hash (step hash s op).1 := by
  cases op with
  | join n r => exact wf_join w n r
  | terminate r => exact wf_terminate w r
  | contribute n => exact wf_contribute w n
  | leave n r => exact wf_leave w n r
  | leaveCurrent n => exact wf_leaveCurrent w n

theorem wf_run (ops : List Op) : ∀ s : ChatTrackerImpl, WF hash s → WF hash (run hash s ops) := by
  induction ops with
  | nil => intro s w; exact w
  | cons op t ih => intro s w; exact ih _ (wf_step w op)

/-- Every reachable state satisfies the representation invariant. -/
theorem reachable_wf (h : Reachable hash s) : WF hash s := by
  obtain ⟨n, ops, hn, rfl⟩ := h
  exact wf_run ops _ (wf_new hash n hn)

theorem run_append (hash : String → Nat) (s : ChatTrackerImpl) (a b : List Op) :
    run hash s (a ++ b) = run hash (run hash s a) b := by
  induction a generalizing s with
  | nil => rfl
  | cons op t ih => exact ih _

theorem reachable_step (h : Reachable hash s) (op : Op) : Reachable hash (step hash s op).1 := by
  obtain ⟨n, ops, hn, rfl⟩ := h
  exact ⟨n, ops ++ [op], hn, by rw [run_append]; rfl⟩

end OpLemmas

/-! ## Observations by name -/

section ViewLemmas

variable {hash : String → Nat} {s : ChatTrackerImpl}

theorem chatNameAt_of (h : chatAt s p = some c) : chatNameAt s p = c.m_name := by
  simp [chatNameAt, h]

theorem userNameAt_of (h : userAt s p = some u) : userNameAt s p = u.m_name := by
  simp [userNameAt, h]

theorem history_of_userAt (w : WF hash s) {p : Nat} {u : User} (hu : userAt s p = some u) :
    history hash s u.m_name = some (namedHistory s u.m_chats) := by
  simp [history, w.user_found p u hu, hu]

theorem history_of_find {n : String} {p : Nat} {u : User} (hf : findUser hash s n = some p)
    (hu : userAt s p = some u) : history hash s n = some (namedHistory s u.m_chats) := by
  simp [history, hf, hu]

theorem history_of_none {n : String} (hf : findUser hash s n = none) :
    history hash s n = none := by
  simp [history, hf]

theorem history_eq_some {n : String} {l : List (String × Int)} (h : history hash s n = some l) :
    ∃ p u, findUser hash s n = some p ∧ userAt s p = some u ∧ u.m_name = n ∧
      l = namedHistory s u.m_chats := by
  unfold history at h
  cases hf : findUser hash s n with
  | none => simp [hf] at h
  | some p =>
    obtain ⟨u, hu, hn⟩ := findUser_some hash s hf
    simp [hf, hu] at h
    exact ⟨p, u, rfl, hu, hn, h.symm⟩

theorem history_eq_none {n : String} (h : history hash s n = none) :
    findUser hash s n = none := by
  cases hf : findUser hash s n with
  | none => rfl
  | some p =>
    obtain ⟨u, hu, _⟩ := findUser_some hash s hf
    simp [history, hf, hu] at h

theorem total_of_find {r : String} {p : Nat} {c : Chat} (hf : findChat hash s r = some p)
    (hc : chatAt s p = some c) : total hash s r = some c.m_contributions := by
  simp [total, hf, hc]

theorem total_of_none {r : String} (hf : findChat hash s r = none) : total hash s r = none := by
  simp [total, hf]

theorem total_eq_none {r : String} (h : total hash s r = none) : findChat hash s r = none := by
  cases hf : findChat hash s r with
  | none => rfl
  | some p =>
    obtain ⟨c, hc, _⟩ := findChat_some hash s hf
    simp [total, hf, hc] at h

theorem members_of_find {r : String} {p : Nat} {c : Chat} (hf : findChat hash s r = some p)
    (hc : chatAt s p = some c) :
    members hash s r = some (c.m_users.map (userNameAt s)) := by
  simp [members, hf, hc]

theorem members_of_none {r : String} (hf : findChat hash s r = none) :
    members hash s r = none := by
  simp [members, hf]

/-- In the history of a user of a well-formed state, the entry named `r` is the entry that
points to the chat `findChat` returns for `r`. -/
theorem WF.name_eq_iff (w : WF hash s) {p : Nat} {u : User} (hu : userAt s p = some u)
    {r : String} {cp : Nat} (hf : findChat hash s r = some cp) {e : Nat × Int}
    (he : e ∈ u.m_chats) : chatNameAt s e.1 = r ↔ e.1 = cp := by
  obtain ⟨c, hc, _⟩ := w.hist_live p u e hu he
  obtain ⟨d, hd, hdn⟩ := findChat_some hash s hf
  rw [chatNameAt_of hc]
  constructor
  · intro h
    exact w.chat_inj hc hd (h.trans hdn.symm)
  · intro h
    rw [h, hd] at hc
    cases hc
    exact hdn

theorem WF.name_ne_of_none (w : WF hash s) {p : Nat} {u : User} (hu : userAt s p = some u)
    {r : String} (hf : findChat hash s r = none) {e : Nat × Int}
    (he : e ∈ u.m_chats) : chatNameAt s e.1 ≠ r := by
  obtain ⟨c, hc, _⟩ := w.hist_live p u e hu he
  rw [chatNameAt_of hc]
  intro h
  have := w.chat_found e.1 c hc
  rw [h, hf] at this
  cases this

/-- The named view of a history is the same in two states that agree on the chats it
mentions. -/
theorem namedHistory_congr {s1 s2 : ChatTrackerImpl} {l : List (Nat × Int)}
    (h : ∀ e, e ∈ l → chatNameAt s1 e.1 = chatNameAt s2 e.1) :
    namedHistory s1 l = namedHistory s2 l := by
  unfold namedHistory
  apply List.map_congr_left
  intro e he
  rw [h e he]

theorem history_setUser (w : WF hash s) {p : Nat} {u0 : User} (hu : userAt s p = some u0)
    (u : User) (hn : u.m_name = u0.m_name) (n : String) :
    history hash (setUser s p u) n =
      if n = u0.m_name then some (namedHistory s u.m_chats) else history hash s n := by
  unfold history
  rw [findUser_setUser hash s hu u hn]
  cases hf : findUser hash s n with
  | none =>
    have hne : n ≠ u0.m_name := by
      intro h
      rw [h, w.user_found p u0 hu] at hf
      cases hf
    simp [hne]
  | some q =>
    obtain ⟨v, hv, hvn⟩ := findUser_some hash s hf
    simp only [Option.some_bind, userAt_setUser s hu]
    by_cases hq : q = p
    · subst hq
      rw [hu] at hv
      cases hv
      simp [hvn]
      rfl
    · have hne : n ≠ u0.m_name := by
        intro h
        exact hq (w.user_inj hv hu (hvn.trans h))
      simp [hq, hne]
      rfl

@[simp] theorem total_setUser (p : Nat) (u : User) (r : String) :
    total hash (setUser s p u) r = total hash s r := rfl

theorem userNameAt_setUser {p : Nat} {u0 : User} (hu : userAt s p = some u0)
    (u : User) (hn : u.m_name = u0.m_name) (q : Nat) :
    userNameAt (setUser s p u) q = userNameAt s q := by
  unfold userNameAt
  rw [userAt_setUser s hu]
  by_cases hq : q = p
  · subst hq; simp [hu, hn]
  · simp [hq]

theorem members_setUser {p : Nat} {u0 : User} (hu : userAt s p = some u0)
    (u : User) (hn : u.m_name = u0.m_name) (r : String) :
    members hash (setUser s p u) r = members hash s r := by
  unfold members
  have : userNameAt (setUser s p u) = userNameAt s := funext (userNameAt_setUser hu u hn)
  rw [this]
  rfl

theorem chatNameAt_setChat {p : Nat} {c0 : Chat} (hc : chatAt s p = some c0) (c : Chat)
    (hn : c.m_name = c0.m_name) (q : Nat) :
    chatNameAt (setChat s p c) q = chatNameAt s q := by
  unfold chatNameAt
  rw [chatAt_setChat s hc]
  by_cases hq : q = p
  · subst hq; simp [hc, hn]
  · simp [hq]

theorem history_setChat {p : Nat} {c0 : Chat} (hc : chatAt s p = some c0) (c : Chat)
    (hn : c.m_name = c0.m_name) (n : String) :
    history hash (setChat s p c) n = history hash s n := by
  unfold history namedHistory
  have : chatNameAt (setChat s p c) = chatNameAt s := funext (chatNameAt_setChat hc c hn)
  rw [this]
  rfl

theorem total_setChat (w : WF hash s) {p : Nat} {c0 : Chat} (hc : chatAt s p = some c0)
    (c : Chat) (hn : c.m_name = c0.m_name) (r : String) :
    total hash (setChat s p c) r =
      if r = c0.m_name then some c.m_contributions else total hash s r := by
  unfold total
  rw [findChat_setChat hash s hc c hn]
  cases hf : findChat hash s r with
  | none =>
    have hne : r ≠ c0.m_name := by
      intro h
      rw [h, w.chat_found p c0 hc] at hf
      cases hf
    simp [hne]
  | some q =>
    obtain ⟨d, hd, hdn⟩ := findChat_some hash s hf
    simp only [Option.some_bind, chatAt_setChat s hc]
    by_cases hq : q = p
    · subst hq
      rw [hc] at hd
      cases hd
      simp [hdn]
    · have hne : r ≠ c0.m_name := by
        intro h
        exact hq (w.chat_inj hd hc (hdn.trans h))
      simp [hq, hne]

theorem members_setChat (w : WF hash s) {p : Nat} {c0 : Chat} (hc : chatAt s p = some c0)
    (c : Chat) (hn : c.m_name = c0.m_name) (r : String) :
    members hash (setChat s p c) r =
      if r = c0.m_name then some (c.m_users.map (userNameAt s)) else members hash s r := by
  unfold members
  rw [findChat_setChat hash s hc c hn]
  have hun : userNameAt (setChat s p c) = userNameAt s := rfl
  rw [hun]
  cases hf : findChat hash s r with
  | none =>
    have hne : r ≠ c0.m_name := by
      intro h
      rw [h, w.chat_found p c0 hc] at hf
      cases hf
    simp [hne]
  | some q =>
    obtain ⟨d, hd, hdn⟩ := findChat_some hash s hf
    simp only [Option.some_bind, chatAt_setChat s hc]
    by_cases hq : q = p
    · subst hq
      rw [hc] at hd
      cases hd
      simp [hdn]
    · have hne : r ≠ c0.m_name := by
        intro h
        exact hq (w.chat_inj hd hc (hdn.trans h))
      simp [hq, hne]

end ViewLemmas

section ViewLemmas2

variable {hash : String → Nat} {s : ChatTrackerImpl}

theorem chatNameAt_newChat_old (r : String) {q : Nat} {c : Chat} (hq : chatAt s q = some c) :
    chatNameAt (newChat hash s r) q = chatNameAt s q := by
  have hne : q ≠ s.chatHeap.length := Nat.ne_of_lt (chatAt_lt s hq)
  unfold chatNameAt
  rw [chatAt_newChat]
  simp [hne]

theorem history_newChat (w : WF hash s) (r n : String) :
    history hash (newChat hash s r) n = history hash s n := by
  unfold history
  rw [findUser_newChat]
  cases hf : findUser hash s n with
  | none => rfl
  | some p =>
    simp only [Option.some_bind, userAt_newChat]
    cases hu : userAt s p with
    | none => rfl
    | some u =>
      simp only [Option.map_some']
      congr 1
      apply namedHistory_congr
      intro e he
      obtain ⟨c, hc, _⟩ := w.hist_live p u e hu he
      exact chatNameAt_newChat_old r hc

theorem total_newChat (w : WF hash s) {r : String} (hnone : findChat hash s r = none)
    (r1 : String) :
    total hash (newChat hash s r) r1 = if r1 = r then some 0 else total hash s r1 := by
  unfold total
  rw [findChat_newChat w hnone]
  by_cases hr : r1 = r
  · simp [hr, chatAt_newChat]
  · simp only [hr, if_false]
    cases hf : findChat hash s r1 with
    | none => rfl
    | some q =>
      obtain ⟨c, hc, _⟩ := findChat_some hash s hf
      have hne : q ≠ s.chatHeap.length := Nat.ne_of_lt (chatAt_lt s hc)
      simp [chatAt_newChat, hne]

theorem members_newChat (w : WF hash s) {r : String} (hnone : findChat hash s r = none)
    (r1 : String) :
    members hash (newChat hash s r) r1 = if r1 = r then some [] else members hash s r1 := by
  unfold members
  rw [findChat_newChat w hnone]
  have hun : userNameAt (newChat hash s r) = userNameAt s := rfl
  rw [hun]
  by_cases hr : r1 = r
  · simp [hr, chatAt_newChat]
  · simp only [hr, if_false]
    cases hf : findChat hash s r1 with
    | none => rfl
    | some q =>
      obtain ⟨c, hc, _⟩ := findChat_some hash s hf
      have hne : q ≠ s.chatHeap.length := Nat.ne_of_lt (chatAt_lt s hc)
      simp [chatAt_newChat, hne]

theorem history_newUser (w : WF hash s) {n : String} (hnone : findUser hash s n = none)
    (n1 : String) :
    history hash (newUser hash s n) n1 = if n1 = n then some [] else history hash s n1 := by
  unfold history
  rw [findUser_newUser w hnone]
  by_cases hr : n1 = n
  · simp [hr, userAt_newUser, namedHistory]
  · simp only [hr, if_false]
    cases hf : findUser hash s n1 with
    | none => rfl
    | some q =>
      obtain ⟨u, hu, _⟩ := findUser_some hash s hf
      have hne : q ≠ s.userHeap.length := Nat.ne_of_lt (userAt_lt s hu)
      simp [userAt_newUser, hne]
      rfl

@[simp] theorem total_newUser (n r : String) :
    total hash (newUser hash s n) r = total hash s r := rfl

theorem members_newUser (w : WF hash s) (n r : String) :
    members hash (newUser hash s n) r = members hash s r := by
  unfold members
  rw [findChat_newUser]
  cases hf : findChat hash s r with
  | none => rfl
  | some p =>
    simp only [Option.some_bind, chatAt_newUser]
    cases hc : chatAt s p with
    | none => rfl
    | some c =>
      simp only [Option.map_some']
      congr 1
      apply List.map_congr_left
      intro q hq
      have hne : q ≠ s.userHeap.length := Nat.ne_of_lt (w.members_valid p c q hc hq)
      unfold userNameAt
      rw [userAt_newUser]
      simp [hne]

theorem history_deleteChat (r : String) (p : Nat)
    (hno : ∀ q v e, userAt s q = some v → e ∈ v.m_chats → e.1 ≠ p) (n : String) :
    history hash (deleteChat hash s r p) n = history hash s n := by
  unfold history
  rw [findUser_deleteChat]
  cases hf : findUser hash s n with
  | none => rfl
  | some q =>
    simp only [Option.some_bind, userAt_deleteChat]
    cases hu : userAt s q with
    | none => rfl
    | some u =>
      simp only [Option.map_some']
      congr 1
      apply namedHistory_congr
      intro e he
      have hne := hno q u e hu he
      unfold chatNameAt
      rw [chatAt_deleteChat]
      simp [hne]

theorem total_deleteChat (w : WF hash s) {r : String} {p : Nat}
    (hp : findChat hash s r = some p) (r1 : String) :
    total hash (deleteChat hash s r p) r1 = if r1 = r then none else total hash s r1 := by
  unfold total
  rw [findChat_deleteChat w hp]
  by_cases hr : r1 = r
  · simp [hr]
  · simp only [hr, if_false]
    cases hf : findChat hash s r1 with
    | none => rfl
    | some q =>
      have hne : q ≠ p := by
        intro h
        obtain ⟨c, hc, hcn⟩ := findChat_some hash s hf
        obtain ⟨d, hd, hdn⟩ := findChat_some hash s hp
        rw [h, hd] at hc
        cases hc
        exact hr (hcn.symm.trans hdn)
      simp [chatAt_deleteChat, hne]

theorem members_deleteChat (w : WF hash s) {r : String} {p : Nat}
    (hp : findChat hash s r = some p) (r1 : String) :
    members hash (deleteChat hash s r p) r1 = if r1 = r then none else members hash s r1 := by
  unfold members
  rw [findChat_deleteChat w hp]
  have hun : userNameAt (deleteChat hash s r p) = userNameAt s := rfl
  rw [hun]
  by_cases hr : r1 = r
  · simp [hr]
  · simp only [hr, if_false]
    cases hf : findChat hash s r1 with
    | none => rfl
    | some q =>
      have hne : q ≠ p := by
        intro h
        obtain ⟨c, hc, hcn⟩ := findChat_some hash s hf
        obtain ⟨d, hd, hdn⟩ := findChat_some hash s hp
        rw [h, hd] at hc
        cases hc
        exact hr (hcn.symm.trans hdn)
      simp [chatAt_deleteChat, hne]

/-- Erasing the entry that points to the chat called `r` is, in the named view, removing
the entry named `r`. -/
theorem namedHistory_without (w : WF hash s) {q : Nat} {u : User} (hu : userAt s q = some u)
    {r : String} {p : Nat} (hp : findChat hash s r = some p) :
    namedHistory s (u.without p).m_chats =
      (namedHistory s u.m_chats).filter (fun x => x.1 != r) := by
  simp only [User.without, namedHistory]
  rw [eraseP_eq_filter p (w.hist_nodup q u hu), List.filter_map]
  congr 1
  apply List.filter_congr
  intro e he
  have := w.name_eq_iff hu hp he
  have hb : (e.1 == p) = (chatNameAt s e.1 == r) := by
    by_cases h : e.1 = p
    · rw [beq_iff_eq.mpr h, beq_iff_eq.mpr (this.mpr h)]
    · have h2 : chatNameAt s e.1 ≠ r := fun hh => h (this.mp hh)
      rw [beq_eq_false_iff_ne.mpr h, beq_eq_false_iff_ne.mpr h2]
  simp [isChat, hb, bne]

theorem history_terminateChat (w : WF hash s) {r : String} {p : Nat}
    (hp : findChat hash s r = some p) (n : String) :
    history hash (terminateChat s p).1 n =
      (history hash s n).map (List.filter (fun x => x.1 != r)) := by
  unfold history
  rw [findUser_terminateChat w]
  cases hf : findUser hash s n with
  | none => rfl
  | some q =>
    simp only [Option.some_bind, userAt_terminateChat w]
    cases hu : userAt s q with
    | none => rfl
    | some u =>
      simp only [Option.map_some']
      congr 1
      rw [← namedHistory_without w hu hp]
      apply namedHistory_congr
      intro e _
      unfold chatNameAt
      rw [chatAt_terminateChat w]

theorem total_terminateChat (w : WF hash s) (p : Nat) (r : String) :
    total hash (terminateChat s p).1 r = total hash s r := by
  rw [terminateChat_fst w]
  rfl

theorem members_terminateChat (w : WF hash s) (p : Nat) (r : String) :
    members hash (terminateChat s p).1 r = members hash s r := by
  unfold members
  rw [findChat_terminateChat w]
  have hun : userNameAt (terminateChat s p).1 = userNameAt s := by
    funext q
    unfold userNameAt
    rw [userAt_terminateChat w]
    cases userAt s q <;> rfl
  rw [hun]
  cases hf : findChat hash s r with
  | none => rfl
  | some q => simp only [Option.some_bind, chatAt_terminateChat w]

end ViewLemmas2

/-! ## The public operations, observed by name -/

section TerminateSpec

variable {hash : String → Nat} {s : ChatTrackerImpl}

theorem filter_named_of_none (w : WF hash s) {q : Nat} {u : User} (hu : userAt s q = some u)
    {r : String} (hf : findChat hash s r = none) :
    (namedHistory s u.m_chats).filter (fun x => x.1 != r) = namedHistory s u.m_chats := by
  apply List.filter_eq_self.mpr
  intro x hx
  obtain ⟨e, he, rfl⟩ := List.mem_map.mp hx
  have := w.name_ne_of_none hu hf he
  simpa using this

theorem history_filter_of_none (w : WF hash s) {r : String} (hf : findChat hash s r = none)
    (n : String) :
    (history hash s n).map (List.filter (fun x => x.1 != r)) = history hash s n := by
  cases h : history hash s n with
  | none => rfl
  | some l =>
    obtain ⟨p, u, _, hu, _, rfl⟩ := history_eq_some h
    simp [filter_named_of_none w hu hf]

theorem terminate_result (w : WF hash s) (r : String) :
    (terminate hash s r).2 = (total hash s r).getD 0 := by
  unfold terminate
  cases hf : findChat hash s r with
  | none => simp [total_of_none hf]
  | some p =>
    obtain ⟨c, hc, _⟩ := findChat_some hash s hf
    simp [terminateChat_snd w hc, total_of_find hf hc]

theorem findChat_terminate (w : WF hash s) (r r1 : String) :
    findChat hash (terminate hash s r).1 r1 = if r1 = r then none else findChat hash s r1 := by
  unfold terminate
  cases hf : findChat hash s r with
  | none =>
    by_cases hr : r1 = r
    · simp [hr, hf]
    · simp [hr]
  | some p =>
    simp only
    have hf1 : findChat hash (terminateChat s p).1 r = some p := by
      rw [findChat_terminateChat w]; exact hf
    rw [findChat_deleteChat (wf_terminateChat w p) hf1, findChat_terminateChat w]

theorem findUser_terminate (w : WF hash s) (r n : String) :
    findUser hash (terminate hash s r).1 n = findUser hash s n := by
  unfold terminate
  cases hf : findChat hash s r with
  | none => rfl
  | some p =>
    simp only [findUser_deleteChat]
    exact findUser_terminateChat w p n

theorem no_entry_after_terminateChat (w : WF hash s) (p : Nat) :
    ∀ q v e, userAt (terminateChat s p).1 q = some v → e ∈ v.m_chats → e.1 ≠ p := by
  intro q v e hv he
  rw [userAt_terminateChat w] at hv
  cases hu0 : userAt s q with
  | none => simp [hu0] at hv
  | some u0 =>
    simp [hu0] at hv
    subst hv
    exact User.without_not_mem p (w.hist_nodup q u0 hu0) he

theorem history_terminate (w : WF hash s) (r n : String) :
    history hash (terminate hash s r).1 n =
      (history hash s n).map (List.filter (fun x => x.1 != r)) := by
  unfold terminate
  cases hf : findChat hash s r with
  | none => exact (history_filter_of_none w hf n).symm
  | some p =>
    simp only
    rw [history_deleteChat r p (no_entry_after_terminateChat w p), history_terminateChat w hf]

theorem total_terminate (w : WF hash s) (r r1 : String) :
    total hash (terminate hash s r).1 r1 = if r1 = r then none else total hash s r1 := by
  unfold terminate
  cases hf : findChat hash s r with
  | none =>
    by_cases hr : r1 = r
    · simp [hr, total_of_none hf]
    · simp [hr]
  | some p =>
    simp only
    have hf1 : findChat hash (terminateChat s p).1 r = some p := by
      rw [findChat_terminateChat w]; exact hf
    rw [total_deleteChat (wf_terminateChat w p) hf1, total_terminateChat w]

theorem members_terminate (w : WF hash s) (r r1 : String) :
    members hash (terminate hash s r).1 r1 = if r1 = r then none else members hash s r1 := by
  unfold terminate
  cases hf : findChat hash s r with
  | none =>
    by_cases hr : r1 = r
    · simp [hr, members_of_none hf]
    · simp [hr]
  | some p =>
    simp only
    have hf1 : findChat hash (terminateChat s p).1 r = some p := by
      rw [findChat_terminateChat w]; exact hf
    rw [members_deleteChat (wf_terminateChat w p) hf1, members_terminateChat w]

end TerminateSpec

section ContributeSpec

variable {hash : String → Nat} {s : ChatTrackerImpl}

/-- The two ways `contribute` can go, with the final state in closed form. -/
theorem contribute_cases (w : WF hash s) (n : String) :
    ((history hash s n = none ∨ history hash s n = some []) ∧ contribute hash s n = (s, 0)) ∨
    ∃ p u e rest c, findUser hash s n = some p ∧ userAt s p = some u ∧ u.m_name = n ∧
      u.m_chats = e :: rest ∧ chatAt s e.1 = some c ∧
      contribute hash s n =
        (setUser (setChat s e.1 c.recContribution) p { u with m_chats := (e.1, e.2 + 1) :: rest },
          e.2 + 1) := by
  unfold contribute
  cases hf : findUser hash s n with
  | none => exact Or.inl ⟨Or.inl (history_of_none hf), rfl⟩
  | some p =>
    obtain ⟨u, hu, hn⟩ := findUser_some hash s hf
    cases hm : u.m_chats with
    | nil =>
      left
      refine ⟨Or.inr ?_, ?_⟩
      · rw [history_of_find hf hu, hm]; rfl
      · simp [contributeToCurrChat, hu, hm]
    | cons e rest =>
      right
      obtain ⟨c, hc, _⟩ := w.hist_live p u e hu (by rw [hm]; exact List.mem_cons_self _ _)
      refine ⟨p, u, e, rest, c, rfl, hu, hn, hm, hc, ?_⟩
      simp [contributeToCurrChat, hu, hm, hc]

theorem contribute_result (w : WF hash s) (n : String) :
    (contribute hash s n).2 =
      match history hash s n with
      | some (x :: _) => x.2 + 1
      | _ => 0 := by
  rcases contribute_cases w n with ⟨h | h, heq⟩ | ⟨p, u, e, rest, c, hf, hu, _, hm, _, heq⟩
  · rw [heq, h]
  · rw [heq, h]
  · rw [heq, history_of_find hf hu, hm]
    rfl

theorem history_contribute (w : WF hash s) (n n1 : String) :
    history hash (contribute hash s n).1 n1 =
      if n1 = n then (history hash s n).map bumpHead else history hash s n1 := by
  rcases contribute_cases w n with ⟨h | h, heq⟩ | ⟨p, u, e, rest, c, hf, hu, hn, hm, hc, heq⟩
  · rw [heq]
    by_cases hn : n1 = n
    · simp [hn, h]
    · simp [hn]
  · rw [heq]
    by_cases hn : n1 = n
    · simp [hn, h, bumpHead]
    · simp [hn]
  · rw [heq]
    simp only
    have w1 : WF hash (setChat s e.1 c.recContribution) :=
      wf_setChat w hc _ rfl (fun q hq => hq) (fun q hq => w.members_valid e.1 c q hc hq)
    have hu1 : userAt (setChat s e.1 c.recContribution) p = some u := hu
    rw [history_setUser w1 hu1 { u with m_chats := (e.1, e.2 + 1) :: rest } rfl,
      history_setChat hc c.recContribution rfl, hn]
    by_cases hn1 : n1 = n
    · simp only [hn1, if_true, history_of_find hf hu, hm, Option.map_some']
      congr 1
      rw [namedHistory_congr (fun x _ => chatNameAt_setChat hc c.recContribution rfl x.1)]
      rfl
    · simp [hn1]

theorem currentChat_of_cons {n : String} {p : Nat} {u : User} {e : Nat × Int}
    {rest : List (Nat × Int)} (hf : findUser hash s n = some p) (hu : userAt s p = some u)
    (hm : u.m_chats = e :: rest) : currentChat hash s n = some (chatNameAt s e.1) := by
  simp [currentChat, history_of_find hf hu, hm, namedHistory]

theorem total_contribute (w : WF hash s) (n r : String) :
    total hash (contribute hash s n).1 r =
      if currentChat hash s n = some r then (total hash s r).map (fun k => k + 1)
      else total hash s r := by
  rcases contribute_cases w n with ⟨h | h, heq⟩ | ⟨p, u, e, rest, c, hf, hu, hn, hm, hc, heq⟩
  · rw [heq]
    simp [currentChat, h]
  · rw [heq]
    simp [currentChat, h]
  · rw [heq]
    simp only [total_setUser]
    rw [total_setChat w hc c.recContribution rfl, currentChat_of_cons hf hu hm, chatNameAt_of hc]
    by_cases hr : r = c.m_name
    · subst hr
      simp [total_of_find (w.chat_found e.1 c hc) hc, Chat.recContribution]
    · have hr2 : ¬ c.m_name = r := fun h => hr h.symm
      simp [hr, hr2]

theorem members_contribute (w : WF hash s) (n r : String) :
    members hash (contribute hash s n).1 r = members hash s r := by
  rcases contribute_cases w n with ⟨_, heq⟩ | ⟨p, u, e, rest, c, hf, hu, hn, hm, hc, heq⟩
  · rw [heq]
  · rw [heq]
    simp only
    have hu1 : userAt (setChat s e.1 c.recContribution) p = some u := hu
    rw [members_setUser hu1 { u with m_chats := (e.1, e.2 + 1) :: rest } rfl,
      members_setChat w hc c.recContribution rfl]
    by_cases hr : r = c.m_name
    · subst hr
      simp [members_of_find (w.chat_found e.1 c hc) hc, Chat.recContribution]
    · simp [hr]

theorem findUser_contribute (w : WF hash s) (n n1 : String) :
    findUser hash (contribute hash s n).1 n1 = findUser hash s n1 := by
  rcases contribute_cases w n with ⟨_, heq⟩ | ⟨p, u, e, rest, c, hf, hu, hn, hm, hc, heq⟩
  · rw [heq]
  · rw [heq]
    simp only
    have hu1 : userAt (setChat s e.1 c.recContribution) p = some u := hu
    rw [findUser_setUser hash _ hu1 { u with m_chats := (e.1, e.2 + 1) :: rest } rfl,
      findUser_setChat]

theorem findChat_contribute (w : WF hash s) (n r : String) :
    findChat hash (contribute hash s n).1 r = findChat hash s r := by
  rcases contribute_cases w n with ⟨_, heq⟩ | ⟨p, u, e, rest, c, hf, hu, hn, hm, hc, heq⟩
  · rw [heq]
  · rw [heq]
    simp only [findChat_setUser]
    exact findChat_setChat hash s hc c.recContribution rfl r

end ContributeSpec

section LeaveSpec

variable {hash : String → Nat} {s : ChatTrackerImpl}

theorem setUser_self {p : Nat} {u : User} (hu : userAt s p = some u) : setUser s p u = s := by
  have : s.userHeap.set p u = s.userHeap := by
    apply List.ext_getElem?
    intro q
    by_cases hq : p = q
    · subst hq
      rw [List.getElem?_set_self (userAt_lt s hu)]
      exact hu.symm
    · rw [List.getElem?_set_ne hq]
  cases s
  simp only [setUser] at this ⊢
  simp [this]

/-- Searching the named view for a name is searching the history for the pointer. -/
theorem namedHistory_find (w : WF hash s) {q : Nat} {u : User} (hu : userAt s q = some u)
    {r : String} {p : Nat} (hp : findChat hash s r = some p) :
    (namedHistory s u.m_chats).find? (fun x => x.1 == r) =
      (u.m_chats.find? (isChat p)).map (fun e => (chatNameAt s e.1, e.2)) := by
  unfold namedHistory
  rw [List.find?_map]
  congr 1
  apply find?_congr_mem
  intro e he
  have := w.name_eq_iff hu hp he
  simp only [Function.comp, isChat]
  by_cases h : e.1 = p
  · rw [beq_iff_eq.mpr h, beq_iff_eq.mpr (this.mpr h)]
  · have h2 : chatNameAt s e.1 ≠ r := fun hh => h (this.mp hh)
    rw [beq_eq_false_iff_ne.mpr h, beq_eq_false_iff_ne.mpr h2]

theorem namedHistory_find_none (w : WF hash s) {q : Nat} {u : User} (hu : userAt s q = some u)
    {r : String} (hp : findChat hash s r = none) :
    (namedHistory s u.m_chats).find? (fun x => x.1 == r) = none := by
  rw [List.find?_eq_none]
  intro x hx
  obtain ⟨e, he, rfl⟩ := List.mem_map.mp hx
  simpa using w.name_ne_of_none hu hp he

/-- The two ways `leave(user, chat)` can go, with the final state in closed form. -/
theorem leave_cases (w : WF hash s) (n r : String) :
    (leave hash s n r = (s, -1) ∧
      (history hash s n).bind (fun l => l.find? (fun x => x.1 == r)) = none) ∨
    ∃ p u cp e, findUser hash s n = some p ∧ userAt s p = some u ∧ u.m_name = n ∧
      findChat hash s r = some cp ∧ u.m_chats.find? (isChat cp) = some e ∧
      leave hash s n r = (setUser s p (u.without cp), e.2) := by
  unfold leave
  cases hf : findUser hash s n with
  | none =>
    left
    exact ⟨rfl, by simp [history_of_none hf]⟩
  | some p =>
    obtain ⟨u, hu, hn⟩ := findUser_some hash s hf
    cases hc : findChat hash s r with
    | none =>
      left
      exact ⟨rfl, by simp [history_of_find hf hu, namedHistory_find_none w hu hc]⟩
    | some cp =>
      cases he : u.m_chats.find? (isChat cp) with
      | none =>
        left
        refine ⟨?_, by simp [history_of_find hf hu, namedHistory_find w hu hc, he]⟩
        simp only [leaveChat, hu, User.leaveChat, he]
        rw [setUser_self hu]
      | some e =>
        right
        refine ⟨p, u, cp, e, rfl, hu, hn, rfl, he, ?_⟩
        simp only [leaveChat, hu, User.leaveChat, he]
        rfl

theorem leave_result (w : WF hash s) (n r : String) :
    (leave hash s n r).2 =
      match (history hash s n).bind (fun l => l.find? (fun x => x.1 == r)) with
      | some x => x.2
      | none => -1 := by
  rcases leave_cases w n r with ⟨heq, h⟩ | ⟨p, u, cp, e, hf, hu, _, hc, he, heq⟩
  · rw [heq, h]
  · rw [heq]
    simp [history_of_find hf hu, namedHistory_find w hu hc, he]

theorem wf_without (w : WF hash s) {p : Nat} {u : User} (hu : userAt s p = some u) (cp : Nat) :
    WF hash (setUser s p (u.without cp)) := by
  have := wf_leaveChat w p cp
  simp only [leaveChat, hu, User.leaveChat_fst] at this
  exact this

theorem history_leave (w : WF hash s) (n r n1 : String) :
    history hash (leave hash s n r).1 n1 =
      if n1 = n then (history hash s n).map (List.filter (fun x => x.1 != r))
      else history hash s n1 := by
  rcases leave_cases w n r with ⟨heq, h⟩ | ⟨p, u, cp, e, hf, hu, hn, hc, he, heq⟩
  · rw [heq]
    by_cases hn1 : n1 = n
    · subst hn1
      simp only [if_true]
      cases hh : history hash s n1 with
      | none => rfl
      | some l =>
        rw [hh] at h
        simp only [Option.some_bind, List.find?_eq_none] at h
        simp only [Option.map_some']
        congr 1
        symm
        apply List.filter_eq_self.mpr
        intro x hx
        simpa using h x hx
    · simp [hn1]
  · rw [heq]
    simp only
    rw [history_setUser w hu (u.without cp) rfl, hn]
    by_cases hn1 : n1 = n
    · simp only [hn1, if_true, history_of_find hf hu, Option.map_some']
      rw [namedHistory_without w hu hc]
    · simp [hn1]

theorem total_leave (w : WF hash s) (n r r1 : String) :
    total hash (leave hash s n r).1 r1 = total hash s r1 := by
  rcases leave_cases w n r with ⟨heq, _⟩ | ⟨p, u, cp, e, hf, hu, hn, hc, he, heq⟩
  · rw [heq]
  · rw [heq]; rfl

theorem members_leave (w : WF hash s) (n r r1 : String) :
    members hash (leave hash s n r).1 r1 = members hash s r1 := by
  rcases leave_cases w n r with ⟨heq, _⟩ | ⟨p, u, cp, e, hf, hu, hn, hc, he, heq⟩
  · rw [heq]
  · rw [heq]
    exact members_setUser hu (u.without cp) rfl r1

theorem findUser_leave (w : WF hash s) (n r n1 : String) :
    findUser hash (leave hash s n r).1 n1 = findUser hash s n1 := by
  rcases leave_cases w n r with ⟨heq, _⟩ | ⟨p, u, cp, e, hf, hu, hn, hc, he, heq⟩
  · rw [heq]
  · rw [heq]
    exact findUser_setUser hash s hu (u.without cp) rfl n1

theorem findChat_leave (w : WF hash s) (n r r1 : String) :
    findChat hash (leave hash s n r).1 r1 = findChat hash s r1 := by
  rcases leave_cases w n r with ⟨heq, _⟩ | ⟨p, u, cp, e, hf, hu, hn, hc, he, heq⟩
  · rw [heq]
  · rw [heq]; rfl

/-- The two ways `leave(user)` can go, with the final state in closed form. -/
theorem leaveCurrent_cases (n : String) :
    ((history hash s n = none ∨ history hash s n = some []) ∧
      leaveCurrent hash s n = (s, -1)) ∨
    ∃ p u e rest, findUser hash s n = some p ∧ userAt s p = some u ∧ u.m_name = n ∧
      u.m_chats = e :: rest ∧
      leaveCurrent hash s n = (setUser s p { u with m_chats := rest }, e.2) := by
  unfold leaveCurrent
  cases hf : findUser hash s n with
  | none => exact Or.inl ⟨Or.inl (history_of_none hf), rfl⟩
  | some p =>
    obtain ⟨u, hu, hn⟩ := findUser_some hash s hf
    cases hm : u.m_chats with
    | nil =>
      left
      refine ⟨Or.inr ?_, ?_⟩
      · rw [history_of_find hf hu, hm]; rfl
      · simp only [leaveCurrChat, hu, User.leaveCurrChat, hm]
        rw [setUser_self hu]
    | cons e rest =>
      right
      refine ⟨p, u, e, rest, rfl, hu, hn, hm, ?_⟩
      simp only [leaveCurrChat, hu, User.leaveCurrChat, hm]

theorem leaveCurrent_result (n : String) :
    (leaveCurrent hash s n).2 =
      match history hash s n with
      | some (x :: _) => x.2
      | _ => -1 := by
  rcases @leaveCurrent_cases hash s n with
    ⟨h | h, heq⟩ | ⟨p, u, e, rest, hf, hu, _, hm, heq⟩
  · rw [heq, h]
  · rw [heq, h]
  · rw [heq, history_of_find hf hu, hm]
    rfl

theorem history_leaveCurrent (w : WF hash s) (n n1 : String) :
    history hash (leaveCurrent hash s n).1 n1 =
      if n1 = n then (history hash s n).map List.tail else history hash s n1 := by
  rcases @leaveCurrent_cases hash s n with
    ⟨h | h, heq⟩ | ⟨p, u, e, rest, hf, hu, hn, hm, heq⟩
  · rw [heq]
    by_cases hn : n1 = n
    · simp [hn, h]
    · simp [hn]
  · rw [heq]
    by_cases hn : n1 = n
    · simp [hn, h]
    · simp [hn]
  · rw [heq]
    simp only
    rw [history_setUser w hu { u with m_chats := rest } rfl, hn]
    by_cases hn1 : n1 = n
    · simp only [hn1, if_true, history_of_find hf hu, hm, Option.map_some']
      rfl
    · simp [hn1]

theorem total_leaveCurrent (n r1 : String) :
    total hash (leaveCurrent hash s n).1 r1 = total hash s r1 := by
  rcases @leaveCurrent_cases hash s n with
    ⟨_, heq⟩ | ⟨p, u, e, rest, hf, hu, hn, hm, heq⟩
  · rw [heq]
  · rw [heq]; rfl

theorem members_leaveCurrent (n r1 : String) :
    members hash (leaveCurrent hash s n).1 r1 = members hash s r1 := by
  rcases @leaveCurrent_cases hash s n with
    ⟨_, heq⟩ | ⟨p, u, e, rest, hf, hu, hn, hm, heq⟩
  · rw [heq]
  · rw [heq]
    exact members_setUser hu { u with m_chats := rest } rfl r1

theorem findUser_leaveCurrent (n n1 : String) :
    findUser hash (leaveCurrent hash s n).1 n1 = findUser hash s n1 := by
  rcases @leaveCurrent_cases hash s n with
    ⟨_, heq⟩ | ⟨p, u, e, rest, hf, hu, hn, hm, heq⟩
  · rw [heq]
  · rw [heq]
    exact findUser_setUser hash s hu { u with m_chats := rest } rfl n1

theorem findChat_leaveCurrent (n r1 : String) :
    findChat hash (leaveCurrent hash s n).1 r1 = findChat hash s r1 := by
  rcases @leaveCurrent_cases hash s n with
    ⟨_, heq⟩ | ⟨p, u, e, rest, hf, hu, hn, hm, heq⟩
  · rw [heq]
  · rw [heq]; rfl

end LeaveSpec

section JoinSpec

variable {hash : String → Nat} {s : ChatTrackerImpl}

theorem history_ensureChat (w : WF hash s) (r n : String) :
    history hash (ensureChat hash s r).1 n = history hash s n := by
  unfold ensureChat
  cases h : findChat hash s r with
  | some p => rfl
  | none => exact history_newChat w r n

theorem total_ensureChat (w : WF hash s) (r r1 : String) :
    total hash (ensureChat hash s r).1 r1 =
      if r1 = r then some ((total hash s r).getD 0) else total hash s r1 := by
  unfold ensureChat
  cases h : findChat hash s r with
  | some p =>
    obtain ⟨c, hc, _⟩ := findChat_some hash s h
    by_cases hr : r1 = r
    · simp [hr, total_of_find h hc]
    · simp [hr]
  | none =>
    simp only
    rw [total_newChat w h, total_of_none h]
    rfl

theorem members_ensureChat (w : WF hash s) (r r1 : String) :
    members hash (ensureChat hash s r).1 r1 =
      if r1 = r then some ((members hash s r).getD []) else members hash s r1 := by
  unfold ensureChat
  cases h : findChat hash s r with
  | some p =>
    obtain ⟨c, hc, _⟩ := findChat_some hash s h
    by_cases hr : r1 = r
    · simp [hr, members_of_find h hc]
    · simp [hr]
  | none =>
    simp only
    rw [members_newChat w h, members_of_none h]
    rfl

theorem history_ensureUser (w : WF hash s) (n n1 : String) :
    history hash (ensureUser hash s n).1 n1 =
      if n1 = n then some ((history hash s n).getD []) else history hash s n1 := by
  unfold ensureUser
  cases h : findUser hash s n with
  | some p =>
    obtain ⟨u, hu, _⟩ := findUser_some hash s h
    by_cases hr : n1 = n
    · simp [hr, history_of_find h hu]
    · simp [hr]
  | none =>
    simp only
    rw [history_newUser w h, history_of_none h]
    rfl

theorem total_ensureUser (n r : String) :
    total hash (ensureUser hash s n).1 r = total hash s r := by
  unfold ensureUser
  cases findUser hash s n <;> rfl

theorem members_ensureUser (w : WF hash s) (n r : String) :
    members hash (ensureUser hash s n).1 r = members hash s r := by
  unfold ensureUser
  cases h : findUser hash s n with
  | some p => rfl
  | none => exact members_newUser w n r

/-- The two ways `joinChat` can go, with the final state in closed form. -/
theorem joinChat_cases {user chat : Nat} {u : User} {c : Chat}
    (hu : userAt s user = some u) (hc : chatAt s chat = some c) :
    (∃ e, u.m_chats.find? (isChat chat) = some e ∧
      joinChat s user chat =
        setUser s user { u with m_chats := e :: u.m_chats.eraseP (isChat chat) }) ∨
    (u.m_chats.find? (isChat chat) = none ∧
      joinChat s user chat =
        setUser (setChat s chat (c.addUser user)) user
          { u with m_chats := (chat, 0) :: u.m_chats }) := by
  unfold joinChat
  simp only [hu, chatAt_setUser, hc]
  cases hf : u.m_chats.find? (isChat chat) with
  | some e => exact Or.inl ⟨e, rfl, rfl⟩
  | none => exact Or.inr ⟨rfl, rfl⟩

theorem findUser_joinChat {user chat : Nat} {u : User} {c : Chat}
    (hu : userAt s user = some u) (hc : chatAt s chat = some c) (n : String) :
    findUser hash (joinChat s user chat) n = findUser hash s n := by
  rcases joinChat_cases hu hc with ⟨e, _, heq⟩ | ⟨_, heq⟩
  · rw [heq]
    exact findUser_setUser hash s hu { u with m_chats := e :: u.m_chats.eraseP (isChat chat) }
      rfl n
  · rw [heq]
    have hu1 : userAt (setChat s chat (c.addUser user)) user = some u := hu
    rw [findUser_setUser hash _ hu1 { u with m_chats := (chat, 0) :: u.m_chats } rfl n]
    rfl

theorem findChat_joinChat {user chat : Nat} {u : User} {c : Chat}
    (hu : userAt s user = some u) (hc : chatAt s chat = some c) (r : String) :
    findChat hash (joinChat s user chat) r = findChat hash s r := by
  rcases joinChat_cases hu hc with ⟨e, _, heq⟩ | ⟨_, heq⟩
  · rw [heq]; rfl
  · rw [heq]
    simp only [findChat_setUser]
    exact findChat_setChat hash s hc (c.addUser user) rfl r

theorem total_joinChat (w : WF hash s) {user chat : Nat} {u : User} {c : Chat}
    (hu : userAt s user = some u) (hc : chatAt s chat = some c) (r : String) :
    total hash (joinChat s user chat) r = total hash s r := by
  rcases joinChat_cases hu hc with ⟨e, _, heq⟩ | ⟨_, heq⟩
  · rw [heq]; rfl
  · rw [heq]
    simp only [total_setUser]
    rw [total_setChat w hc (c.addUser user) rfl]
    by_cases hr : r = c.m_name
    · subst hr
      simp [total_of_find (w.chat_found chat c hc) hc, Chat.addUser]
    · simp [hr]

theorem history_joinChat (w : WF hash s) {user chat : Nat} {u : User} {c : Chat}
    (hu : userAt s user = some u) (hc : chatAt s chat = some c) (n : String) :
    history hash (joinChat s user chat) n =
      if n = u.m_name then some (joinHistory c.m_name (namedHistory s u.m_chats))
      else history hash s n := by
  have hfc := w.chat_found chat c hc
  rcases joinChat_cases hu hc with ⟨e, he, heq⟩ | ⟨he, heq⟩
  · rw [heq, history_setUser w hu { u with m_chats := e :: u.m_chats.eraseP (isChat chat) } rfl]
    by_cases hn : n = u.m_name
    · simp only [hn, if_true]
      congr 1
      unfold joinHistory
      rw [namedHistory_find w hu hfc, he]
      simp only [Option.map_some']
      rw [← namedHistory_without w hu hfc]
      rfl
    · simp [hn]
  · rw [heq]
    have hu1 : userAt (setChat s chat (c.addUser user)) user = some u := hu
    have w1 : WF hash (setChat s chat (c.addUser user)) := by
      refine wf_setChat w hc _ rfl (fun q hq => List.mem_cons_of_mem _ hq) ?_
      intro q hq
      simp only [Chat.addUser, List.mem_cons] at hq
      rcases hq with h | h
      · rw [h]; exact userAt_lt s hu
      · exact w.members_valid chat c q hc h
    rw [history_setUser w1 hu1 { u with m_chats := (chat, 0) :: u.m_chats } rfl,
      history_setChat hc (c.addUser user) rfl]
    by_cases hn : n = u.m_name
    · simp only [hn, if_true]
      congr 1
      rw [namedHistory_congr (fun x _ => chatNameAt_setChat hc (c.addUser user) rfl x.1)]
      unfold joinHistory
      rw [namedHistory_find w hu hfc, he]
      simp [namedHistory, chatNameAt_of hc]
    · simp [hn]

theorem members_joinChat (w : WF hash s) {user chat : Nat} {u : User} {c : Chat}
    (hu : userAt s user = some u) (hc : chatAt s chat = some c) (r : String) :
    members hash (joinChat s user chat) r =
      if r = c.m_name ∧ (namedHistory s u.m_chats).find? (fun x => x.1 == c.m_name) = none
      then some (u.m_name :: (members hash s c.m_name).getD [])
      else members hash s r := by
  have hfc := w.chat_found chat c hc
  rw [namedHistory_find w hu hfc]
  rcases joinChat_cases hu hc with ⟨e, he, heq⟩ | ⟨he, heq⟩
  · rw [heq, members_setUser hu { u with m_chats := e :: u.m_chats.eraseP (isChat chat) } rfl, he]
    simp
  · rw [heq]
    have hu1 : userAt (setChat s chat (c.addUser user)) user = some u := hu
    rw [members_setUser hu1 { u with m_chats := (chat, 0) :: u.m_chats } rfl,
      members_setChat w hc (c.addUser user) rfl, he]
    by_cases hr : r = c.m_name
    · simp [hr, members_of_find hfc hc, Chat.addUser, userNameAt_of hu]
    · simp [hr]

/-- The pointers `join` passes to `joinChat` are live in the state it passes. -/
theorem join_pointers (w : WF hash s) (n r : String) :
    ∃ u c, userAt (ensureUser hash (ensureChat hash s r).1 n).1
        (ensureUser hash (ensureChat hash s r).1 n).2 = some u ∧ u.m_name = n ∧
      chatAt (ensureUser hash (ensureChat hash s r).1 n).1 (ensureChat hash s r).2 = some c ∧
      c.m_name = r := by
  have w1 := wf_ensureChat w r
  obtain ⟨c, hc, hcn⟩ := chatAt_ensureChat_self w r
  obtain ⟨u, hu, hun⟩ := userAt_ensureUser_self w1 n
  rw [← @chatAt_ensureUser hash _ n] at hc
  exact ⟨u, c, hu, hun, hc, hcn⟩

theorem findUser_join (w : WF hash s) (n r n1 : String) :
    findUser hash (join hash s n r) n1 =
      if n1 = n then some (ensureUser hash (ensureChat hash s r).1 n).2
      else findUser hash s n1 := by
  obtain ⟨u, c, hu, _, hc, _⟩ := join_pointers w n r
  unfold join
  simp only
  rw [findUser_joinChat hu hc, findUser_ensureUser (wf_ensureChat w r), findUser_ensureChat]

theorem findChat_join (w : WF hash s) (n r r1 : String) :
    findChat hash (join hash s n r) r1 =
      if r1 = r then some (ensureChat hash s r).2 else findChat hash s r1 := by
  obtain ⟨u, c, hu, _, hc, _⟩ := join_pointers w n r
  unfold join
  simp only
  rw [findChat_joinChat hu hc, findChat_ensureUser, findChat_ensureChat w]

theorem total_join (w : WF hash s) (n r r1 : String) :
    total hash (join hash s n r) r1 =
      if r1 = r then some ((total hash s r).getD 0) else total hash s r1 := by
  obtain ⟨u, c, hu, _, hc, _⟩ := join_pointers w n r
  unfold join
  simp only
  rw [total_joinChat (wf_ensureUser (wf_ensureChat w r) n) hu hc, total_ensureUser,
    total_ensureChat w]

theorem history_join (w : WF hash s) (n r n1 : String) :
    history hash (join hash s n r) n1 =
      if n1 = n then some (joinHistory r ((history hash s n).getD []))
      else history hash s n1 := by
  obtain ⟨u, c, hu, hun, hc, hcn⟩ := join_pointers w n r
  have w1 := wf_ensureChat w r
  have w2 := wf_ensureUser w1 n
  have hh : history hash (ensureUser hash (ensureChat hash s r).1 n).1 n =
      some (namedHistory (ensureUser hash (ensureChat hash s r).1 n).1 u.m_chats) := by
    refine history_of_find ?_ hu
    rw [findUser_ensureUser w1]
    simp
  rw [history_ensureUser w1, history_ensureChat w] at hh
  simp only [if_true, Option.some.injEq] at hh
  unfold join
  simp only
  rw [history_joinChat w2 hu hc, hun, hcn, ← hh]
  by_cases hn : n1 = n
  · simp [hn]
  · simp only [hn, if_false]
    rw [history_ensureUser w1]
    simp only [hn, if_false]
    exact history_ensureChat w r n1

theorem members_join (w : WF hash s) (n r r1 : String) :
    members hash (join hash s n r) r1 =
      if r1 = r then
        some (if ((history hash s n).getD []).find? (fun x => x.1 == r) = none
          then n :: (members hash s r).getD [] else (members hash s r).getD [])
      else members hash s r1 := by
  obtain ⟨u, c, hu, hun, hc, hcn⟩ := join_pointers w n r
  have w1 := wf_ensureChat w r
  have w2 := wf_ensureUser w1 n
  have hh : history hash (ensureUser hash (ensureChat hash s r).1 n).1 n =
      some (namedHistory (ensureUser hash (ensureChat hash s r).1 n).1 u.m_chats) := by
    refine history_of_find ?_ hu
    rw [findUser_ensureUser w1]
    simp
  rw [history_ensureUser w1, history_ensureChat w] at hh
  simp only [if_true, Option.some.injEq] at hh
  unfold join
  simp only
  rw [members_joinChat w2 hu hc, hun, hcn, ← hh, members_ensureUser w1, members_ensureUser w1,
    members_ensureChat w, members_ensureChat w]
  by_cases hr : r1 = r
  · by_cases hf : ((history hash s n).getD []).find? (fun x => x.1 == r) = none
    · simp [hr, hf]
    · simp [hr, hf]
  · simp [hr]

end JoinSpec

section HistoryLemmas

variable {hash : String → Nat} {s : ChatTrackerImpl}

/-- A named history names every chat at most once. -/
theorem history_nodup (w : WF hash s) {n : String} {l : List (String × Int)}
    (h : history hash s n = some l) : (l.map Prod.fst).Nodup := by
  obtain ⟨p, u, _, hu, _, rfl⟩ := history_eq_some h
  have hd := w.hist_nodup p u hu
  have : (namedHistory s u.m_chats).map Prod.fst = (u.m_chats.map Prod.fst).map (chatNameAt s) := by
    simp [namedHistory, List.map_map, Function.comp]
  rw [this]
  apply List.Nodup.map_on _ hd
  intro a ha b hb hab
  obtain ⟨x, hx, rfl⟩ := List.mem_map.mp ha
  obtain ⟨y, hy, rfl⟩ := List.mem_map.mp hb
  obtain ⟨c, hc, _⟩ := w.hist_live p u x hu hx
  obtain ⟨d, hd1, _⟩ := w.hist_live p u y hu hy
  rw [chatNameAt_of hc, chatNameAt_of hd1] at hab
  exact w.chat_inj hc hd1 hab

/-- Every chat named in a history is in the chat directory. -/
theorem chat_of_history (w : WF hash s) {n : String} {l : List (String × Int)}
    (h : history hash s n = some l) {x : String × Int} (hx : x ∈ l) :
    ∃ p c, findChat hash s x.1 = some p ∧ chatAt s p = some c := by
  obtain ⟨p, u, _, hu, _, rfl⟩ := history_eq_some h
  obtain ⟨e, he, rfl⟩ := List.mem_map.mp hx
  obtain ⟨c, hc, _⟩ := w.hist_live p u e hu he
  refine ⟨e.1, c, ?_, hc⟩
  simp only [chatNameAt_of hc]
  exact w.chat_found e.1 c hc

theorem find_of_split {l1 l2 : List (String × Int)} {r : String} {c : Int}
    (hd : ((l1 ++ (r, c) :: l2).map Prod.fst).Nodup) :
    (l1 ++ (r, c) :: l2).find? (fun x => x.1 == r) = some (r, c) := by
  have h1 : l1.find? (fun x => x.1 == r) = none := by
    rw [List.find?_eq_none]
    intro x hx hxr
    simp only [beq_iff_eq] at hxr
    simp only [List.map_append, List.map_cons] at hd
    have := (List.nodup_append.mp hd).2.2
    exact this (List.mem_map_of_mem Prod.fst hx) (by simp [hxr])
  simp [List.find?_append, h1]

theorem filter_of_split {l1 l2 : List (String × Int)} {r : String} {c : Int}
    (hd : ((l1 ++ (r, c) :: l2).map Prod.fst).Nodup) :
    (l1 ++ (r, c) :: l2).filter (fun x => x.1 != r) = l1 ++ l2 := by
  simp only [List.map_append, List.map_cons] at hd
  obtain ⟨_, h2, h3⟩ := List.nodup_append.mp hd
  have e1 : l1.filter (fun x => x.1 != r) = l1 := by
    apply List.filter_eq_self.mpr
    intro x hx
    have : x.1 ≠ r := fun hxr => h3 (List.mem_map_of_mem Prod.fst hx) (by simp [hxr])
    simpa using this
  have e2 : l2.filter (fun x => x.1 != r) = l2 := by
    apply List.filter_eq_self.mpr
    intro x hx
    have : x.1 ≠ r := fun hxr => (List.nodup_cons.mp h2).1 (hxr ▸ List.mem_map_of_mem Prod.fst hx)
    simpa using this
  simp [List.filter_append, List.filter_cons, e1, e2]

theorem filter_of_not_mem {l : List (String × Int)} {r : String}
    (h : ∀ x, x ∈ l → x.1 ≠ r) : l.filter (fun x => x.1 != r) = l := by
  apply List.filter_eq_self.mpr
  intro x hx
  simpa using h x hx

theorem joinHistory_of_split {l1 l2 : List (String × Int)} {r : String} {c : Int}
    (hd : ((l1 ++ (r, c) :: l2).map Prod.fst).Nodup) :
    joinHistory r (l1 ++ (r, c) :: l2) = (r, c) :: (l1 ++ l2) := by
  unfold joinHistory
  rw [find_of_split hd, filter_of_split hd]

/-- The front entry after `join`: the chat joined, with the count it had in the history. -/
theorem joinHistory_head (r : String) (l : List (String × Int)) :
    ∃ t, joinHistory r l =
      (r, match l.find? (fun x => x.1 == r) with
          | some x => x.2
          | none => 0) :: t := by
  unfold joinHistory
  cases h : l.find? (fun x => x.1 == r) with
  | none => exact ⟨l, rfl⟩
  | some x =>
    have hx : x.1 = r := by simpa using List.find?_some h
    refine ⟨l.filter (fun y => y.1 != r), ?_⟩
    simp only
    rw [← hx]

theorem history_new (hash : String → Nat) (n : Nat) (u : String) :
    history hash (ChatTrackerImpl.new n) u = none := by
  simp [history, findUser, ChatTrackerImpl.new, bucket_replicate]

theorem total_new (hash : String → Nat) (n : Nat) (r : String) :
    total hash (ChatTrackerImpl.new n) r = none := by
  simp [total, findChat, ChatTrackerImpl.new, bucket_replicate]

end HistoryLemmas

/-- C1: on a fresh tracker with at least one bucket, whatever the hash function, the calls
join(alice, room1); contribute(alice); join(alice, room2); contribute(alice); leave(alice);
contribute(alice); terminate(room1) return 1, 1, 1, 2, 2 (the two joins return nothing), and
right after the leave the current chat of alice is room1. -/
theorem C1_scenario (hash : String → Nat) (n : Nat) (hn : 0 < n) :
    results hash (ChatTrackerImpl.new n) scenario =
      [none, some 1, none, some 1, some 1, some 2, some 2] ∧
    currentChat hash (run hash (ChatTrackerImpl.new n) (scenario.take 5)) "alice" =
      some "room1" := by
  have w0 := wf_new hash n hn
  have w1 := wf_join w0 "alice" "room1"
  have h1 : history hash (join hash (ChatTrackerImpl.new n) "alice" "room1") "alice" =
      some [("room1", 0)] := by
    rw [history_join w0, history_new]
    rfl
  have t1 : total hash (join hash (ChatTrackerImpl.new n) "alice" "room1") "room1" = some 0 := by
    rw [total_join w0, total_new]
    rfl
  generalize e1 : join hash (ChatTrackerImpl.new n) "alice" "room1" = s1 at w1 h1 t1
  have w2 := wf_contribute w1 "alice"
  have r2 : (contribute hash s1 "alice").2 = 1 := by
    rw [contribute_result w1, h1]
    rfl
  have h2 : history hash (contribute hash s1 "alice").1 "alice" = some [("room1", 1)] := by
    rw [history_contribute w1, h1]
    rfl
  have t2 : total hash (contribute hash s1 "alice").1 "room1" = some 1 := by
    rw [total_contribute w1, t1]
    simp [currentChat, h1]
  generalize e2 : (contribute hash s1 "alice").1 = s2 at w2 h2 t2
  have w3 := wf_join w2 "alice" "room2"
  have h3 : history hash (join hash s2 "alice" "room2") "alice" =
      some [("room2", 0), ("room1", 1)] := by
    rw [history_join w2, h2]
    simp [joinHistory]
  have t3 : total hash (join hash s2 "alice" "room2") "room1" = some 1 := by
    rw [total_join w2, t2]
    simp
  generalize e3 : join hash s2 "alice" "room2" = s3 at w3 h3 t3
  have w4 := wf_contribute w3 "alice"
  have r4 : (contribute hash s3 "alice").2 = 1 := by
    rw [contribute_result w3, h3]
    rfl
  have h4 : history hash (contribute hash s3 "alice").1 "alice" =
      some [("room2", 1), ("room1", 1)] := by
    rw [history_contribute w3, h3]
    rfl
  have t4 : total hash (contribute hash s3 "alice").1 "room1" = some 1 := by
    rw [total_contribute w3, t3]
    simp [currentChat, h3]
  generalize e4 : (contribute hash s3 "alice").1 = s4 at w4 h4 t4
  have w5 := wf_leaveCurrent w4 "alice"
  have r5 : (leaveCurrent hash s4 "alice").2 = 1 := by
    rw [leaveCurrent_result, h4]
  have h5 : history hash (leaveCurrent hash s4 "alice").1 "alice" = some [("room1", 1)] := by
    rw [history_leaveCurrent w4, h4]
    rfl
  have t5 : total hash (leaveCurrent hash s4 "alice").1 "room1" = some 1 := by
    rw [total_leaveCurrent, t4]
  generalize e5 : (leaveCurrent hash s4 "alice").1 = s5 at w5 h5 t5
  have w6 := wf_contribute w5 "alice"
  have r6 : (contribute hash s5 "alice").2 = 2 := by
    rw [contribute_result w5, h5]
    rfl
  have t6 : total hash (contribute hash s5 "alice").1 "room1" = some 2 := by
    rw [total_contribute w5, t5]
    simp [currentChat, h5]
  have r7 : (terminate hash (contribute hash s5 "alice").1 "room1").2 = 2 := by
    rw [terminate_result w6, t6]
    rfl
  constructor
  · simp only [scenario, results, step, e1, e2, e3, e4, e5, r2, r4, r5, r6, r7]
  · simp only [scenario, List.take, run, step, e1, e2, e3, e4, e5]
    simp [currentChat, h5]

/-- C1 on a tracker with three buckets that hashes a name to its length. -/
theorem C1_witness :
    0 < 3 ∧
      (results String.length (ChatTrackerImpl.new 3) scenario =
        [none, some 1, none, some 1, some 1, some 2, some 2] ∧
      currentChat String.length (run String.length (ChatTrackerImpl.new 3) (scenario.take 5))
        "alice" = some "room1") :=
  ⟨by decide, C1_scenario String.length 3 (by decide)⟩

section RecordedLemmas

variable {hash : String → Nat} {s : ChatTrackerImpl}

end RecordedLemmas

/-- C3: after `terminate(r)` on an existing chat of a reachable state, `r` is not in the chat
directory, no history names `r`, every history is the old one with the entry for `r` (if
any) deleted and the other entries as they were and in the same order, so a user whose
current chat was `r` has the next entry as current chat (none if there is no other entry);
the totals and member lists of the other chats are unchanged. -/
theorem C3_terminate_effect (hash : String → Nat) (s : ChatTrackerImpl) (r : String)
    (hs : Reachable hash s) (_hr : (findChat hash s r).isSome) :
    findChat hash (terminate hash s r).1 r = none ∧
    (∀ u l, history hash (terminate hash s r).1 u = some l → ∀ x, x ∈ l → x.1 ≠ r) ∧
    (∀ u, history hash s u = none → history hash (terminate hash s r).1 u = none) ∧
    (∀ u l, history hash s u = some l →
      ((∀ x, x ∈ l → x.1 ≠ r) ∧ history hash (terminate hash s r).1 u = some l) ∨
      (∃ l1 c l2, l = l1 ++ (r, c) :: l2 ∧
        history hash (terminate hash s r).1 u = some (l1 ++ l2))) ∧
    (∀ u c rest, history hash s u = some ((r, c) :: rest) →
      history hash (terminate hash s r).1 u = some rest ∧
      currentChat hash (terminate hash s r).1 u = rest.head?.map Prod.fst) ∧
    (∀ r1, r1 ≠ r → total hash (terminate hash s r).1 r1 = total hash s r1 ∧
      members hash (terminate hash s r).1 r1 = members hash s r1) := by
  have w := reachable_wf hs
  have hsplit : ∀ u l, history hash s u = some l →
      ((∀ x, x ∈ l → x.1 ≠ r) ∧ history hash (terminate hash s r).1 u = some l) ∨
      (∃ l1 c l2, l = l1 ++ (r, c) :: l2 ∧
        history hash (terminate hash s r).1 u = some (l1 ++ l2)) := by
    intro u l hl
    have hd := history_nodup w hl
    rw [history_terminate w, hl]
    by_cases hx : ∃ x, x ∈ l ∧ x.1 = r
    · right
      obtain ⟨x, hxl, hxr⟩ := hx
      obtain ⟨l1, l2, rfl⟩ := List.append_of_mem hxl
      obtain ⟨a, c⟩ := x
      simp only at hxr
      subst hxr
      exact ⟨l1, c, l2, rfl, by simp only [Option.map_some']; rw [filter_of_split hd]⟩
    · left
      have hne : ∀ x, x ∈ l → x.1 ≠ r := fun x hxl hxr => hx ⟨x, hxl, hxr⟩
      exact ⟨hne, by simp only [Option.map_some']; rw [filter_of_not_mem hne]⟩
  refine ⟨?_, ?_, ?_, hsplit, ?_, ?_⟩
  · rw [findChat_terminate w]; simp
  · intro u l hl x hx
    rw [history_terminate w] at hl
    cases h0 : history hash s u with
    | none => simp [h0] at hl
    | some l0 =>
      simp [h0] at hl
      subst hl
      have := (List.mem_filter.mp hx).2
      simpa using this
  · intro u hu
    rw [history_terminate w, hu]
    rfl
  · intro u c rest hl
    have hd := history_nodup w hl
    have hh : history hash (terminate hash s r).1 u = some rest := by
      rw [history_terminate w, hl]
      have := @filter_of_split [] rest r c hd
      simp only [List.nil_append] at this
      simp only [Option.map_some', this]
    exact ⟨hh, by simp [currentChat, hh]⟩
  · intro r1 hr1
    rw [total_terminate w, members_terminate w]
    simp [hr1]

/-- C3 at `demoState`: terminating `r` removes it from the directory. -/
theorem C3_witness :
    (Reachable String.length demoState ∧ (findChat String.length demoState "r").isSome) ∧
      findChat String.length (terminate String.length demoState "r").1 "r" = none :=
  ⟨⟨⟨2, demoOps, by decide, rfl⟩, by decide⟩,
    (C3_terminate_effect String.length demoState "r" ⟨2, demoOps, by decide, rfl⟩ (by decide)).1⟩

/-- C4: after `join(u, r)` in a reachable state, user `u` and chat `r` are in their
directories and the front entry of the history of `u` is `r`, with the count `u` had for `r`
if `r` was in the history of `u` before the call and with count 0 otherwise. -/
theorem C4_join_makes_current (hash : String → Nat) (s : ChatTrackerImpl) (u r : String)
    (hs : Reachable hash s) :
    (findUser hash (join hash s u r) u).isSome ∧
    (findChat hash (join hash s u r) r).isSome ∧
    currentChat hash (join hash s u r) u = some r ∧
    ∃ rest, history hash (join hash s u r) u =
      some ((r, match (history hash s u).bind (fun l => l.find? (fun x => x.1 == r)) with
                | some x => x.2
                | none => 0) :: rest) := by
  have w := reachable_wf hs
  have hfind : ((history hash s u).getD []).find? (fun x => x.1 == r) =
      (history hash s u).bind (fun l => l.find? (fun x => x.1 == r)) := by
    cases history hash s u <;> rfl
  obtain ⟨rest, hrest⟩ := joinHistory_head r ((history hash s u).getD [])
  rw [hfind] at hrest
  have hh : history hash (join hash s u r) u = some (joinHistory r ((history hash s u).getD [])) := by
    rw [history_join w]; simp
  refine ⟨?_, ?_, ?_, rest, ?_⟩
  · rw [findUser_join w]; simp
  · rw [findChat_join w]; simp
  · simp [currentChat, hh, hrest]
  · exact hh.trans (congrArg some hrest)

/-- C4 at `demoState`: bob joins `q`. -/
theorem C4_witness :
    Reachable String.length demoState ∧
      currentChat String.length (join String.length demoState "bob" "q") "bob" = some "q" :=
  ⟨⟨2, demoOps, by decide, rfl⟩,
    (C4_join_makes_current String.length demoState "bob" "q" ⟨2, demoOps, by decide, rfl⟩).2.2.1⟩

/-- C5: when `r` is in the history of `u` with count `c`, `join(u, r)` moves the entry
`(r, c)` to the front, keeps the other entries in their order with their counts, keeps the
length of the history, and changes neither the member list nor the total of `r`. -/
theorem C5_rejoin_moves_to_front (hash : String → Nat) (s : ChatTrackerImpl) (u r : String)
    (c : Int) (l1 l2 : List (String × Int)) (hs : Reachable hash s)
    (hh : history hash s u = some (l1 ++ (r, c) :: l2)) :
    history hash (join hash s u r) u = some ((r, c) :: (l1 ++ l2)) ∧
    ((r, c) :: (l1 ++ l2)).length = (l1 ++ (r, c) :: l2).length ∧
    members hash (join hash s u r) r = members hash s r ∧
    total hash (join hash s u r) r = total hash s r := by
  have w := reachable_wf hs
  have hd := history_nodup w hh
  obtain ⟨p, d, hp, hdp⟩ := chat_of_history w hh (x := (r, c)) (by simp)
  simp only at hp
  refine ⟨?_, ?_, ?_, ?_⟩
  · rw [history_join w, hh]
    simp [joinHistory_of_split hd]
  · simp
    omega
  · rw [members_join w, hh]
    simp [find_of_split hd, members_of_find hp hdp]
  · rw [total_join w]
    simp [total_of_find hp hdp]

/-- C5 at `demoState`: ann joins `r` again and keeps her count of two. -/
theorem C5_witness :
    (Reachable String.length demoState ∧
      history String.length demoState "ann" = some ([("q", 0)] ++ ("r", 2) :: [])) ∧
      history String.length (join String.length demoState "ann" "r") "ann" =
        some (("r", 2) :: ([("q", 0)] ++ [])) :=
  ⟨⟨⟨2, demoOps, by decide, rfl⟩, by decide⟩,
    (C5_rejoin_moves_to_front String.length demoState "ann" "r" 2 [("q", 0)] []
      ⟨2, demoOps, by decide, rfl⟩ (by decide)).1⟩

/-- C6: when the history of `u` has front entry `(r, c)`, `contribute(u)` returns `c + 1`,
makes the front entry `(r, c + 1)`, raises the total of `r` by one, and changes nothing
else: not the rest of the history, no other history, no other total, no member list, and
neither directory. -/
theorem C6_contribute_effect (hash : String → Nat) (s : ChatTrackerImpl) (u r : String)
    (c : Int) (rest : List (String × Int)) (hs : Reachable hash s)
    (hh : history hash s u = some ((r, c) :: rest)) :
    (contribute hash s u).2 = c + 1 ∧
    history hash (contribute hash s u).1 u = some ((r, c + 1) :: rest) ∧
    (∃ t, total hash s r = some t ∧ total hash (contribute hash s u).1 r = some (t + 1)) ∧
    (∀ u1, u1 ≠ u → history hash (contribute hash s u).1 u1 = history hash s u1) ∧
    (∀ r1, r1 ≠ r → total hash (contribute hash s u).1 r1 = total hash s r1) ∧
    (∀ r1, members hash (contribute hash s u).1 r1 = members hash s r1) ∧
    (∀ n, findUser hash (contribute hash s u).1 n = findUser hash s n) ∧
    (∀ n, findChat hash (contribute hash s u).1 n = findChat hash s n) := by
  have w := reachable_wf hs
  have hcur : currentChat hash s u = some r := by simp [currentChat, hh]
  obtain ⟨p, d, hp, hdp⟩ := chat_of_history w hh (x := (r, c)) (by simp)
  simp only at hp
  refine ⟨?_, ?_, ⟨d.m_contributions, total_of_find hp hdp, ?_⟩, ?_, ?_, ?_, ?_, ?_⟩
  · rw [contribute_result w, hh]
  · rw [history_contribute w, hh]
    simp [bumpHead]
  · rw [total_contribute w, hcur, total_of_find hp hdp]
    simp
  · intro u1 hu1
    rw [history_contribute w]
    simp [hu1]
  · intro r1 hr1
    rw [total_contribute w, hcur]
    have : ¬ (some r = some r1) := fun h => hr1 (Option.some.inj h).symm
    simp [this]
  · exact members_contribute w u
  · exact findUser_contribute w u
  · exact findChat_contribute w u

/-- C6 at `demoState`: ann contributes to `q` for the first time. -/
theorem C6_witness :
    (Reachable String.length demoState ∧
      history String.length demoState "ann" = some (("q", 0) :: [("r", 2)])) ∧
      (contribute String.length demoState "ann").2 = 0 + 1 :=
  ⟨⟨⟨2, demoOps, by decide, rfl⟩, by decide⟩,
    (C6_contribute_effect String.length demoState "ann" "q" 0 [("r", 2)]
      ⟨2, demoOps, by decide, rfl⟩ (by decide)).1⟩

/-- C7: when no user is called `u`, or the history of `u` is empty, `contribute(u)` returns 0
and the state after the call is the state before it. -/
theorem C7_contribute_without_current (hash : String → Nat) (s : ChatTrackerImpl) (u : String)
    (hs : Reachable hash s)
    (hu : findUser hash s u = none ∨ history hash s u = some []) :
    contribute hash s u = (s, 0) := by
  have w := reachable_wf hs
  rcases contribute_cases w u with ⟨_, heq⟩ | ⟨p, v, e, rest, c, hf, hv, _, hm, _, _⟩
  · exact heq
  · rcases hu with h | h
    · rw [hf] at h; cases h
    · rw [history_of_find hf hv, hm] at h
      simp [namedHistory] at h

/-- C7 at `demoState`: nobody is called zed. -/
theorem C7_witness :
    (Reachable String.length demoState ∧
      (findUser String.length demoState "zed" = none ∨
        history String.length demoState "zed" = some [])) ∧
      contribute String.length demoState "zed" = (demoState, 0) :=
  ⟨⟨⟨2, demoOps, by decide, rfl⟩, Or.inl (by decide)⟩,
    C7_contribute_without_current String.length demoState "zed" ⟨2, demoOps, by decide, rfl⟩
      (Or.inl (by decide))⟩

/-- C8: when no user is called `u`, or no chat is called `r`, or `r` is not in the history
of `u`, `leave(u, r)` returns -1 and the state after the call is the state before it. -/
theorem C8_leave_not_associated (hash : String → Nat) (s : ChatTrackerImpl) (u r : String)
    (hs : Reachable hash s)
    (h : findUser hash s u = none ∨ findChat hash s r = none ∨
      ∃ l, history hash s u = some l ∧ ∀ x, x ∈ l → x.1 ≠ r) :
    leave hash s u r = (s, -1) := by
  have w := reachable_wf hs
  rcases leave_cases w u r with ⟨heq, _⟩ | ⟨p, v, cp, e, hf, hv, _, hc, he, _⟩
  · exact heq
  · rcases h with h | h | ⟨l, hl, hne⟩
    · rw [hf] at h; cases h
    · rw [hc] at h; cases h
    · rw [history_of_find hf hv] at hl
      cases hl
      have hmem := List.mem_of_find?_eq_some he
      have hcp : e.1 = cp := by simpa [isChat] using List.find?_some he
      have hname := (w.name_eq_iff hv hc hmem).mpr hcp
      exact absurd hname
        (hne (chatNameAt s e.1, e.2) (List.mem_map_of_mem (fun e => (chatNameAt s e.1, e.2)) hmem))

/-- C8 at `demoState`: bob is not in `q`. -/
theorem C8_witness :
    (Reachable String.length demoState ∧
      (findUser String.length demoState "bob" = none ∨
        findChat String.length demoState "q" = none ∨
        ∃ l, history String.length demoState "bob" = some l ∧ ∀ x, x ∈ l → x.1 ≠ "q")) ∧
      leave String.length demoState "bob" "q" = (demoState, -1) :=
  ⟨⟨⟨2, demoOps, by decide, rfl⟩, Or.inr (Or.inr ⟨[("r", 1)], by decide, by decide⟩)⟩,
    C8_leave_not_associated String.length demoState "bob" "q" ⟨2, demoOps, by decide, rfl⟩
      (Or.inr (Or.inr ⟨[("r", 1)], by decide, by decide⟩))⟩

/-- C9: when `r` is in the history of `u` with count `c`, at any position, `leave(u, r)`
returns `c`, removes that entry and keeps the others in their order with their counts, and
changes no total and no other history. -/
theorem C9_leave_effect (hash : String → Nat) (s : ChatTrackerImpl) (u r : String) (c : Int)
    (l1 l2 : List (String × Int)) (hs : Reachable hash s)
    (hh : history hash s u = some (l1 ++ (r, c) :: l2)) :
    (leave hash s u r).2 = c ∧
    history hash (leave hash s u r).1 u = some (l1 ++ l2) ∧
    (∀ r1, total hash (leave hash s u r).1 r1 = total hash s r1) ∧
    (∀ u1, u1 ≠ u → history hash (leave hash s u r).1 u1 = history hash s u1) := by
  have w := reachable_wf hs
  have hd := history_nodup w hh
  refine ⟨?_, ?_, ?_, ?_⟩
  · rw [leave_result w, hh]
    simp only [Option.some_bind, find_of_split hd]
  · rw [history_leave w, hh]
    simp only [if_true, Option.map_some', filter_of_split hd]
  · exact total_leave w u r
  · intro u1 hu1
    rw [history_leave w]
    simp [hu1]

/-- C9 at `demoState`: ann leaves `r`, which is not her current chat. -/
theorem C9_witness :
    (Reachable String.length demoState ∧
      history String.length demoState "ann" = some ([("q", 0)] ++ ("r", 2) :: [])) ∧
      (leave String.length demoState "ann" "r").2 = 2 :=
  ⟨⟨⟨2, demoOps, by decide, rfl⟩, by decide⟩,
    (C9_leave_effect String.length demoState "ann" "r" 2 [("q", 0)] []
      ⟨2, demoOps, by decide, rfl⟩ (by decide)).1⟩

/-- C10: after `join(u, r)` and then `join(u, r2)` with `r2` another chat, `leave(u)`
returns the count `u` has for `r2`, which is the count `r2` had in the history of `u` before
the second join and 0 if it was not there, and afterwards the current chat of `u` is `r`. -/
theorem C10_leave_after_two_joins (hash : String → Nat) (s : ChatTrackerImpl) (u r r2 : String)
    (hs : Reachable hash s) (hne : r ≠ r2) :
    (leaveCurrent hash (join hash (join hash s u r) u r2) u).2 =
      (match (history hash (join hash s u r) u).bind
          (fun l => l.find? (fun x => x.1 == r2)) with
        | some x => x.2
        | none => 0) ∧
    currentChat hash (leaveCurrent hash (join hash (join hash s u r) u r2) u).1 u = some r := by
  have w := reachable_wf hs
  have w1 := wf_join w u r
  have w2 := wf_join w1 u r2
  obtain ⟨rest, hrest⟩ := joinHistory_head r ((history hash s u).getD [])
  have h1 : history hash (join hash s u r) u = some (joinHistory r ((history hash s u).getD [])) := by
    rw [history_join w]; simp
  obtain ⟨k, hk⟩ : ∃ k : Int, joinHistory r ((history hash s u).getD []) = (r, k) :: rest :=
    ⟨_, hrest⟩
  rw [hk] at h1
  have hb : ((r, k).1 == r2) = false := by simpa using hne
  have h2 : history hash (join hash (join hash s u r) u r2) u =
      some (joinHistory r2 ((r, k) :: rest)) := by
    rw [history_join w1, h1]; simp
  rw [leaveCurrent_result, currentChat, history_leaveCurrent w2, h2, h1]
  simp only [if_true, Option.some_bind, Option.map_some', List.find?_cons, hb]
  unfold joinHistory
  simp only [List.find?_cons, hb]
  cases hf : rest.find? (fun x => x.1 == r2) with
  | none => simp
  | some y => simp [List.filter_cons, hne]

/-- C10 at `demoState`: ann joins `r`, then `q` where she has count 0, then leaves. -/
theorem C10_witness :
    (Reachable String.length demoState ∧ "r" ≠ "q") ∧
      currentChat String.length (leaveCurrent String.length
        (join String.length (join String.length demoState "ann" "r") "ann" "q") "ann").1 "ann"
        = some "r" :=
  ⟨⟨⟨2, demoOps, by decide, rfl⟩, by decide⟩,
    (C10_leave_after_two_joins String.length demoState "ann" "r" "q" ⟨2, demoOps, by decide, rfl⟩
      (by decide)).2⟩

/-- C11: in a reachable state `terminate(r)` on a chat that does not exist returns 0 and
leaves the state as it is; after any `terminate(r)` the chat `r` does not exist, so a second
`terminate(r)` returns 0 and changes nothing. -/
theorem C11_terminate_twice (hash : String → Nat) (s : ChatTrackerImpl) (r : String)
    (hs : Reachable hash s) :
    (findChat hash s r = none → terminate hash s r = (s, 0)) ∧
    findChat hash (terminate hash s r).1 r = none ∧
    terminate hash (terminate hash s r).1 r = ((terminate hash s r).1, 0) := by
  have w := reachable_wf hs
  have h2 : findChat hash (terminate hash s r).1 r = none := by
    rw [findChat_terminate w]; simp
  refine ⟨?_, h2, ?_⟩
  · intro h
    simp [terminate, h]
  · generalize (terminate hash s r).1 = s1 at h2
    simp [terminate, h2]

/-- C11 at `demoState`: terminating `r` twice. -/
theorem C11_witness :
    Reachable String.length demoState ∧
      terminate String.length (terminate String.length demoState "r").1 "r" =
        ((terminate String.length demoState "r").1, 0) :=
  ⟨⟨2, demoOps, by decide, rfl⟩,
    (C11_terminate_twice String.length demoState "r" ⟨2, demoOps, by decide, rfl⟩).2.2⟩

/-- In `leftState` the chat `r` exists, every history is empty, and `terminate(r)` returns 1:
ann joined `r`, contributed once and left. -/
theorem leftState_after_all_left :
    Reachable String.length leftState ∧
    (findChat String.length leftState "r").isSome ∧
    history String.length leftState "ann" = some [] ∧
    (∀ p u, userAt leftState p = some u → u.m_chats = []) ∧
    (terminate String.length leftState "r").2 = 1 := by
  refine ⟨⟨2, leftOps, by decide, rfl⟩, by decide, by decide, ?_, by decide⟩
  intro p u h
  have hl : leftState.userHeap = [{ m_name := "ann", m_chats := [] }] := by decide
  simp only [userAt, hl] at h
  cases p with
  | zero => simp at h; rw [← h]
  | succ k => simp at h

/-- C12, the claim fails: in the reachable state `leftState` the chat `r` exists and no user
has it in their history (ann joined `r`, contributed once and left), yet `terminate(r)` does
not return 0: it returns 1, the contribution ann made before she left. -/
theorem C12_counterexample :
    Reachable String.length leftState ∧
    ¬ ((findChat String.length leftState "r" = none ∨
        ∀ u l, history String.length leftState u = some l → ∀ x, x ∈ l → x.1 ≠ "r") →
      (terminate String.length leftState "r").2 = 0) := by
  obtain ⟨hr, _, _, hempty, hres⟩ := leftState_after_all_left
  refine ⟨hr, ?_⟩
  intro h
  have h0 := h (Or.inr (by
    intro u l hl x hx
    obtain ⟨p, v, _, hv, _, rfl⟩ := history_eq_some hl
    rw [hempty p v hv] at hx
    simp [namedHistory] at hx))
  rw [hres] at h0
  exact absurd h0 (by decide)

/-- C12 as amended: in every reachable state `terminate(chat)` returns 0 when the chat does
not exist, and returns the total of the chat when it exists, whether or not a user still has
the chat in their history; so for an existing chat the result is 0 exactly when its total
is 0. -/
theorem C12_terminate_returns_total (hash : String → Nat) (s : ChatTrackerImpl) (r : String)
    (hs : Reachable hash s) :
    (findChat hash s r = none → (terminate hash s r).2 = 0) ∧
    (∀ t, total hash s r = some t → (terminate hash s r).2 = t) ∧
    (∀ t, total hash s r = some t → ((terminate hash s r).2 = 0 ↔ t = 0)) := by
  have w := reachable_wf hs
  refine ⟨?_, ?_, ?_⟩
  · intro h
    rw [terminate_result w, total_of_none h]
    rfl
  · intro t ht
    rw [terminate_result w, ht]
    rfl
  · intro t ht
    rw [terminate_result w, ht]
    rfl

/-- C12 as amended, at `leftState`: the total of `r` is 1 and `terminate(r)` returns 1. -/
theorem C12_witness :
    (Reachable String.length leftState ∧ total String.length leftState "r" = some 1) ∧
      (terminate String.length leftState "r").2 = 1 :=
  ⟨⟨⟨2, leftOps, by decide, rfl⟩, by decide⟩,
    (C12_terminate_returns_total String.length leftState "r" ⟨2, leftOps, by decide, rfl⟩).2.1
      1 (by decide)⟩

/-- C13: in every reachable state the history of every user names each chat at most once:
no chat name and no chat pointer occurs twice. -/
theorem C13_history_no_duplicates (hash : String → Nat) (s : ChatTrackerImpl)
    (hs : Reachable hash s) :
    (∀ u l, history hash s u = some l → (l.map Prod.fst).Nodup) ∧
    (∀ p u, userAt s p = some u → (u.m_chats.map Prod.fst).Nodup) := by
  have w := reachable_wf hs
  exact ⟨fun u l h => history_nodup w h, fun p u h => w.hist_nodup p u h⟩

/-- C13 at `demoState`. -/
theorem C13_witness :
    Reachable String.length demoState ∧
      ∀ u l, history String.length demoState u = some l → (l.map Prod.fst).Nodup :=
  ⟨⟨2, demoOps, by decide, rfl⟩,
    (C13_history_no_duplicates String.length demoState ⟨2, demoOps, by decide, rfl⟩).1⟩

section PersistLemmas

variable {hash : String → Nat} {s : ChatTrackerImpl}

/-- Every chat named in a history lists the owner of the history as a member. -/
theorem member_of_history (w : WF hash s) {n : String} {l : List (String × Int)}
    (h : history hash s n = some l) {x : String × Int} (hx : x ∈ l) :
    ∃ m, members hash s x.1 = some m ∧ n ∈ m := by
  obtain ⟨p, u, _, hu, hn, rfl⟩ := history_eq_some h
  obtain ⟨e, he, rfl⟩ := List.mem_map.mp hx
  obtain ⟨c, hc, hp⟩ := w.hist_live p u e hu he
  refine ⟨c.m_users.map (userNameAt s), ?_, ?_⟩
  · simp only [chatNameAt_of hc]
    exact members_of_find (w.chat_found e.1 c hc) hc
  · rw [← hn, ← userNameAt_of hu]
    exact List.mem_map_of_mem _ hp

/-- A public operation keeps every user in the directory, at the same address. -/
theorem findUser_step (w : WF hash s) (op : Op) {n : String} {p : Nat}
    (h : findUser hash s n = some p) : findUser hash (step hash s op).1 n = some p := by
  cases op with
  | join u r =>
    simp only [step]
    rw [findUser_join w]
    by_cases hn : n = u
    · subst hn
      simp only [if_true]
      have : findUser hash (ensureChat hash s r).1 n = some p := by
        rw [findUser_ensureChat]; exact h
      simp [ensureUser, this]
    · simp [hn, h]
  | terminate r => simp only [step]; rw [findUser_terminate w]; exact h
  | contribute u => simp only [step]; rw [findUser_contribute w]; exact h
  | leave u r => simp only [step]; rw [findUser_leave w]; exact h
  | leaveCurrent u => simp only [step]; rw [findUser_leaveCurrent]; exact h

theorem findUser_run (ops : List Op) :
    ∀ (s : ChatTrackerImpl), WF hash s → ∀ {n : String} {p : Nat},
      findUser hash s n = some p → findUser hash (run hash s ops) n = some p := by
  induction ops with
  | nil => intro s _ n p h; exact h
  | cons op rest ih =>
    intro s w n p h
    exact ih (step hash s op).1 (wf_step w op) (findUser_step w op h)

end PersistLemmas

/-- C15, the claim fails: after ann joined `r` and left it, `r` is not in the history of ann
but ann is still in the member list of `r`. -/
theorem C15_counterexample :
    Reachable String.length leftState ∧
    (findChat String.length leftState "r").isSome ∧
    ¬ ((∃ l, history String.length leftState "ann" = some l ∧ "r" ∈ l.map Prod.fst) ↔
       (∃ m, members String.length leftState "r" = some m ∧ "ann" ∈ m)) := by
  refine ⟨⟨2, leftOps, by decide, rfl⟩, by decide, ?_⟩
  intro h
  have hm : members String.length leftState "r" = some ["ann"] := by decide
  have hh : history String.length leftState "ann" = some [] := by decide
  obtain ⟨l, hl, hr⟩ := h.mpr ⟨["ann"], hm, by simp⟩
  rw [hh] at hl
  cases hl
  simp at hr

/-- C15 as amended: in every reachable state, when chat `r` is in the history of user `u`,
then `u` is in the member list of `r` (the member list is cumulative: a user who left stays in
it, so the converse does not hold). -/
theorem C15_history_implies_member (hash : String → Nat) (s : ChatTrackerImpl) (u r : String)
    (l : List (String × Int)) (hs : Reachable hash s) (hh : history hash s u = some l)
    (hr : r ∈ l.map Prod.fst) :
    ∃ m, members hash s r = some m ∧ u ∈ m := by
  have w := reachable_wf hs
  obtain ⟨x, hx, rfl⟩ := List.mem_map.mp hr
  exact member_of_history w hh hx

/-- C15 as amended, at `demoState`: ann has `r` in her history and is a member of `r`. -/
theorem C15_witness :
    (Reachable String.length demoState ∧
      history String.length demoState "ann" = some [("q", 0), ("r", 2)] ∧
      "r" ∈ [("q", (0 : Int)), ("r", 2)].map Prod.fst) ∧
      ∃ m, members String.length demoState "r" = some m ∧ "ann" ∈ m :=
  ⟨⟨⟨2, demoOps, by decide, rfl⟩, by decide, by decide⟩,
    C15_history_implies_member String.length demoState "ann" "r" [("q", 0), ("r", 2)]
      ⟨2, demoOps, by decide, rfl⟩ (by decide) (by decide)⟩

/-- C16: in a reachable state, when the history of `u` has front entry `r`, `leave(u)` and
`leave(u, r)` return the same value and give the same state; when no user is called `u` or the
history of `u` is empty, `leave(u)` returns -1 and the state stays as it is. -/
theorem C16_leave_current_is_leave_head (hash : String → Nat) (s : ChatTrackerImpl)
    (u : String) (hs : Reachable hash s) :
    (∀ r c rest, history hash s u = some ((r, c) :: rest) →
      leaveCurrent hash s u = leave hash s u r) ∧
    ((findUser hash s u = none ∨ history hash s u = some []) →
      leaveCurrent hash s u = (s, -1)) := by
  have w := reachable_wf hs
  constructor
  · intro r c rest hh
    rcases @leaveCurrent_cases hash s u with
      ⟨h | h, _⟩ | ⟨p, v, e, rest1, hf, hv, _, hm, heq⟩
    · rw [h] at hh; cases hh
    · rw [h] at hh; cases hh
    · rw [heq]
      rw [history_of_find hf hv, hm] at hh
      simp only [namedHistory, List.map_cons, Option.some.injEq, List.cons.injEq,
        Prod.mk.injEq] at hh
      have he : e ∈ v.m_chats := by rw [hm]; exact List.mem_cons_self _ _
      obtain ⟨d, hd, _⟩ := w.hist_live p v e hv he
      have hfc : findChat hash s r = some e.1 := by
        have := w.chat_found e.1 d hd
        rw [← chatNameAt_of hd, hh.1.1] at this
        exact this
      have hfind : v.m_chats.find? (isChat e.1) = some e := by
        rw [hm]; simp [isChat]
      have herase : v.m_chats.eraseP (isChat e.1) = rest1 := by
        rw [hm]; simp [isChat]
      simp only [leave, hf, hfc, leaveChat, hv, User.leaveChat, hfind, herase]
  · intro h
    rcases @leaveCurrent_cases hash s u with
      ⟨_, heq⟩ | ⟨p, v, e, rest1, hf, hv, _, hm, _⟩
    · exact heq
    · rcases h with h | h
      · rw [hf] at h; cases h
      · rw [history_of_find hf hv, hm] at h
        simp [namedHistory] at h

/-- C16 at `demoState`: ann leaves her current chat `q`. -/
theorem C16_witness :
    Reachable String.length demoState ∧
      leaveCurrent String.length demoState "ann" = leave String.length demoState "ann" "q" :=
  ⟨⟨2, demoOps, by decide, rfl⟩,
    (C16_leave_current_is_leave_head String.length demoState "ann"
      ⟨2, demoOps, by decide, rfl⟩).1 "q" 0 [("r", 2)] (by decide)⟩

/-- C18: once `join(u, r)` has been called in a reachable state, user `u` is in the user
directory after the call and after every further sequence of public operations, at the same
address and with the same name; more generally no public operation removes a user from the
directory or changes its name. -/
theorem C18_users_persist (hash : String → Nat) (s : ChatTrackerImpl) (u r : String)
    (ops : List Op) (hs : Reachable hash s) :
    (∃ p, findUser hash (join hash s u r) u = some p ∧
      findUser hash (run hash (join hash s u r) ops) u = some p ∧
      ∃ usr, userAt (run hash (join hash s u r) ops) p = some usr ∧ usr.m_name = u) ∧
    (∀ n p, findUser hash s n = some p → findUser hash (run hash s ops) n = some p) := by
  have w := reachable_wf hs
  have w1 := wf_join w u r
  constructor
  · have h1 : findUser hash (join hash s u r) u =
        some (ensureUser hash (ensureChat hash s r).1 u).2 := by
      rw [findUser_join w]; simp
    have h2 := findUser_run ops _ w1 h1
    exact ⟨_, h1, h2, findUser_some hash _ h2⟩
  · intro n p h
    exact findUser_run ops s w h

/-- C18 at `demoState`: zed joins, then leaves, and his chat is terminated. -/
theorem C18_witness :
    Reachable String.length demoState ∧
      ∃ p, findUser String.length (join String.length demoState "zed" "r") "zed" = some p ∧
        findUser String.length (run String.length (join String.length demoState "zed" "r")
          [.leave "zed" "r", .terminate "r"]) "zed" = some p ∧
        ∃ usr, userAt (run String.length (join String.length demoState "zed" "r")
          [.leave "zed" "r", .terminate "r"]) p = some usr ∧ usr.m_name = "zed" :=
  ⟨⟨2, demoOps, by decide, rfl⟩,
    (C18_users_persist String.length demoState "zed" "r" [.leave "zed" "r", .terminate "r"]
      ⟨2, demoOps, by decide, rfl⟩).1⟩

/-- C19: in every reachable state every chat pointer in a history points to a live chat that
is found in the chat directory in the bucket of its name, and that lists the owner of the
history among its members; so the chat `contribute` records to exists, and after
`terminate(r)` no history names `r`. -/
theorem C19_history_chats_live (hash : String → Nat) (s : ChatTrackerImpl)
    (hs : Reachable hash s) :
    (∀ p u e, userAt s p = some u → e ∈ u.m_chats →
      ∃ c, chatAt s e.1 = some c ∧ e.1 ∈ bucket s.m_chats (mapFunc hash s c.m_name) ∧
        findChat hash s c.m_name = some e.1 ∧ p ∈ c.m_users) ∧
    (∀ n l x, history hash s n = some l → x ∈ l →
      (findChat hash s x.1).isSome ∧ ∃ m, members hash s x.1 = some m ∧ n ∈ m) ∧
    (∀ n r, currentChat hash s n = some r → (findChat hash s r).isSome) ∧
    (∀ r n l, history hash (terminate hash s r).1 n = some l → ∀ x, x ∈ l → x.1 ≠ r) := by
  have w := reachable_wf hs
  refine ⟨?_, ?_, ?_, ?_⟩
  · intro p u e hu he
    obtain ⟨c, hc, hp⟩ := w.hist_live p u e hu he
    have hf := w.chat_found e.1 c hc
    exact ⟨c, hc, findChat_mem hash s hf, hf, hp⟩
  · intro n l x hl hx
    obtain ⟨p, c, hp, _⟩ := chat_of_history w hl hx
    exact ⟨by simp [hp], member_of_history w hl hx⟩
  · intro n r hc
    unfold currentChat at hc
    cases hl : history hash s n with
    | none => simp [hl] at hc
    | some l =>
      cases l with
      | nil => simp [hl] at hc
      | cons x t =>
        simp [hl] at hc
        obtain ⟨p, c, hp, _⟩ := chat_of_history w hl (List.mem_cons_self x t)
        rw [← hc]
        simp [hp]
  · intro r n l hl x hx
    rw [history_terminate w] at hl
    cases h0 : history hash s n with
    | none => simp [h0] at hl
    | some l0 =>
      simp [h0] at hl
      subst hl
      simpa using (List.mem_filter.mp hx).2

/-- C19 at `demoState`. -/
theorem C19_witness :
    Reachable String.length demoState ∧
      ∀ n r, currentChat String.length demoState n = some r →
        (findChat String.length demoState r).isSome :=
  ⟨⟨2, demoOps, by decide, rfl⟩,
    (C19_history_chats_live String.length demoState ⟨2, demoOps, by decide, rfl⟩).2.2.1⟩

section CountLemmas

theorem countIn_nil (r : String) : countIn r [] = 0 := rfl

theorem countIn_cons (r : String) (x : String × Int) (l : List (String × Int)) :
    countIn r (x :: l) = (if x.1 = r then x.2 else 0) + countIn r l := by
  unfold countIn
  by_cases h : x.1 = r
  · simp [List.filter_cons, h]
  · simp [List.filter_cons, h]

theorem countIn_of_not_mem {r : String} {l : List (String × Int)}
    (h : ∀ x, x ∈ l → x.1 ≠ r) : countIn r l = 0 := by
  induction l with
  | nil => rfl
  | cons a t ih =>
    rw [countIn_cons, ih (fun x hx => h x (List.mem_cons_of_mem a hx))]
    simp [h a (List.mem_cons_self a t)]

theorem countIn_filter_ne (r r1 : String) (l : List (String × Int)) :
    countIn r1 (l.filter (fun x => x.1 != r)) = if r1 = r then 0 else countIn r1 l := by
  by_cases h1 : r1 = r
  · subst h1
    simp only [if_true]
    apply countIn_of_not_mem
    intro x hx
    simpa using (List.mem_filter.mp hx).2
  · simp only [h1, if_false]
    induction l with
    | nil => rfl
    | cons a t ih =>
      by_cases ha : a.1 = r
      · have hb : (a.1 != r) = false := by simpa using ha
        have : ¬ a.1 = r1 := fun h => h1 (h.symm.trans ha)
        simp only [List.filter_cons, hb, Bool.false_eq_true, if_false, ih, countIn_cons, this]
        omega
      · have hb : (a.1 != r) = true := by simpa using ha
        simp only [List.filter_cons, hb, if_true, countIn_cons, ih]

theorem countIn_nonneg {r : String} {l : List (String × Int)}
    (h : ∀ x, x ∈ l → 0 ≤ x.2) : 0 ≤ countIn r l := by
  induction l with
  | nil => simp [countIn_nil]
  | cons a t ih =>
    rw [countIn_cons]
    have h1 := ih (fun x hx => h x (List.mem_cons_of_mem a hx))
    have h2 := h a (List.mem_cons_self a t)
    by_cases ha : a.1 = r
    · simp only [ha, if_true]; omega
    · simp only [ha, if_false]; omega

theorem countIn_filter_le (r r1 : String) {l : List (String × Int)}
    (h : ∀ x, x ∈ l → 0 ≤ x.2) :
    countIn r1 (l.filter (fun x => x.1 != r)) ≤ countIn r1 l := by
  rw [countIn_filter_ne]
  by_cases h1 : r1 = r
  · simp only [h1, if_true]
    exact countIn_nonneg h
  · simp [h1]

theorem countIn_tail_le (r1 : String) {l : List (String × Int)}
    (h : ∀ x, x ∈ l → 0 ≤ x.2) : countIn r1 l.tail ≤ countIn r1 l := by
  cases l with
  | nil => simp
  | cons a t =>
    simp only [List.tail_cons, countIn_cons]
    have := h a (List.mem_cons_self a t)
    by_cases ha : a.1 = r1
    · simp only [ha, if_true]; omega
    · simp [ha]

theorem countIn_bumpHead (r1 : String) (l : List (String × Int)) :
    countIn r1 (bumpHead l) =
      countIn r1 l + (if l.head?.map Prod.fst = some r1 then 1 else 0) := by
  cases l with
  | nil => simp [bumpHead, countIn_nil]
  | cons a t =>
    simp only [bumpHead, countIn_cons, List.head?_cons, Option.map_some', Option.some.injEq]
    by_cases ha : a.1 = r1
    · simp only [ha, if_true]; omega
    · simp only [ha, if_false]; omega

theorem countIn_of_find {r : String} {l : List (String × Int)} {x : String × Int}
    (hd : (l.map Prod.fst).Nodup) (hf : l.find? (fun y => y.1 == r) = some x) :
    countIn r l = x.2 := by
  induction l with
  | nil => simp at hf
  | cons a t ih =>
    simp only [List.map_cons, List.nodup_cons] at hd
    rw [countIn_cons]
    by_cases ha : a.1 = r
    · have : (a.1 == r) = true := by simpa using ha
      simp only [List.find?_cons, this, Option.some.injEq] at hf
      subst hf
      have h0 : countIn r t = 0 := by
        apply countIn_of_not_mem
        intro y hy hyr
        exact hd.1 (by rw [ha, ← hyr]; exact List.mem_map_of_mem Prod.fst hy)
      simp [ha, h0]
    · have : ¬ ((a.1 == r) = true) := by simpa using ha
      have hb : (a.1 == r) = false := by simpa using ha
      simp only [List.find?_cons, hb] at hf
      simp [ha, ih hd.2 hf]

theorem countIn_joinHistory (r r1 : String) {l : List (String × Int)}
    (hd : (l.map Prod.fst).Nodup) : countIn r1 (joinHistory r l) = countIn r1 l := by
  unfold joinHistory
  cases hf : l.find? (fun x => x.1 == r) with
  | none =>
    simp only [countIn_cons]
    by_cases h : r = r1 <;> simp [h]
  | some x =>
    have hx : x.1 = r := by simpa using List.find?_some hf
    simp only [countIn_cons, countIn_filter_ne]
    by_cases h1 : r1 = r
    · subst h1
      simp [hx, countIn_of_find hd hf]
    · have : ¬ x.1 = r1 := fun h => h1 (h.symm.trans hx)
      simp [h1, this]

theorem sum_map_congr {f g : String → Int} {l : List String}
    (h : ∀ n, n ∈ l → g n = f n) : (l.map g).sum = (l.map f).sum := by
  rw [List.map_congr_left h]

theorem sum_map_le {f g : String → Int} {l : List String}
    (h : ∀ n, n ∈ l → g n ≤ f n) : (l.map g).sum ≤ (l.map f).sum := by
  induction l with
  | nil => simp
  | cons a t ih =>
    simp only [List.map_cons, List.sum_cons]
    have h1 := h a (List.mem_cons_self a t)
    have h2 := ih (fun n hn => h n (List.mem_cons_of_mem a hn))
    omega

/-- Changing a summand at one name of a duplicate-free list changes the sum by as much. -/
theorem sum_map_update {f g : String → Int} {l : List String} {u : String}
    (hd : l.Nodup) (hu : u ∈ l) (h : ∀ n, n ∈ l → n ≠ u → g n = f n) :
    (l.map g).sum = (l.map f).sum + (g u - f u) := by
  induction l with
  | nil => simp at hu
  | cons a t ih =>
    simp only [List.nodup_cons] at hd
    simp only [List.map_cons, List.sum_cons]
    by_cases ha : a = u
    · subst ha
      have : (t.map g).sum = (t.map f).sum := by
        apply sum_map_congr
        intro n hn
        exact h n (List.mem_cons_of_mem a hn) (fun hna => hd.1 (hna ▸ hn))
      omega
    · have hut : u ∈ t := by
        rcases List.mem_cons.mp hu with h1 | h1
        · exact absurd h1.symm ha
        · exact h1
      have h1 := ih hd.2 hut (fun n hn hne => h n (List.mem_cons_of_mem a hn) hne)
      have h2 := h a (List.mem_cons_self a t) ha
      omega

end CountLemmas

section NamesLemmas

variable {hash : String → Nat} {s : ChatTrackerImpl}

theorem userNames_setUser {p : Nat} {u0 : User} (hu : userAt s p = some u0) (u : User)
    (hn : u.m_name = u0.m_name) : userNames (setUser s p u) = userNames s := by
  unfold userNames
  apply List.ext_getElem?
  intro q
  have h1 := userAt_setUser s hu u q
  simp only [userAt] at h1 hu
  rw [List.getElem?_map, List.getElem?_map, h1]
  by_cases hq : q = p
  · subst hq; simp [hu, hn]
  · simp [hq]

theorem userNames_contribute (w : WF hash s) (n : String) :
    userNames (contribute hash s n).1 = userNames s := by
  rcases contribute_cases w n with ⟨_, heq⟩ | ⟨p, u, e, rest, c, hf, hu, hn, hm, hc, heq⟩
  · rw [heq]
  · rw [heq]
    have hu1 : userAt (setChat s e.1 c.recContribution) p = some u := hu
    exact userNames_setUser hu1 { u with m_chats := (e.1, e.2 + 1) :: rest } rfl

theorem userNames_leave (w : WF hash s) (n r : String) :
    userNames (leave hash s n r).1 = userNames s := by
  rcases leave_cases w n r with ⟨heq, _⟩ | ⟨p, u, cp, e, hf, hu, hn, hc, he, heq⟩
  · rw [heq]
  · rw [heq]
    exact userNames_setUser hu (u.without cp) rfl

theorem userNames_leaveCurrent (n : String) :
    userNames (leaveCurrent hash s n).1 = userNames s := by
  rcases @leaveCurrent_cases hash s n with ⟨_, heq⟩ | ⟨p, u, e, rest, hf, hu, hn, hm, heq⟩
  · rw [heq]
  · rw [heq]
    exact userNames_setUser hu { u with m_chats := rest } rfl

theorem userNames_terminate (w : WF hash s) (r : String) :
    userNames (terminate hash s r).1 = userNames s := by
  unfold terminate
  cases hf : findChat hash s r with
  | none => rfl
  | some p =>
    have : userNames (deleteChat hash (terminateChat s p).1 r p) =
        userNames (terminateChat s p).1 := rfl
    simp only [this]
    rw [terminateChat_fst w]
    simp [userNames, User.without, List.map_map, Function.comp]

theorem userNames_join (w : WF hash s) (u r : String) :
    userNames (join hash s u r) =
      if (findUser hash s u).isSome then userNames s else userNames s ++ [u] := by
  obtain ⟨v, c, hv, _, hc, _⟩ := join_pointers w u r
  have h1 : userNames (join hash s u r) =
      userNames (ensureUser hash (ensureChat hash s r).1 u).1 := by
    unfold join
    simp only
    rcases joinChat_cases hv hc with ⟨e, _, heq⟩ | ⟨_, heq⟩
    · rw [heq]
      exact userNames_setUser hv _ rfl
    · rw [heq]
      have hv1 : userAt (setChat (ensureUser hash (ensureChat hash s r).1 u).1
          (ensureChat hash s r).2 (c.addUser (ensureUser hash (ensureChat hash s r).1 u).2))
          (ensureUser hash (ensureChat hash s r).1 u).2 = some v := hv
      exact userNames_setUser hv1 _ rfl
  have h0 : userNames (ensureChat hash s r).1 = userNames s := by
    unfold ensureChat
    cases findChat hash s r <;> rfl
  rw [h1]
  have hfu : findUser hash (ensureChat hash s r).1 u = findUser hash s u := findUser_ensureChat r u
  unfold ensureUser
  rw [hfu]
  cases hf : findUser hash s u with
  | some p => simp [h0]
  | none =>
    simp only [Option.isSome_none, Bool.false_eq_true, if_false]
    rw [← h0]
    simp [userNames, newUser]

theorem mem_userNames (w : WF hash s) (n : String) :
    n ∈ userNames s ↔ (findUser hash s n).isSome := by
  constructor
  · intro h
    obtain ⟨u, hu, rfl⟩ := List.mem_map.mp h
    obtain ⟨p, hp⟩ := List.getElem?_of_mem hu
    have := w.user_found p u hp
    simp [this]
  · intro h
    obtain ⟨p, hp⟩ := Option.isSome_iff_exists.mp h
    obtain ⟨u, hu, hn⟩ := findUser_some hash s hp
    rw [← hn]
    exact List.mem_map_of_mem _ (List.getElem?_mem hu)

theorem userNames_nodup (w : WF hash s) : (userNames s).Nodup := by
  rw [List.nodup_iff_getElem?_ne_getElem?]
  intro i j hij hj heq
  simp only [userNames, List.getElem?_map] at heq
  simp only [userNames, List.length_map] at hj
  have hi : i < s.userHeap.length := Nat.lt_trans hij hj
  have h1 : userAt s i = some s.userHeap[i] := List.getElem?_eq_getElem hi
  have h2 : userAt s j = some s.userHeap[j] := List.getElem?_eq_getElem hj
  simp only [userAt] at h1 h2
  rw [h1, h2] at heq
  simp only [Option.map_some', Option.some.injEq] at heq
  have := w.user_inj h1 h2 heq
  omega

theorem history_none_of_not_mem (w : WF hash s) {n : String} (h : n ∉ userNames s) :
    history hash s n = none := by
  cases hf : findUser hash s n with
  | none => exact history_of_none hf
  | some p => exact absurd ((mem_userNames w n).mpr (by simp [hf])) h

end NamesLemmas

section CounterLemmas

variable {hash : String → Nat} {s : ChatTrackerImpl}

theorem getD_nodup (w : WF hash s) (n : String) :
    (((history hash s n).getD []).map Prod.fst).Nodup := by
  cases h : history hash s n with
  | none => simp
  | some l => exact history_nodup w h

theorem getD_nonneg (c : Counters hash s) (n : String) :
    ∀ x, x ∈ (history hash s n).getD [] → 0 ≤ x.2 := by
  intro x hx
  cases h : history hash s n with
  | none => simp [h] at hx
  | some l =>
    rw [h] at hx
    exact c.count_nonneg n l x h hx

/-- No history names a chat that is not in the chat directory. -/
theorem countIn_of_total_none (w : WF hash s) {r : String} (h : total hash s r = none)
    (n : String) : countIn r ((history hash s n).getD []) = 0 := by
  apply countIn_of_not_mem
  intro x hx hxr
  cases hl : history hash s n with
  | none => simp [hl] at hx
  | some l =>
    rw [hl] at hx
    obtain ⟨p, d, hp, _⟩ := chat_of_history w hl hx
    rw [hxr, total_eq_none h] at hp
    cases hp

theorem contributionSum_of_total_none (w : WF hash s) {r : String}
    (h : total hash s r = none) : contributionSum hash s r = 0 := by
  unfold contributionSum
  have : (userNames s).map (fun n => countIn r ((history hash s n).getD [])) =
      (userNames s).map (fun _ => (0 : Int)) :=
    List.map_congr_left (fun n _ => countIn_of_total_none w h n)
  rw [this]
  simp

theorem countIn_history_join (w : WF hash s) (u r r1 n : String) :
    countIn r1 ((history hash (join hash s u r) n).getD []) =
      countIn r1 ((history hash s n).getD []) := by
  rw [history_join w]
  by_cases hn : n = u
  · subst hn
    simp only [if_true, Option.getD_some]
    exact countIn_joinHistory r r1 (getD_nodup w n)
  · simp [hn]

theorem contributionSum_join (w : WF hash s) (u r r1 : String) :
    contributionSum hash (join hash s u r) r1 = contributionSum hash s r1 := by
  unfold contributionSum
  have hfun : (fun n => countIn r1 ((history hash (join hash s u r) n).getD [])) =
      (fun n => countIn r1 ((history hash s n).getD [])) :=
    funext (countIn_history_join w u r r1)
  rw [hfun, userNames_join w]
  cases hf : findUser hash s u with
  | some p => simp
  | none =>
    simp only [Option.isSome_none, Bool.false_eq_true, if_false, List.map_append,
      List.sum_append, List.map_cons, List.map_nil, List.sum_cons, List.sum_nil]
    rw [history_of_none hf]
    simp [countIn_nil]

theorem getD_history_contribute (w : WF hash s) (u n : String) :
    (history hash (contribute hash s u).1 n).getD [] =
      if n = u then bumpHead ((history hash s u).getD []) else (history hash s n).getD [] := by
  rw [history_contribute w]
  by_cases hn : n = u
  · simp only [hn, if_true]
    cases history hash s u <;> rfl
  · simp [hn]

theorem currentChat_eq (n : String) :
    currentChat hash s n = ((history hash s n).getD []).head?.map Prod.fst := by
  unfold currentChat
  cases history hash s n <;> rfl

theorem contributionSum_contribute (w : WF hash s) (u r1 : String) :
    contributionSum hash (contribute hash s u).1 r1 =
      contributionSum hash s r1 + (if currentChat hash s u = some r1 then 1 else 0) := by
  unfold contributionSum
  rw [userNames_contribute w]
  by_cases hc : currentChat hash s u = some r1
  · simp only [hc, if_true]
    have hu : u ∈ userNames s := by
      rw [mem_userNames w]
      cases hf : findUser hash s u with
      | some p => rfl
      | none => simp [currentChat, history_of_none hf] at hc
    rw [sum_map_update (userNames_nodup w) hu (f := fun n => countIn r1 ((history hash s n).getD []))]
    · simp only [getD_history_contribute w, if_true, countIn_bumpHead, ← currentChat_eq, hc]
      omega
    · intro n _ hne
      simp only [getD_history_contribute w, hne, if_false]
  · simp only [hc, if_false, add_zero]
    apply sum_map_congr
    intro n _
    simp only [getD_history_contribute w]
    by_cases hn : n = u
    · subst hn
      simp only [if_true, countIn_bumpHead, ← currentChat_eq, hc, if_false, add_zero]
    · simp [hn]

theorem contributionSum_leave_le (w : WF hash s) (c : Counters hash s) (u r r1 : String) :
    contributionSum hash (leave hash s u r).1 r1 ≤ contributionSum hash s r1 := by
  unfold contributionSum
  rw [userNames_leave w]
  apply sum_map_le
  intro n _
  rw [history_leave w]
  by_cases hn : n = u
  · subst hn
    simp only [if_true]
    cases hl : history hash s n with
    | none => simp
    | some l =>
      simp only [Option.map_some', Option.getD_some]
      exact countIn_filter_le r r1 (fun x hx => c.count_nonneg n l x hl hx)
  · simp [hn]

theorem contributionSum_leaveCurrent_le (w : WF hash s) (c : Counters hash s) (u r1 : String) :
    contributionSum hash (leaveCurrent hash s u).1 r1 ≤ contributionSum hash s r1 := by
  unfold contributionSum
  rw [userNames_leaveCurrent]
  apply sum_map_le
  intro n _
  rw [history_leaveCurrent w]
  by_cases hn : n = u
  · subst hn
    simp only [if_true]
    cases hl : history hash s n with
    | none => simp
    | some l =>
      simp only [Option.map_some', Option.getD_some]
      exact countIn_tail_le r1 (fun x hx => c.count_nonneg n l x hl hx)
  · simp [hn]

theorem contributionSum_terminate (w : WF hash s) (r r1 : String) (h : r1 ≠ r) :
    contributionSum hash (terminate hash s r).1 r1 = contributionSum hash s r1 := by
  unfold contributionSum
  rw [userNames_terminate w]
  apply sum_map_congr
  intro n _
  rw [history_terminate w]
  cases hl : history hash s n with
  | none => rfl
  | some l =>
    simp only [Option.map_some', Option.getD_some, countIn_filter_ne, h, if_false]

theorem counters_new (hash : String → Nat) (n : Nat) : Counters hash (ChatTrackerImpl.new n) where
  count_nonneg := by
    intro u l x h
    rw [history_new] at h
    cases h
  total_nonneg := by
    intro r t h
    rw [total_new] at h
    cases h
  sum_le := by
    intro r t h
    rw [total_new] at h
    cases h

theorem mem_joinHistory {r : String} {l : List (String × Int)} {x : String × Int}
    (h : x ∈ joinHistory r l) : x ∈ l ∨ x = (r, 0) := by
  unfold joinHistory at h
  cases hf : l.find? (fun y => y.1 == r) with
  | none =>
    rw [hf] at h
    rcases List.mem_cons.mp h with h1 | h1
    · exact Or.inr h1
    · exact Or.inl h1
  | some y =>
    rw [hf] at h
    rcases List.mem_cons.mp h with h1 | h1
    · exact Or.inl (h1 ▸ List.mem_of_find?_eq_some hf)
    · exact Or.inl (List.mem_filter.mp h1).1

theorem mem_bumpHead_nonneg {l : List (String × Int)} (h : ∀ x, x ∈ l → 0 ≤ x.2)
    {x : String × Int} (hx : x ∈ bumpHead l) : 0 ≤ x.2 := by
  cases l with
  | nil => simp [bumpHead] at hx
  | cons a t =>
    simp only [bumpHead, List.mem_cons] at hx
    rcases hx with h1 | h1
    · have := h a (List.mem_cons_self a t)
      rw [h1]
      simp only
      omega
    · exact h x (List.mem_cons_of_mem a h1)

theorem counters_join (w : WF hash s) (c : Counters hash s) (u r : String) :
    Counters hash (join hash s u r) where
  count_nonneg := by
    intro n l x hl hx
    rw [history_join w] at hl
    by_cases hn : n = u
    · simp only [hn, if_true, Option.some.injEq] at hl
      subst hl
      rcases mem_joinHistory hx with h1 | h1
      · exact getD_nonneg c u x h1
      · rw [h1]
    · simp only [hn, if_false] at hl
      exact c.count_nonneg n l x hl hx
  total_nonneg := by
    intro r1 t ht
    rw [total_join w] at ht
    by_cases hr : r1 = r
    · simp only [hr, if_true, Option.some.injEq] at ht
      cases h0 : total hash s r with
      | none => simp [h0] at ht; omega
      | some t0 =>
        simp [h0] at ht
        rw [← ht]
        exact c.total_nonneg r t0 h0
    · simp only [hr, if_false] at ht
      exact c.total_nonneg r1 t ht
  sum_le := by
    intro r1 t ht
    rw [contributionSum_join w]
    rw [total_join w] at ht
    by_cases hr : r1 = r
    · simp only [hr, if_true, Option.some.injEq] at ht
      rw [hr]
      cases h0 : total hash s r with
      | none =>
        simp [h0] at ht
        rw [contributionSum_of_total_none w h0]
        omega
      | some t0 =>
        simp [h0] at ht
        rw [← ht]
        exact c.sum_le r t0 h0
    · simp only [hr, if_false] at ht
      exact c.sum_le r1 t ht

theorem counters_contribute (w : WF hash s) (c : Counters hash s) (u : String) :
    Counters hash (contribute hash s u).1 where
  count_nonneg := by
    intro n l x hl hx
    rw [history_contribute w] at hl
    by_cases hn : n = u
    · simp only [hn, if_true] at hl
      cases h0 : history hash s u with
      | none => simp [h0] at hl
      | some l0 =>
        simp [h0] at hl
        subst hl
        exact mem_bumpHead_nonneg (fun y hy => c.count_nonneg u l0 y h0 hy) hx
    · simp only [hn, if_false] at hl
      exact c.count_nonneg n l x hl hx
  total_nonneg := by
    intro r1 t ht
    rw [total_contribute w] at ht
    by_cases hc : currentChat hash s u = some r1
    · simp only [hc, if_true] at ht
      cases h0 : total hash s r1 with
      | none => simp [h0] at ht
      | some t0 =>
        simp [h0] at ht
        have := c.total_nonneg r1 t0 h0
        omega
    · simp only [hc, if_false] at ht
      exact c.total_nonneg r1 t ht
  sum_le := by
    intro r1 t ht
    rw [contributionSum_contribute w]
    rw [total_contribute w] at ht
    by_cases hc : currentChat hash s u = some r1
    · simp only [hc, if_true] at ht ⊢
      cases h0 : total hash s r1 with
      | none => simp [h0] at ht
      | some t0 =>
        simp [h0] at ht
        have := c.sum_le r1 t0 h0
        omega
    · simp only [hc, if_false, add_zero] at ht ⊢
      exact c.sum_le r1 t ht

theorem counters_leave (w : WF hash s) (c : Counters hash s) (u r : String) :
    Counters hash (leave hash s u r).1 where
  count_nonneg := by
    intro n l x hl hx
    rw [history_leave w] at hl
    by_cases hn : n = u
    · simp only [hn, if_true] at hl
      cases h0 : history hash s u with
      | none => simp [h0] at hl
      | some l0 =>
        simp [h0] at hl
        subst hl
        exact c.count_nonneg u l0 x h0 (List.mem_filter.mp hx).1
    · simp only [hn, if_false] at hl
      exact c.count_nonneg n l x hl hx
  total_nonneg := by
    intro r1 t ht
    rw [total_leave w] at ht
    exact c.total_nonneg r1 t ht
  sum_le := by
    intro r1 t ht
    rw [total_leave w] at ht
    exact le_trans (contributionSum_leave_le w c u r r1) (c.sum_le r1 t ht)

theorem counters_leaveCurrent (w : WF hash s) (c : Counters hash s) (u : String) :
    Counters hash (leaveCurrent hash s u).1 where
  count_nonneg := by
    intro n l x hl hx
    rw [history_leaveCurrent w] at hl
    by_cases hn : n = u
    · simp only [hn, if_true] at hl
      cases h0 : history hash s u with
      | none => simp [h0] at hl
      | some l0 =>
        simp [h0] at hl
        subst hl
        exact c.count_nonneg u l0 x h0 (List.mem_of_mem_tail hx)
    · simp only [hn, if_false] at hl
      exact c.count_nonneg n l x hl hx
  total_nonneg := by
    intro r1 t ht
    rw [total_leaveCurrent] at ht
    exact c.total_nonneg r1 t ht
  sum_le := by
    intro r1 t ht
    rw [total_leaveCurrent] at ht
    exact le_trans (contributionSum_leaveCurrent_le w c u r1) (c.sum_le r1 t ht)

theorem counters_terminate (w : WF hash s) (c : Counters hash s) (r : String) :
    Counters hash (terminate hash s r).1 where
  count_nonneg := by
    intro n l x hl hx
    rw [history_terminate w] at hl
    cases h0 : history hash s n with
    | none => simp [h0] at hl
    | some l0 =>
      simp [h0] at hl
      subst hl
      exact c.count_nonneg n l0 x h0 (List.mem_filter.mp hx).1
  total_nonneg := by
    intro r1 t ht
    rw [total_terminate w] at ht
    by_cases hr : r1 = r
    · simp [hr] at ht
    · simp only [hr, if_false] at ht
      exact c.total_nonneg r1 t ht
  sum_le := by
    intro r1 t ht
    rw [total_terminate w] at ht
    by_cases hr : r1 = r
    · simp [hr] at ht
    · simp only [hr, if_false] at ht
      rw [contributionSum_terminate w r r1 hr]
      exact c.sum_le r1 t ht

theorem counters_step (w : WF hash s) (c : Counters hash s) (op : Op) :
    Counters hash (step hash s op).1 := by
  cases op with
  | join n r => exact counters_join w c n r
  | terminate r => exact counters_terminate w c r
  | contribute n => exact counters_contribute w c n
  | leave n r => exact counters_leave w c n r
  | leaveCurrent n => exact counters_leaveCurrent w c n

theorem counters_run (ops : List Op) :
    ∀ s : ChatTrackerImpl, WF hash s → Counters hash s → Counters hash (run hash s ops) := by
  induction ops with
  | nil => intro s _ c; exact c
  | cons op t ih => intro s w c; exact ih _ (wf_step w op) (counters_step w c op)

/-- Every reachable state satisfies the counter invariant. -/
theorem reachable_counters (h : Reachable hash s) : Counters hash s := by
  obtain ⟨n, ops, hn, rfl⟩ := h
  exact counters_run ops _ (wf_new hash n hn) (counters_new hash n)

end CounterLemmas

/-- C14: in every reachable state the total of every existing chat `r` is at least the sum,
over all users, of the count the user holds for `r` (a user whose history does not name `r`
adds 0); the sum runs over every user of the directory exactly once. -/
theorem C14_total_bounds_counts (hash : String → Nat) (s : ChatTrackerImpl) (r : String)
    (t : Int) (hs : Reachable hash s) (ht : total hash s r = some t) :
    contributionSum hash s r ≤ t ∧
    (userNames s).Nodup ∧
    (∀ n, n ∈ userNames s ↔ (findUser hash s n).isSome) := by
  have w := reachable_wf hs
  exact ⟨(reachable_counters hs).sum_le r t ht, userNames_nodup w, mem_userNames w⟩

/-- C14 at `demoState`: chat `r` has total 3, ann holds 2 and bob 1. -/
theorem C14_witness :
    (Reachable String.length demoState ∧ total String.length demoState "r" = some 3) ∧
      contributionSum String.length demoState "r" ≤ 3 :=
  ⟨⟨⟨2, demoOps, by decide, rfl⟩, by decide⟩,
    (C14_total_bounds_counts String.length demoState "r" 3 ⟨2, demoOps, by decide, rfl⟩
      (by decide)).1⟩

/-- C20: in every reachable state no count and no total is negative, `leave(u, r)` returns -1
exactly when no user is called `u`, or no chat is called `r`, or `r` is not in the history of
`u`, `leave(u)` returns -1 exactly when no user is called `u` or the history of `u` is empty,
and every other result of the two functions is at least 0. -/
theorem C20_sentinels_unambiguous (hash : String → Nat) (s : ChatTrackerImpl)
    (hs : Reachable hash s) :
    (∀ n l x, history hash s n = some l → x ∈ l → 0 ≤ x.2) ∧
    (∀ r t, total hash s r = some t → 0 ≤ t) ∧
    (∀ u r, (leave hash s u r).2 = -1 ↔
      (findUser hash s u = none ∨ findChat hash s r = none ∨
        ∃ l, history hash s u = some l ∧ ∀ x, x ∈ l → x.1 ≠ r)) ∧
    (∀ u r, (leave hash s u r).2 ≠ -1 → 0 ≤ (leave hash s u r).2) ∧
    (∀ u, (leaveCurrent hash s u).2 = -1 ↔
      (findUser hash s u = none ∨ history hash s u = some [])) ∧
    (∀ u, (leaveCurrent hash s u).2 ≠ -1 → 0 ≤ (leaveCurrent hash s u).2) := by
  have w := reachable_wf hs
  have c := reachable_counters hs
  have hleave : ∀ u r, ((leave hash s u r).2 = -1 ∧
      (history hash s u).bind (fun l => l.find? (fun x => x.1 == r)) = none) ∨
      (0 ≤ (leave hash s u r).2 ∧
        ∃ x, (history hash s u).bind (fun l => l.find? (fun x => x.1 == r)) = some x) := by
    intro u r
    have hres := leave_result w u r
    cases hf : (history hash s u).bind (fun l => l.find? (fun x => x.1 == r)) with
    | none =>
      rw [hf] at hres
      exact Or.inl ⟨hres, rfl⟩
    | some x =>
      rw [hf] at hres
      right
      refine ⟨?_, x, rfl⟩
      rw [hres]
      cases hl : history hash s u with
      | none => simp [hl] at hf
      | some l =>
        simp only [hl, Option.some_bind] at hf
        exact c.count_nonneg u l x hl (List.mem_of_find?_eq_some hf)
  have hcur : ∀ u, ((leaveCurrent hash s u).2 = -1 ∧
      (history hash s u = none ∨ history hash s u = some [])) ∨
      (0 ≤ (leaveCurrent hash s u).2 ∧ ∃ x t, history hash s u = some (x :: t)) := by
    intro u
    have hres := @leaveCurrent_result hash s u
    cases hl : history hash s u with
    | none =>
      rw [hl] at hres
      exact Or.inl ⟨hres, Or.inl rfl⟩
    | some l =>
      cases l with
      | nil =>
        rw [hl] at hres
        exact Or.inl ⟨hres, Or.inr rfl⟩
      | cons x t =>
        rw [hl] at hres
        right
        refine ⟨?_, x, t, rfl⟩
        rw [hres]
        exact c.count_nonneg u (x :: t) x hl (List.mem_cons_self x t)
  refine ⟨c.count_nonneg, c.total_nonneg, ?_, ?_, ?_, ?_⟩
  · intro u r
    constructor
    · intro h
      rcases hleave u r with ⟨_, hnone⟩ | ⟨hpos, _⟩
      · cases hl : history hash s u with
        | none => exact Or.inl (history_eq_none hl)
        | some l =>
          simp only [hl, Option.some_bind, List.find?_eq_none] at hnone
          exact Or.inr (Or.inr ⟨l, rfl, fun x hx hxr => hnone x hx (by simpa using hxr)⟩)
      · rw [h] at hpos
        omega
    · intro h
      rcases hleave u r with ⟨hres, _⟩ | ⟨_, x, hx⟩
      · exact hres
      · exfalso
        cases hl : history hash s u with
        | none => simp [hl] at hx
        | some l =>
          simp only [hl, Option.some_bind] at hx
          have hmem := List.mem_of_find?_eq_some hx
          have hxr : x.1 = r := by simpa using List.find?_some hx
          rcases h with h | h | ⟨l1, hl1, hne⟩
          · rw [history_of_none h] at hl
            cases hl
          · obtain ⟨p, d, hp, _⟩ := chat_of_history w hl hmem
            rw [hxr, h] at hp
            cases hp
          · rw [hl] at hl1
            cases hl1
            exact hne x hmem hxr
  · intro u r h
    rcases hleave u r with ⟨hres, _⟩ | ⟨hpos, _⟩
    · exact absurd hres h
    · exact hpos
  · intro u
    constructor
    · intro h
      rcases hcur u with ⟨_, h1 | h1⟩ | ⟨hpos, _⟩
      · exact Or.inl (history_eq_none h1)
      · exact Or.inr h1
      · rw [h] at hpos
        omega
    · intro h
      rcases hcur u with ⟨hres, _⟩ | ⟨_, x, t, hx⟩
      · exact hres
      · exfalso
        rcases h with h | h
        · rw [history_of_none h] at hx
          cases hx
        · rw [h] at hx
          cases hx
  · intro u h
    rcases hcur u with ⟨hres, _⟩ | ⟨hpos, _⟩
    · exact absurd hres h
    · exact hpos

/-- C20 at `demoState`. -/
theorem C20_witness :
    Reachable String.length demoState ∧
      ∀ r t, total String.length demoState r = some t → 0 ≤ t :=
  ⟨⟨2, demoOps, by decide, rfl⟩,
    (C20_sentinels_unambiguous String.length demoState ⟨2, demoOps, by decide, rfl⟩).2.1⟩

section RefLemmas

theorem refEnsureRoom_users (t : RefTracker) (r : String) :
    (refEnsureRoom t r).users = t.users := by
  unfold refEnsureRoom
  cases t.rooms r <;> rfl

theorem refEnsureRoom_rooms (t : RefTracker) (r r1 : String) :
    (refEnsureRoom t r).rooms r1 =
      if r1 = r then some ((t.rooms r).getD ([], 0)) else t.rooms r1 := by
  unfold refEnsureRoom
  cases h : t.rooms r with
  | none => simp [RefTracker.putRoom]
  | some v =>
    by_cases hr : r1 = r
    · simp [hr, h]
    · simp [hr]

theorem refEnsureUser_rooms (t : RefTracker) (u : String) :
    (refEnsureUser t u).rooms = t.rooms := by
  unfold refEnsureUser
  cases t.users u <;> rfl

theorem refEnsureUser_users (t : RefTracker) (u n : String) :
    (refEnsureUser t u).users n =
      if n = u then some ((t.users u).getD []) else t.users n := by
  unfold refEnsureUser
  cases h : t.users u with
  | none => simp [RefTracker.putUser]
  | some v =>
    by_cases hr : n = u
    · simp [hr, h]
    · simp [hr]

theorem refJoinRoom_users (t : RefTracker) (u r n : String) {h : List (String × Int)}
    (hu : t.users u = some h) :
    (refJoinRoom t u r).users n =
      if n = u then some (refJoinHistory r h) else t.users n := by
  unfold refJoinRoom refJoinHistory
  simp only [hu]
  cases hf : h.find? (fun x => x.1 == r) with
  | some x => simp [RefTracker.putUser]
  | none =>
    cases hr : t.rooms r with
    | none => simp [RefTracker.putUser]
    | some v => simp [RefTracker.putUser, RefTracker.putRoom]

theorem refJoinRoom_rooms (t : RefTracker) (u r r1 : String) {h : List (String × Int)}
    {v : List String × Int} (hu : t.users u = some h) (hr : t.rooms r = some v) :
    (refJoinRoom t u r).rooms r1 =
      if r1 = r then
        some (if h.find? (fun x => x.1 == r) = none then u :: v.1 else v.1, v.2)
      else t.rooms r1 := by
  unfold refJoinRoom
  simp only [hu]
  cases hf : h.find? (fun x => x.1 == r) with
  | some x =>
    by_cases h1 : r1 = r
    · simp [RefTracker.putUser, h1, hr]
    · simp [RefTracker.putUser, h1]
  | none =>
    by_cases h1 : r1 = r
    · simp [RefTracker.putUser, RefTracker.putRoom, h1, hr]
    · simp [RefTracker.putUser, RefTracker.putRoom, h1, hr]

theorem refJoin_users (t : RefTracker) (u r n : String) :
    (refJoin t u r).users n =
      if n = u then some (refJoinHistory r ((t.users u).getD [])) else t.users n := by
  unfold refJoin
  have hu : (refEnsureUser (refEnsureRoom t r) u).users u = some ((t.users u).getD []) := by
    rw [refEnsureUser_users, refEnsureRoom_users]; simp
  rw [refJoinRoom_users _ u r n hu, refEnsureUser_users, refEnsureRoom_users]
  by_cases hn : n = u
  · simp [hn]
  · simp [hn]

theorem refJoin_rooms (t : RefTracker) (u r r1 : String) :
    (refJoin t u r).rooms r1 =
      if r1 = r then
        some (if ((t.users u).getD []).find? (fun x => x.1 == r) = none
          then u :: ((t.rooms r).getD ([], 0)).1 else ((t.rooms r).getD ([], 0)).1,
          ((t.rooms r).getD ([], 0)).2)
      else t.rooms r1 := by
  unfold refJoin
  have hu : (refEnsureUser (refEnsureRoom t r) u).users u = some ((t.users u).getD []) := by
    rw [refEnsureUser_users, refEnsureRoom_users]; simp
  have hr : (refEnsureUser (refEnsureRoom t r) u).rooms r = some ((t.rooms r).getD ([], 0)) := by
    rw [refEnsureUser_rooms, refEnsureRoom_rooms]; simp
  rw [refJoinRoom_rooms _ u r r1 hu hr, refEnsureUser_rooms, refEnsureRoom_rooms]
  by_cases hn : r1 = r
  · simp [hn]
  · simp [hn]

end RefLemmas

section RefLemmas2

/-- With one entry per name, removing the first entry named `r` removes every entry named
`r`. -/
theorem eraseP_name_eq_filter {l : List (String × Int)} (r : String)
    (h : (l.map Prod.fst).Nodup) :
    l.eraseP (fun y => y.1 == r) = l.filter (fun y => y.1 != r) := by
  induction l with
  | nil => rfl
  | cons a t ih =>
    simp only [List.map_cons, List.nodup_cons] at h
    by_cases ha : a.1 = r
    · have hb : (a.1 == r) = true := by simpa using ha
      rw [List.eraseP_cons, hb]
      have hf : t.filter (fun y => y.1 != r) = t := by
        apply filter_of_not_mem
        intro y hy hyr
        exact h.1 (by rw [ha, ← hyr]; exact List.mem_map_of_mem Prod.fst hy)
      simp [List.filter_cons, ha, hf]
    · have hb : (a.1 == r) = false := by simpa using ha
      rw [List.eraseP_cons, hb, ih h.2]
      simp [List.filter_cons, ha]

theorem refJoinHistory_eq {l : List (String × Int)} (r : String)
    (h : (l.map Prod.fst).Nodup) : refJoinHistory r l = joinHistory r l := by
  unfold refJoinHistory joinHistory
  rw [eraseP_name_eq_filter r h]

theorem refLeaveRoom_rooms (t : RefTracker) (u r : String) :
    (refLeaveRoom t u r).1.rooms = t.rooms := by
  unfold refLeaveRoom
  cases t.users u with
  | none => rfl
  | some h =>
    simp only
    cases h.find? (fun x => x.1 == r) <;> rfl

theorem refLeaveRoom_users (t : RefTracker) (u r n : String) :
    (refLeaveRoom t u r).1.users n =
      if n = u then (t.users u).map (fun l => l.eraseP (fun y => y.1 == r)) else t.users n := by
  unfold refLeaveRoom
  cases hu : t.users u with
  | none =>
    by_cases hn : n = u
    · simp [hn, hu]
    · simp [hn]
  | some h =>
    simp only [Option.map_some']
    cases hf : h.find? (fun x => x.1 == r) with
    | some x => simp [RefTracker.putUser]
    | none =>
      have : h.eraseP (fun y => y.1 == r) = h :=
        List.eraseP_of_forall_not (fun a ha => by simpa using List.find?_eq_none.mp hf a ha)
      by_cases hn : n = u
      · simp [hn, hu, this]
      · simp [hn]

theorem refLeaveRoom_result (t : RefTracker) (u r : String) :
    (refLeaveRoom t u r).2 =
      match (t.users u).bind (fun l => l.find? (fun x => x.1 == r)) with
      | some x => x.2
      | none => -1 := by
  unfold refLeaveRoom
  cases hu : t.users u with
  | none => rfl
  | some h =>
    cases hf : h.find? (fun x => x.1 == r) with
    | some x => simp [hf]
    | none => simp [hf]

/-- When a room that does not exist is in no history, `leave(user, room)` is `leaveRoom`. -/
theorem refLeave_eq (t : RefTracker) (u r : String)
    (h : t.rooms r = none → (t.users u).bind (fun l => l.find? (fun x => x.1 == r)) = none) :
    refLeave t u r = refLeaveRoom t u r := by
  unfold refLeave
  cases hu : t.users u with
  | none => simp [refLeaveRoom, hu]
  | some l =>
    cases hr : t.rooms r with
    | some v => rfl
    | none =>
      have := h hr
      simp only [hu, Option.some_bind] at this
      simp [refLeaveRoom, hu, this]

theorem refLeaveCurrent_rooms (t : RefTracker) (u : String) :
    (refLeaveCurrent t u).1.rooms = t.rooms := by
  unfold refLeaveCurrent
  split <;> rfl

theorem refLeaveCurrent_users (t : RefTracker) (u n : String) :
    (refLeaveCurrent t u).1.users n =
      if n = u then (t.users u).map List.tail else t.users n := by
  unfold refLeaveCurrent
  cases hu : t.users u with
  | none =>
    by_cases hn : n = u
    · simp [hn, hu]
    · simp [hn]
  | some h =>
    cases h with
    | nil =>
      by_cases hn : n = u
      · simp [hn, hu]
      · simp [hn]
    | cons x rest => simp [RefTracker.putUser]

theorem refLeaveCurrent_result (t : RefTracker) (u : String) :
    (refLeaveCurrent t u).2 =
      match t.users u with
      | some (x :: _) => x.2
      | _ => -1 := by
  unfold refLeaveCurrent
  cases hu : t.users u with
  | none => rfl
  | some h => cases h <;> rfl

theorem refContribute_result (t : RefTracker) (u : String) :
    (refContribute t u).2 =
      match t.users u with
      | some (x :: _) => x.2 + 1
      | _ => 0 := by
  unfold refContribute
  cases hu : t.users u with
  | none => rfl
  | some h => cases h <;> rfl

theorem refContribute_users (t : RefTracker) (u n : String) :
    (refContribute t u).1.users n =
      if n = u then (t.users u).map bumpHead else t.users n := by
  unfold refContribute
  cases hu : t.users u with
  | none =>
    by_cases hn : n = u
    · simp [hn, hu]
    · simp [hn]
  | some h =>
    cases h with
    | nil =>
      by_cases hn : n = u
      · simp [hn, hu, bumpHead]
      · simp [hn]
    | cons x rest =>
      simp only [RefTracker.putUser, Option.map_some', bumpHead]
      cases t.rooms x.1 <;> rfl

theorem refContribute_rooms (t : RefTracker) (u r : String) :
    (refContribute t u).1.rooms r =
      if (t.users u).bind (fun l => l.head?.map Prod.fst) = some r
      then (t.rooms r).map (fun v => (v.1, v.2 + 1)) else t.rooms r := by
  unfold refContribute
  cases hu : t.users u with
  | none => simp
  | some h =>
    cases h with
    | nil => simp
    | cons x rest =>
      simp only [Option.some_bind, List.head?_cons, Option.map_some', Option.some.injEq]
      cases hx : t.rooms x.1 with
      | none =>
        by_cases hr : x.1 = r
        · subst hr
          simp [RefTracker.putUser, hx]
        · simp [RefTracker.putUser, hr]
      | some v =>
        by_cases hr : x.1 = r
        · subst hr
          simp [RefTracker.putUser, RefTracker.putRoom, hx]
        · have hr2 : ¬ r = x.1 := fun h => hr h.symm
          simp [RefTracker.putUser, RefTracker.putRoom, hr, hr2]

/-- The loop of `terminate` in the reference tracker, when no history names a room twice. -/
theorem refTerminateLoop (r : String) (m : List String) :
    ∀ t : RefTracker, (∀ n l, t.users n = some l → (l.map Prod.fst).Nodup) →
      (m.foldl (fun acc x => (refLeaveRoom acc x r).1) t).rooms = t.rooms ∧
      ∀ n, (m.foldl (fun acc x => (refLeaveRoom acc x r).1) t).users n =
        if n ∈ m then (t.users n).map (List.filter (fun y => y.1 != r)) else t.users n := by
  induction m with
  | nil => intro t _; simp
  | cons a rest ih =>
    intro t hd
    have hd1 : ∀ n l, (refLeaveRoom t a r).1.users n = some l → (l.map Prod.fst).Nodup := by
      intro n l hl
      rw [refLeaveRoom_users] at hl
      by_cases hn : n = a
      · simp only [hn, if_true] at hl
        cases h0 : t.users a with
        | none => simp [h0] at hl
        | some l0 =>
          simp [h0] at hl
          subst hl
          exact List.Nodup.sublist ((List.eraseP_sublist l0).map Prod.fst) (hd a l0 h0)
      · simp only [hn, if_false] at hl
        exact hd n l hl
    obtain ⟨g1, g2⟩ := ih (refLeaveRoom t a r).1 hd1
    simp only [List.foldl_cons]
    refine ⟨g1.trans (refLeaveRoom_rooms t a r), ?_⟩
    intro n
    rw [g2 n, refLeaveRoom_users]
    by_cases hna : n = a
    · subst hna
      simp only [if_true, List.mem_cons, true_or]
      cases h0 : t.users n with
      | none => simp
      | some l0 =>
        have e1 := eraseP_name_eq_filter r (hd n l0 h0)
        by_cases hm : n ∈ rest
        · simp [hm, e1, List.filter_filter]
        · simp [hm, e1]
    · by_cases hm : n ∈ rest
      · simp [hna, hm]
      · simp [hna, hm]

end RefLemmas2

section SimLemmas

variable {hash : String → Nat} {s : ChatTrackerImpl} {t : RefTracker}

theorem members_new (hash : String → Nat) (n : Nat) (r : String) :
    members hash (ChatTrackerImpl.new n) r = none := by
  simp [members, findChat, ChatTrackerImpl.new, bucket_replicate]

theorem sim_new (hash : String → Nat) (n : Nat) :
    Sim hash (ChatTrackerImpl.new n) RefTracker.empty where
  users := fun u => history_new hash n u
  totals := fun r => total_new hash n r
  members := fun r => members_new hash n r

theorem Sim.nodup (h : Sim hash s t) (w : WF hash s) :
    ∀ n l, t.users n = some l → (l.map Prod.fst).Nodup := by
  intro n l hl
  rw [← h.users n] at hl
  exact history_nodup w hl

theorem sim_join (w : WF hash s) (h : Sim hash s t) (u r : String) :
    Sim hash (join hash s u r) (refJoin t u r) where
  users := by
    intro n
    rw [history_join w, refJoin_users, ← h.users u, ← h.users n,
      refJoinHistory_eq r (getD_nodup w u)]
  totals := by
    intro r1
    rw [total_join w, refJoin_rooms, h.totals r, h.totals r1]
    by_cases hr : r1 = r
    · simp only [hr, if_true, Option.map_some']
      cases t.rooms r <;> rfl
    · simp [hr]
  members := by
    intro r1
    rw [members_join w, refJoin_rooms, h.members r, h.members r1, h.users u]
    by_cases hr : r1 = r
    · simp only [hr, if_true, Option.map_some']
      cases t.rooms r <;> rfl
    · simp [hr]

theorem sim_contribute (w : WF hash s) (h : Sim hash s t) (u : String) :
    Sim hash (contribute hash s u).1 (refContribute t u).1 ∧
    (contribute hash s u).2 = (refContribute t u).2 := by
  refine ⟨⟨?_, ?_, ?_⟩, ?_⟩
  · intro n
    rw [history_contribute w, refContribute_users, h.users u, h.users n]
  · intro r
    rw [total_contribute w, refContribute_rooms, h.totals r]
    unfold currentChat
    rw [h.users u]
    by_cases hc : (t.users u).bind (fun l => l.head?.map Prod.fst) = some r
    · simp only [hc, if_true]
      cases t.rooms r <;> rfl
    · simp only [hc, if_false]
  · intro r
    rw [members_contribute w, refContribute_rooms, h.members r]
    by_cases hc : (t.users u).bind (fun l => l.head?.map Prod.fst) = some r
    · simp only [hc, if_true]
      cases t.rooms r <;> rfl
    · simp only [hc, if_false]
  · rw [contribute_result w, refContribute_result, h.users u]

theorem sim_leave (w : WF hash s) (h : Sim hash s t) (u r : String) :
    Sim hash (leave hash s u r).1 (refLeave t u r).1 ∧
    (leave hash s u r).2 = (refLeave t u r).2 := by
  have hroom : t.rooms r = none →
      (t.users u).bind (fun l => l.find? (fun x => x.1 == r)) = none := by
    intro hr
    have ht : total hash s r = none := by rw [h.totals r, hr]; rfl
    rw [← h.users u]
    cases hl : history hash s u with
    | none => rfl
    | some l =>
      simp only [Option.some_bind, List.find?_eq_none]
      intro x hx hxr
      obtain ⟨p, d, hp, _⟩ := chat_of_history w hl hx
      have : x.1 = r := by simpa using hxr
      rw [this, total_eq_none ht] at hp
      cases hp
  rw [refLeave_eq t u r hroom]
  refine ⟨⟨?_, ?_, ?_⟩, ?_⟩
  · intro n
    rw [history_leave w, refLeaveRoom_users, h.users u, h.users n]
    by_cases hn : n = u
    · subst hn
      simp only [if_true]
      cases hl : t.users n with
      | none => rfl
      | some l => simp [eraseP_name_eq_filter r (h.nodup w n l hl)]
    · simp [hn]
  · intro r1
    rw [total_leave w, refLeaveRoom_rooms, h.totals r1]
  · intro r1
    rw [members_leave w, refLeaveRoom_rooms, h.members r1]
  · rw [leave_result w, refLeaveRoom_result, h.users u]

theorem sim_leaveCurrent (w : WF hash s) (h : Sim hash s t) (u : String) :
    Sim hash (leaveCurrent hash s u).1 (refLeaveCurrent t u).1 ∧
    (leaveCurrent hash s u).2 = (refLeaveCurrent t u).2 := by
  refine ⟨⟨?_, ?_, ?_⟩, ?_⟩
  · intro n
    rw [history_leaveCurrent w, refLeaveCurrent_users, h.users u, h.users n]
  · intro r1
    rw [total_leaveCurrent, refLeaveCurrent_rooms, h.totals r1]
  · intro r1
    rw [members_leaveCurrent, refLeaveCurrent_rooms, h.members r1]
  · rw [leaveCurrent_result, refLeaveCurrent_result, h.users u]

theorem sim_terminate (w : WF hash s) (h : Sim hash s t) (r : String) :
    Sim hash (terminate hash s r).1 (refTerminate t r).1 ∧
    (terminate hash s r).2 = (refTerminate t r).2 := by
  cases hr : t.rooms r with
  | none =>
    have ht : total hash s r = none := by rw [h.totals r, hr]; rfl
    have hf := total_eq_none ht
    have e1 : terminate hash s r = (s, 0) := by simp [terminate, hf]
    have e2 : refTerminate t r = (t, 0) := by simp [refTerminate, hr]
    rw [e1, e2]
    exact ⟨h, rfl⟩
  | some v =>
    obtain ⟨g1, g2⟩ := refTerminateLoop r v.1 t (h.nodup w)
    have e2 : refTerminate t r =
        ((v.1.foldl (fun acc m => (refLeaveRoom acc m r).1) t).removeRoom r, v.2) := by
      simp [refTerminate, hr]
    rw [e2]
    refine ⟨⟨?_, ?_, ?_⟩, ?_⟩
    · intro n
      rw [history_terminate w]
      show _ = (v.1.foldl (fun acc m => (refLeaveRoom acc m r).1) t).users n
      rw [g2 n, ← h.users n]
      by_cases hm : n ∈ v.1
      · simp [hm]
      · simp only [hm, if_false]
        cases hl : history hash s n with
        | none => rfl
        | some l =>
          simp only [Option.map_some']
          congr 1
          apply filter_of_not_mem
          intro x hx hxr
          obtain ⟨m, hm1, hm2⟩ := member_of_history w hl hx
          rw [hxr, h.members r, hr] at hm1
          simp only [Option.map_some', Option.some.injEq] at hm1
          exact hm (hm1 ▸ hm2)
    · intro r1
      rw [total_terminate w, h.totals r1]
      show _ = (if r1 = r then none
        else (v.1.foldl (fun acc m => (refLeaveRoom acc m r).1) t).rooms r1).map Prod.snd
      rw [g1]
      by_cases h1 : r1 = r
      · simp [h1]
      · simp [h1]
    · intro r1
      rw [members_terminate w, h.members r1]
      show _ = (if r1 = r then none
        else (v.1.foldl (fun acc m => (refLeaveRoom acc m r).1) t).rooms r1).map Prod.fst
      rw [g1]
      by_cases h1 : r1 = r
      · simp [h1]
      · simp [h1]
    · rw [terminate_result w, h.totals r, hr]
      rfl

theorem sim_step (w : WF hash s) (h : Sim hash s t) (op : Op) :
    Sim hash (step hash s op).1 (refStep t op).1 ∧ (step hash s op).2 = (refStep t op).2 := by
  cases op with
  | join u r => exact ⟨sim_join w h u r, rfl⟩
  | terminate r =>
    obtain ⟨h1, h2⟩ := sim_terminate w h r
    exact ⟨h1, by simp only [step, refStep, h2]⟩
  | contribute u =>
    obtain ⟨h1, h2⟩ := sim_contribute w h u
    exact ⟨h1, by simp only [step, refStep, h2]⟩
  | leave u r =>
    obtain ⟨h1, h2⟩ := sim_leave w h u r
    exact ⟨h1, by simp only [step, refStep, h2]⟩
  | leaveCurrent u =>
    obtain ⟨h1, h2⟩ := sim_leaveCurrent w h u
    exact ⟨h1, by simp only [step, refStep, h2]⟩

theorem sim_results (ops : List Op) :
    ∀ (s : ChatTrackerImpl) (t : RefTracker), WF hash s → Sim hash s t →
      results hash s ops = refResults t ops := by
  induction ops with
  | nil => intro s t _ _; rfl
  | cons op rest ih =>
    intro s t w h
    obtain ⟨h1, h2⟩ := sim_step w h op
    simp only [results, refResults, h2, ih _ _ (wf_step w op) h1]

end SimLemmas

/-- C17: for every hash function, every bucket count of at least one and every sequence of
public operations, the bucketed tracker returns the same results as the reference tracker
whose directories are maps keyed by name; so the results depend neither on the hash function
nor on the bucket count. -/
theorem C17_refines_reference (hash : String → Nat) (n : Nat) (ops : List Op) (hn : 0 < n) :
    results hash (ChatTrackerImpl.new n) ops = refResults RefTracker.empty ops ∧
    ∀ (hash2 : String → Nat) (n2 : Nat), 0 < n2 →
      results hash (ChatTrackerImpl.new n) ops = results hash2 (ChatTrackerImpl.new n2) ops := by
  have h1 := sim_results ops _ _ (wf_new hash n hn) (sim_new hash n)
  refine ⟨h1, ?_⟩
  intro hash2 n2 hn2
  rw [h1, sim_results ops _ _ (wf_new hash2 n2 hn2) (sim_new hash2 n2)]

/-- C17 on the scenario of the specification, with one bucket (every name collides). -/
theorem C17_witness :
    0 < 1 ∧
      results (fun _ => 0) (ChatTrackerImpl.new 1) scenario =
        refResults RefTracker.empty scenario :=
  ⟨by decide, (C17_refines_reference (fun _ => 0) 1 scenario (by decide)).1⟩

end ChatTracker
